import Mathlib

namespace Pydeflate

/-!
Shallow embedding of the pydeflate compression engine
(`src/compressors/{integer,lz77,huffman,deflate}.py` and
`src/compressors/helpers/block_splitter.py`).

Bit strings (Python byte strings of ASCII `'0'`/`'1'`) are modelled as
`List Bool` with `true` standing for `'1'`.  Byte buffers are `List Nat`
with entries below 256.  Fallible Python code (raising exceptions) is
modelled with `Option`.
-/

/-- Structural worker for `natBitsRev`; the first argument is recursion fuel,
always at least the value being converted, which makes the definition
kernel-computable while agreeing with the plain halving recursion. -/
def natBitsRevF : Nat → Nat → List Bool
  | _, 0 => []
  | 0, _ + 1 => []
  | fuel + 1, n + 1 => (((n + 1) % 2) = 1) :: natBitsRevF fuel ((n + 1) / 2)

/-- Python `bin(n)[2:]` builds the binary numeral MSB-first; `bin(0)[2:] = "0"`.
`natBitsRev` is the LSB-first digit list of a positive number. -/
def natBitsRev (n : Nat) : List Bool :=
  natBitsRevF n n

/-- Python `bin(n)[2:]` as a list of bits, MSB first; `natBits 0 = [false]`. -/
def natBits (n : Nat) : List Bool :=
  if n = 0 then [false] else (natBitsRev n).reverse

/-- Python `int(s, 2)` on a bit string (empty string mapped to 0; the source
only evaluates it on non-empty strings or guards the empty case itself). -/
def bitsToNat (bits : List Bool) : Nat :=
  bits.foldl (fun a b => 2 * a + (if b then 1 else 0)) 0

/-- Python `f"{n:0{w}b}"` / `bin(n)[2:].zfill(w)`: the binary numeral of `n`
left-padded with zeros to width `w` (longer numerals are kept whole). -/
def toBinPadded (n w : Nat) : List Bool :=
  List.replicate (w - (natBits n).length) false ++ natBits n

/-! ## IntegerCompressor (`src/compressors/integer.py`) -/

/-- One integer of `IntegerCompressor.encode`:
`b'1' * len(bin(num)[2:]) + b'0' + bin(num)[2:]`. -/
def intEncodeOne (n : Nat) : List Bool :=
  List.replicate (natBits n).length true ++ [false] ++ natBits n

/-- `IntegerCompressor.encode`: concatenation of the per-integer encodings. -/
def intEncode (v : List Nat) : List Bool :=
  v.foldl (fun acc n => acc ++ intEncodeOne n) []

/-- Count of leading `'1'` characters, the inner `while` of
`IntegerCompressor.decode`. -/
def countLeadingTrue : List Bool → Nat
  | [] => 0
  | b :: rest => if b then countLeadingTrue rest + 1 else 0

/-- One iteration of the body of `IntegerCompressor.decode`: scan the unary
prefix, check the terminator and the payload bound, read the payload. -/
def intDecodeOne (data : List Bool) : Option (Nat × List Bool) :=
  let num := countLeadingTrue data
  if num ≥ data.length then none
  else if 2 * num + 1 > data.length then none
  else some (bitsToNat ((data.drop (num + 1)).take num), data.drop (2 * num + 1))

/-- The `while True` loop of `IntegerCompressor.decode`: raises (`none`) on
empty data, otherwise decodes one integer, appends it, and stops exactly when
the accumulated count reaches `target`.  The fuel argument is at least the
number of available bits, hence at least the iteration count (every
iteration consumes at least one bit), so it never runs out. -/
def intDecodeLoop : Nat → List Bool → Nat → List Nat → Option (List Nat × List Bool)
  | _, [], _, _ => none
  | 0, _ :: _, _, _ => none
  | fuel + 1, b :: bs, target, acc =>
    match intDecodeOne (b :: bs) with
    | none => none
    | some (v, rest) =>
      if acc.length + 1 = target then some (acc ++ [v], rest)
      else intDecodeLoop fuel rest target (acc ++ [v])

/-- `IntegerCompressor.decode(data, length)`. -/
def intDecode (data : List Bool) (target : Nat) : Option (List Nat × List Bool) :=
  intDecodeLoop data.length data target []

/-! ## LZ77 (`src/compressors/lz77.py`) -/

/-- The `while` loop of `LZ77Compressor._kmp_preprocess_pattern`.  The
fallback assignment `i = table[i - 1]` is written with a clamp to `i - 1`;
`kmpTable_getD_le` below shows every table entry `table[k]` satisfies
`table[k] ≤ k`, so the clamp never changes the value and only serves to make
termination structural. -/
def kmpTableLoop : Nat → List Nat → List Nat → Nat → Nat → List Nat
  | 0, _, table, _, _ => table
  | fuel + 1, p, table, i, j =>
    if j < p.length then
      if p.getD i 0 = p.getD j 0 then kmpTableLoop fuel p (table.set j (i + 1)) (i + 1) (j + 1)
      else if i = 0 then kmpTableLoop fuel p (table.set j 0) 0 (j + 1)
      else kmpTableLoop fuel p table (min (table.getD (i - 1) 0) (i - 1)) j
    else table

/-- `LZ77Compressor._kmp_preprocess_pattern`.  Every loop iteration strictly
decreases `2 * (len - j) + i` (thanks to the clamp in the fallback), so a
fuel of `2 * len + 2` always outlasts the loop. -/
def kmpTable (p : List Nat) : List Nat :=
  kmpTableLoop (2 * p.length + 2) p (List.replicate p.length 0) 0 1

/-- The `while` loop of `LZ77Compressor._partial_kmp_search`.  Here `i` is
the index in the pattern, `j` the index in the search string, `lml`/`lmi`
the longest partial match recorded so far (`lmi = -1` when none).  The
fallback `i = table[i - 1]` carries the same termination clamp as
`kmpTableLoop`. -/
def kmpSearchLoop : Nat → List Nat → List Nat → List Nat → Nat → Nat →
    Nat → Nat → Nat → Int → Int × Nat
  | 0, _, _, _, _, minMatch, _, _, lml, lmi =>
    if lml ≥ minMatch then (lmi, lml) else (lmi, 0)
  | fuel + 1, s, p, table, stopAfter, minMatch, i, j, lml, lmi =>
    if j < s.length then
      if j - i ≥ stopAfter then
        if lml ≥ minMatch then (lmi, lml) else (lmi, 0)
      else if p.getD i 0 = s.getD j 0 then
        if i + 1 = p.length then ((j : Int) - (i : Int), i + 1)
        else kmpSearchLoop fuel s p table stopAfter minMatch (i + 1) (j + 1) lml lmi
      else if i = 0 then kmpSearchLoop fuel s p table stopAfter minMatch 0 (j + 1) lml lmi
      else
        kmpSearchLoop fuel s p table stopAfter minMatch
          (min (table.getD (i - 1) 0) (i - 1)) j
          (if i > lml then i else lml) (if i > lml then (j : Int) - (i : Int) else lmi)
    else if lml ≥ minMatch then (lmi, lml) else (lmi, 0)

/-- `LZ77Compressor._partial_kmp_search(search_string, pattern, stop_after,
min_match_length)`; returns `(index, length)` with index `-1` when nothing
was recorded.  As in `kmpTable`, `2 * |s| + 2` units of fuel outlast the
loop, whose every iteration strictly decreases `2 * (|s| - j) + i`. -/
def kmpPartialSearch (s p : List Nat) (stopAfter minMatch : Nat) : Int × Nat :=
  kmpSearchLoop (2 * s.length + 2) s p (kmpTable p) stopAfter minMatch 0 0 0 (-1)

/-- An LZ77 token `(distance, length, next_character)`. -/
structure Token where
  dist : Nat
  len : Nat
  lit : Option Nat
deriving DecidableEq, Repr

/-- The `while i < n` loop of `LZ77Compressor.encode` with window 512,
lookahead 257, minimum match 3 and the default `stop_after = 2 ^ 20`.  The
cursor advances by at least 1 per emitted token, so fuel `n - i` (passed as
`n` at the top) outlasts the loop. -/
def lz77EncodeLoop : Nat → List Nat → Nat → List Token
  | 0, _, _ => []
  | fuel + 1, data, i =>
    if i < data.length then
      let searchWindow := (data.take i).drop (i - 512)
      let lookahead := (data.drop i).take 257
      let r := kmpPartialSearch searchWindow lookahead (2 ^ 20) 3
      if r.2 > 0 ∧ lookahead.length ≥ 3 then
        let distance := searchWindow.length - r.1.toNat
        let nextChar := if i + r.2 < data.length then some (data.getD (i + r.2) 0) else none
        ⟨distance, r.2, nextChar⟩ :: lz77EncodeLoop fuel data (i + r.2 + 1)
      else
        ⟨0, 0, some (data.getD i 0)⟩ :: lz77EncodeLoop fuel data (i + 1)
    else []

/-- `LZ77Compressor.encode`. -/
def lz77Encode (data : List Nat) : List Token :=
  lz77EncodeLoop data.length data 0

/-- Python list indexing, including the negative-index convention;
out-of-range indices are `none` (`IndexError`). -/
def pyIndex (l : List Nat) (idx : Int) : Option Nat :=
  let j := if idx < 0 then idx + l.length else idx
  if 0 ≤ j ∧ j < (l.length : Int) then some (l.getD j.toNat 0) else none

/-- The `for j in range(length)` copy loop of `LZ77Compressor.decode`:
`start` is fixed before the loop while `out` grows byte by byte; the first
argument counts the remaining iterations `len - j`. -/
def lz77CopyLoop : Nat → List Nat → Int → Nat → Option (List Nat)
  | 0, out, _, _ => some out
  | rem + 1, out, start, j =>
    match pyIndex out (start + j) with
    | none => none
    | some b => lz77CopyLoop rem (out ++ [b]) start (j + 1)

/-- One token of `LZ77Compressor.decode`. -/
def lz77DecodeStep (out : List Nat) (t : Token) : Option (List Nat) :=
  let copied := if t.len > 0 then lz77CopyLoop t.len out ((out.length : Int) - t.dist) 0
                else some out
  match copied with
  | none => none
  | some d =>
    match t.lit with
    | some c => some (d ++ [c])
    | none => some d

/-- `LZ77Compressor.decode`. -/
def lz77Decode (tokens : List Token) : Option (List Nat) :=
  tokens.foldlM lz77DecodeStep []

/-! ## Huffman (`src/compressors/huffman.py`) -/

/-- Keys of `collections.Counter(data)` in first-occurrence order. -/
def counterKeys (data : List Nat) : List Nat :=
  data.foldl (fun acc s => if s ∈ acc then acc else acc ++ [s]) []

/-- `Counter(data)` as an association list in Python iteration order. -/
def counter (data : List Nat) : List (Nat × Nat) :=
  (counterKeys data).map (fun s => (s, data.count s))

/-- A heap entry `(frequency, letters_tuple)` of `_create_huffman_tree`. -/
structure Grp where
  w : Nat
  letters : List Nat
deriving DecidableEq, Repr

/-- Python `<` on tuples of integers (lexicographic, a strict prefix is
smaller). -/
def listLtB : List Nat → List Nat → Bool
  | [], [] => false
  | [], _ :: _ => true
  | _ :: _, [] => false
  | x :: xs, y :: ys => if x < y then true else if y < x then false else listLtB xs ys

/-- Python `<` on heap entries `(frequency, letters)`. -/
def grpLt (a b : Grp) : Bool :=
  if a.w < b.w then true else if b.w < a.w then false else listLtB a.letters b.letters

/-- The minimum of a non-empty collection of heap entries; `heappop` always
returns the least entry of the heap under Python tuple comparison. -/
def minGrp (g : Grp) (q : List Grp) : Grp :=
  q.foldl (fun m x => if grpLt x m then x else m) g

/-- `heappop`: remove and return the least entry. -/
def popMin : List Grp → Option (Grp × List Grp)
  | [] => none
  | g :: rest =>
    let m := minGrp g rest
    some (m, (g :: rest).erase m)

/-- The merge loop of `HuffmanCompressor._create_huffman_tree`: pop the two
least groups, increment the recorded code length of every letter in both,
push the merged group.  `res` is the `res` dict as an association list with
pairwise distinct keys. -/
def huffLoop : Nat → List Grp → List (Nat × Nat) → List (Nat × Nat)
  | 0, _, res => res
  | fuel + 1, q, res =>
    if q.length > 1 then
      match popMin q with
      | none => res
      | some (g1, q1) =>
        match popMin q1 with
        | none => res
        | some (g2, q2) =>
          let res2 := (g1.letters ++ g2.letters).foldl
            (fun r s => r.map (fun p => if p.1 = s then (p.1, p.2 + 1) else p)) res
          huffLoop fuel (Grp.mk (g1.w + g2.w) (g1.letters ++ g2.letters) :: q2) res2
    else res

/-- `HuffmanCompressor._create_huffman_tree(frequencies)`: code lengths as
an association list over the frequency keys. -/
def createHuffmanTree (freqs : List (Nat × Nat)) : List (Nat × Nat) :=
  match freqs with
  | [(letter, _)] => [(letter, 1)]
  | _ =>
    huffLoop freqs.length (freqs.map (fun p => Grp.mk p.2 [p.1]))
      (freqs.map (fun p => (p.1, 0)))

/-- Step 2 of `generate_dynamic_huffman_codes`: `next_code[bits]` as a
function of the per-length counts (`cnt 0 = 0` as `bl_count[0]` is never
incremented). -/
def nextCodeBase (cnt : Nat → Nat) : Nat → Nat
  | 0 => 0
  | b + 1 => (nextCodeBase cnt b + cnt b) * 2

/-- Step 3 of `generate_dynamic_huffman_codes`: walk the bit-length vector
in symbol order, assigning `next_code[length]` (formatted to `length` bits)
and incrementing it. -/
def assignCodes : List Nat → Nat → (Nat → Nat) → List (Nat × List Bool)
  | [], _, _ => []
  | l :: rest, i, nc =>
    if l > 0 then
      (i, toBinPadded (nc l) l) ::
        assignCodes rest (i + 1) (fun x => if x = l then nc l + 1 else nc x)
    else assignCodes rest (i + 1) nc

/-- `HuffmanCompressor.generate_dynamic_huffman_codes(bit_lengths)` as an
association list `symbol ↦ code` in symbol order. -/
def genCodes (bls : List Nat) : List (Nat × List Bool) :=
  if bls = [] then []
  else if bls.foldr max 0 = 0 then []
  else assignCodes bls 0 (nextCodeBase (fun l => if l = 0 then 0 else bls.count l))

/-- `HuffmanCompressor.generate_decode_table(bit_lengths)`. -/
def genDecodeTable (bls : List Nat) : List (List Bool × Nat) :=
  (genCodes bls).map (fun p => (p.2, p.1))

/-- `HuffmanCompressor.create_codes(data, alphabet_length)`: the padded
code-length vector and the `symbol ↦ code` table (the double dict inversion
of the source collapses to `genCodes` of the padded vector). -/
def createCodes (data : List Nat) (alphabetLength : Nat) :
    List Nat × List (Nat × List Bool) :=
  let cl := createHuffmanTree (counter data)
  let clVec := (List.range alphabetLength).map (fun letter => ((cl.lookup letter).getD 0))
  (clVec, (genDecodeTable clVec).map (fun p => (p.2, p.1)))

/-- The scanning loop of `HuffmanCompressor.decode_next`: accumulate bits
until the accumulator is a key of the code table. -/
def decodeNextLoop (table : List (List Bool × Nat)) :
    List Bool → List Bool → Option (Nat × List Bool)
  | _, [] => none
  | acc, b :: rest =>
    match (table.lookup (acc ++ [b])) with
    | some sym => some (sym, rest)
    | none => decodeNextLoop table (acc ++ [b]) rest

/-- `HuffmanCompressor.decode_next(data, code)`. -/
def decodeNext (data : List Bool) (table : List (List Bool × Nat)) :
    Option (Nat × List Bool) :=
  decodeNextLoop table [] data

/-! ## Alphabets and fixed code tables (`src/compressors/deflate.py`) -/

/-- `SymbolLengthAlphabet.LENGTH_TABLE`. -/
def LENGTH_TABLE : List (Nat × Nat) :=
  [(3, 0), (4, 0), (5, 0), (6, 0), (7, 0), (8, 0), (9, 0), (10, 0),
   (11, 1), (13, 1), (15, 1), (17, 1),
   (19, 2), (23, 2), (27, 2), (31, 2),
   (35, 3), (43, 3), (51, 3), (59, 3),
   (67, 4), (83, 4), (99, 4), (115, 4),
   (131, 5), (163, 5), (195, 5), (227, 5),
   (258, 0)]

/-- `DistanceAlphabet.DISTANCE_TABLE`. -/
def DISTANCE_TABLE : List (Nat × Nat) :=
  [(1, 0), (2, 0), (3, 0), (4, 0), (5, 1), (7, 1), (9, 2), (13, 2),
   (17, 3), (25, 3), (33, 4), (49, 4), (65, 5), (97, 5), (129, 6), (193, 6),
   (257, 7), (385, 7), (513, 8), (769, 8), (1025, 9), (1537, 9),
   (2049, 10), (3073, 10), (4097, 11), (6145, 11), (8193, 12), (12289, 12),
   (16385, 13), (24577, 13)]

/-- The scanning loop of `SymbolLengthAlphabet.encode`: find the table row
whose range contains `length`, return `257 + i` and the extra bits. -/
def symLenEncodeLoop : List (Nat × Nat) → Nat → Nat → Option (Nat × List Bool)
  | [], _, _ => none
  | (base, eb) :: rest, i, length =>
    if base ≤ length ∧ length < base + 2 ^ eb then
      some (257 + i, if eb > 0 then toBinPadded (length - base) eb else [])
    else symLenEncodeLoop rest (i + 1) length

/-- `SymbolLengthAlphabet.encode(length)`. -/
def symLenEncode (length : Nat) : Option (Nat × List Bool) :=
  symLenEncodeLoop LENGTH_TABLE 0 length

/-- `SymbolLengthAlphabet.decode` on a length symbol
(= `decode_length(symbol, data)` with its range check). -/
def symLenDecode (symbol : Nat) (data : List Bool) : Option (Nat × List Bool) :=
  if 257 ≤ symbol ∧ symbol ≤ 285 then
    match LENGTH_TABLE.get? (symbol - 257) with
    | none => none
    | some (base, eb) =>
      some (base + (if eb > 0 then bitsToNat (data.take eb) else 0), data.drop eb)
  else none

/-- The scanning loop of `DistanceAlphabet.encode_distance`. -/
def distEncodeLoop : List (Nat × Nat) → Nat → Nat → Option (Nat × List Bool)
  | [], _, _ => none
  | (base, eb) :: rest, code, distance =>
    if base ≤ distance ∧ distance < base + 2 ^ eb then
      some (code, if eb > 0 then toBinPadded (distance - base) eb else [])
    else distEncodeLoop rest (code + 1) distance

/-- `DistanceAlphabet.encode(distance)` (symbol plus zero-filled extra
bits). -/
def distEncode (distance : Nat) : Option (Nat × List Bool) :=
  distEncodeLoop DISTANCE_TABLE 0 distance

/-- `DistanceAlphabet.decode(symbol, data)` = `decode_distance` with its
range check. -/
def distDecode (symbol : Nat) (data : List Bool) : Option (Nat × List Bool) :=
  if symbol < 30 then
    match DISTANCE_TABLE.get? symbol with
    | none => none
    | some (base, eb) =>
      some (base + (if eb > 0 then bitsToNat (data.take eb) else 0), data.drop eb)
  else none

/-- `FIXED_LENGTH_TO_CODE` (module-level loop of `deflate.py`). -/
def fixedLengthCode (sym : Nat) : List Bool :=
  if sym < 144 then toBinPadded (sym + 48) 8
  else if sym < 256 then toBinPadded (sym - 144 + 400) 9
  else if sym < 280 then toBinPadded (sym - 256) 7
  else toBinPadded (sym - 280 + 192) 8

/-- `FIXED_CODE_TO_LENGTH` as an association list (the dict inversion of the
injective `FIXED_LENGTH_TO_CODE`). -/
def fixedCodeToLength : List (List Bool × Nat) :=
  (List.range 288).map (fun s => (fixedLengthCode s, s))

/-- `FIXED_DISTANCE_TO_CODE[i] = format(i, "#07b")[2:]` for `i < 32`. -/
def fixedDistanceCode (sym : Nat) : List Bool :=
  toBinPadded sym 5

/-- `FIXED_CODE_TO_DISTANCE` as an association list. -/
def fixedCodeToDistance : List (List Bool × Nat) :=
  (List.range 32).map (fun s => (fixedDistanceCode s, s))

/-! ## BlockSplitter (`src/compressors/helpers/block_splitter.py`) -/

/-- The mutable statistics of `BlockSplitter`. -/
structure Splitter where
  observations : List Nat
  newObservations : List Nat
  numObservations : Nat
  numNewObservations : Nat
deriving DecidableEq, Repr

/-- `BlockSplitter.__init__` / `reset`. -/
def initSplitter : Splitter :=
  Splitter.mk (List.replicate 10 0) (List.replicate 10 0) 0 0

/-- `BlockSplitter.observe_literal`. -/
def observeLiteral (sp : Splitter) (lit : Nat) : Splitter :=
  let t := ((lit >>> 5) &&& 6) ||| (lit &&& 1)
  Splitter.mk sp.observations (sp.newObservations.set t (sp.newObservations.getD t 0 + 1))
    sp.numObservations (sp.numNewObservations + 1)

/-- `BlockSplitter.observe_match`. -/
def observeMatch (sp : Splitter) (len : Nat) : Splitter :=
  let t := 8 + (if len ≥ 9 then 1 else 0)
  Splitter.mk sp.observations (sp.newObservations.set t (sp.newObservations.getD t 0 + 1))
    sp.numObservations (sp.numNewObservations + 1)

/-- `BlockSplitter.merge_new_observations`. -/
def mergeNewObservations (sp : Splitter) : Splitter :=
  Splitter.mk
    ((List.range 10).map
      (fun i => sp.observations.getD i 0 + sp.newObservations.getD i 0))
    (List.replicate 10 0)
    (sp.numObservations + sp.numNewObservations) 0

/-- `BlockSplitter.should_end_block(block_length)`: the decision together
with the updated splitter state. -/
def shouldEndBlock (sp : Splitter) (blockLength : Nat) : Bool × Splitter :=
  if sp.numNewObservations < 512 ∨ blockLength < 1000 then (false, sp)
  else if sp.numObservations = 0 then (false, mergeNewObservations sp)
  else
    let totalDelta := (List.range 10).foldl
      (fun acc i =>
        acc + ((sp.newObservations.getD i 0 * sp.numObservations : Int) -
               (sp.observations.getD i 0 * sp.numNewObservations : Int)).natAbs) 0
    let numItems := sp.numObservations + sp.numNewObservations
    let cutoff0 := sp.numNewObservations * 200 * sp.numObservations / 512
    let cutoff := if blockLength < 10000 ∧ numItems < 8192 then
        cutoff0 + cutoff0 * (8192 - numItems) / 8192
      else cutoff0
    let lengthPenalty := blockLength / 4096 * sp.numObservations
    if totalDelta + lengthPenalty ≥ cutoff then (true, sp)
    else (false, mergeNewObservations sp)

/-! ## DeflateCompressor (`src/compressors/deflate.py`) -/

/-- The block-forming loop of `DeflateCompressor.compress`: observe each
token, append it to the current block, and close the block when the splitter
says so. -/
def splitBlocksLoop : List Token → Splitter → List Token → List (List Token) →
    List (List Token)
  | [], _, cur, blocks => if cur = [] then blocks else blocks ++ [cur]
  | t :: rest, sp, cur, blocks =>
    let sp1 := if t.dist = 0 then observeLiteral sp (t.lit.getD 0) else observeMatch sp t.len
    let cur2 := cur ++ [t]
    let r := shouldEndBlock sp1 cur2.length
    if r.1 then splitBlocksLoop rest initSplitter [] (blocks ++ [cur2])
    else splitBlocksLoop rest r.2 cur2 blocks

/-- The token-to-blocks phase of `DeflateCompressor.compress`. -/
def splitBlocks (tokens : List Token) : List (List Token) :=
  splitBlocksLoop tokens initSplitter [] []

/-- One entry of `literal_length_distance_pairs`. -/
structure Pair where
  sym : Nat
  symExtra : Option (List Bool)
  dsym : Option Nat
  distExtra : Option (List Bool)
deriving DecidableEq, Repr

/-- The pairs contributed by one token (the body of the first `for` loop of
the per-block serialization). -/
def pairsOfToken (t : Token) : Option (List Pair) :=
  if t.dist ≠ 0 then
    match symLenEncode t.len, distEncode t.dist with
    | some (ls, le), some (ds, de) =>
      some (Pair.mk ls (some le) (some ds) (some de) ::
        (match t.lit with
         | some c => [Pair.mk c none none none]
         | none => []))
    | _, _ => none
  else
    match t.lit with
    | some c => some [Pair.mk c none none none]
    | none => some []

/-- `literal_length_distance_pairs` of one block, end-of-block sentinel
included. -/
def pairsOfBlock (blk : List Token) : Option (List Pair) :=
  match blk.foldlM (fun acc t => (pairsOfToken t).map (acc ++ ·)) ([] : List Pair) with
  | none => none
  | some ps => some (ps ++ [Pair.mk 256 none none none])

/-- Serialization of one pair against a literal/length and a distance code
table (`none` models a `KeyError`). -/
def serPair (codeOf : Nat → Option (List Bool)) (dcodeOf : Nat → Option (List Bool))
    (p : Pair) : Option (List Bool) :=
  match codeOf p.sym with
  | none => none
  | some c =>
    match p.dsym with
    | none => some (c ++ p.symExtra.getD [])
    | some d =>
      match dcodeOf d with
      | none => none
      | some dc => some (c ++ p.symExtra.getD [] ++ dc ++ p.distExtra.getD [])

/-- Serialize a pair list (one of the two `for` loops building `res_dynamic`
or `res_fixed`). -/
def serPairs (codeOf dcodeOf : Nat → Option (List Bool)) (pairs : List Pair) :
    Option (List Bool) :=
  pairs.foldlM (fun acc p => (serPair codeOf dcodeOf p).map (acc ++ ·)) []

/-- `res_dynamic` for a pair list: the integer-coded 286+30 code-length
table followed by the dynamically coded symbol stream. -/
def dynFrame (pairs : List Pair) : Option (List Bool) :=
  let ll := createCodes (pairs.map (·.sym)) 286
  let dd := createCodes (pairs.filterMap (·.dsym)) 30
  match serPairs (fun s => ll.2.lookup s) (fun s => dd.2.lookup s) pairs with
  | none => none
  | some body => some (intEncode (ll.1 ++ dd.1) ++ body)

/-- `res_fixed` for a pair list. -/
def fixedFrame (pairs : List Pair) : Option (List Bool) :=
  serPairs (fun s => if s < 288 then some (fixedLengthCode s) else none)
    (fun s => if s < 32 then some (fixedDistanceCode s) else none) pairs

/-- Lines 353–356 of `deflate.py`: keep the fixed frame only when the
dynamic frame is strictly longer. -/
def chooseFrame (dyn fix : List Bool) : List Bool :=
  if dyn.length > fix.length then [false, true] ++ fix else [true, false] ++ dyn

/-- The serialized form of one block. -/
def serializeBlock (blk : List Token) : Option (List Bool) :=
  match pairsOfBlock blk with
  | none => none
  | some pairs =>
    match dynFrame pairs, fixedFrame pairs with
    | some dyn, some fix => some (chooseFrame dyn fix)
    | _, _ => none

/-- The bit stream of `DeflateCompressor.compress` before byte packing. -/
def compressBits (data : List Nat) : Option (List Bool) :=
  (splitBlocks (lz77Encode data)).foldlM
    (fun acc blk => (serializeBlock blk).map (acc ++ ·)) []

/-- Big-endian bytes of `n`, `k` bytes wide (`int.to_bytes(k, "big")`). -/
def toBytesBE (n : Nat) : Nat → List Nat
  | 0 => []
  | k + 1 => toBytesBE (n / 256) k ++ [n % 256]

/-- `int.from_bytes(bs, "big")`. -/
def fromBytesBE (bs : List Nat) : Nat :=
  bs.foldl (fun a b => a * 256 + b) 0

/-- Pack a zero-padded bit string into bytes, 8 bits per byte, MSB first
(fuel is at least the length of the list). -/
def packBytesF : Nat → List Bool → List Nat
  | _, [] => []
  | 0, _ :: _ => []
  | fuel + 1, l => bitsToNat (l.take 8) :: packBytesF fuel (l.drop 8)

/-- The byte-packing loop of `binary_string_to_bytes`. -/
def packBytes (l : List Bool) : List Nat :=
  packBytesF l.length l

/-- `binary_string_to_bytes`: 4-byte big-endian bit count, then the packed,
zero-padded bits (`to_bytes(4, "big")` overflows at `2 ^ 32`). -/
def binaryStringToBytes (bits : List Bool) : Option (List Nat) :=
  if bits.length < 2 ^ 32 then
    some (toBytesBE bits.length 4 ++
      packBytes (bits ++ List.replicate ((8 - bits.length % 8) % 8) false))
  else none

/-- `bytes_to_binary_string`. -/
def bytesToBinaryString (bs : List Nat) : List Bool :=
  (((bs.drop 4).map (fun b => toBinPadded b 8)).flatten).take (fromBytesBE (bs.take 4))

/-- `DeflateCompressor.compress` over byte lists. -/
def compress (data : List Nat) : Option (List Nat) :=
  match compressBits data with
  | none => none
  | some bits => binaryStringToBytes bits

/-! ## DeflateCompressor.decompress -/

/-- The inner `while True` loop of `DeflateCompressor.decompress`: decode
literal/length symbols until the end-of-block symbol 256, handling the
"match followed by one more literal/length symbol" convention.  Every
iteration consumes at least one bit, so fuel `data.length` (plus one)
outlasts the loop. -/
def decodeBlockBody : Nat → List Bool → List (List Bool × Nat) → List (List Bool × Nat) →
    List Token → Option (List Token × List Bool)
  | 0, _, _, _, _ => none
  | fuel + 1, data, llTable, dTable, acc =>
    match decodeNext data llTable with
    | none => none
    | some (ll, rest) =>
      if ll < 256 then
        decodeBlockBody fuel rest llTable dTable (acc ++ [Token.mk 0 0 (some ll)])
      else if ll = 256 then some (acc, rest)
      else
        match symLenDecode ll rest with
        | none => none
        | some (length, r2) =>
          match decodeNext r2 dTable with
          | none => none
          | some (dsym, r3) =>
            match distDecode dsym r3 with
            | none => none
            | some (distance, r4) =>
              match decodeNext r4 llTable with
              | none => none
              | some (lit, r5) =>
                if lit = 256 then some (acc ++ [Token.mk distance length none], r5)
                else decodeBlockBody fuel r5 llTable dTable
                  (acc ++ [Token.mk distance length (some lit)])

/-- The block loop of `DeflateCompressor.decompress`: read the 2-bit header,
build or select the decode tables, decode one block, continue on the rest.
A header other than `"10"` is treated like `"01"` (fixed tables).  Every
block consumes at least one bit, so fuel `data.length + 1` outlasts the
loop. -/
def decompressLoop : Nat → List Bool → List Token → Option (List Token)
  | _, [], acc => some acc
  | 0, _ :: _, _ => none
  | fuel + 1, data, acc =>
    if data.take 2 = [true, false] then
      match intDecode (data.drop 2) 286 with
      | none => none
      | some (llbl, r1) =>
        match intDecode r1 30 with
        | none => none
        | some (dbl, r2) =>
          match decodeBlockBody (r2.length + 1) r2 (genDecodeTable llbl)
              (genDecodeTable dbl) [] with
          | none => none
          | some (tks, r3) => decompressLoop fuel r3 (acc ++ tks)
    else
      match decodeBlockBody ((data.drop 2).length + 1) (data.drop 2)
          fixedCodeToLength fixedCodeToDistance [] with
      | none => none
      | some (tks, r3) => decompressLoop fuel r3 (acc ++ tks)

/-- `DeflateCompressor.decompress` on an unpacked bit string. -/
def decompressBits (data : List Bool) : Option (List Nat) :=
  match decompressLoop data.length data [] with
  | none => none
  | some tokens => lz77Decode tokens

/-- `DeflateCompressor.decompress` over byte lists. -/
def decompress (bs : List Nat) : Option (List Nat) :=
  decompressBits (bytesToBinaryString bs)

/-! ## Arithmetic facts about the bit-string primitives -/

/-- The value of an LSB-first bit list. -/
def lsbVal : List Bool → Nat
  | [] => 0
  | b :: t => (if b then 1 else 0) + 2 * lsbVal t

/-! ## Specification predicates for the KMP matcher -/

/-- `border p i j`: the prefix `p[0:i]` matches the segment of `p` of length
`i` ending at `j` (the running KMP invariant). -/
def border (p : List Nat) (i j : Nat) : Prop :=
  ∀ u, u < i → p.getD u 0 = p.getD (j - i + u) 0

/-- `borderS s p i j`: the pattern prefix `p[0:i]` matches the search-string
segment of length `i` ending at `j`. -/
def borderS (s p : List Nat) (i j : Nat) : Prop :=
  ∀ u, u < i → p.getD u 0 = s.getD (j - i + u) 0

/-- `sfx p t k`: `t` is a proper border length of the prefix `p[0:k+1]`:
`p[0:t]` equals the length-`t` segment ending at `k+1`. -/
def sfx (p : List Nat) (t k : Nat) : Prop :=
  t ≤ k ∧ ∀ u, u < t → p.getD u 0 = p.getD (k + 1 - t + u) 0

/-- The correctness property of the KMP table that the search soundness
argument needs. -/
def tableSpec (p table : List Nat) : Prop :=
  ∀ k, k < p.length → sfx p (table.getD k 0) k

/-- A genuine occurrence: the window segment of length `len` starting at
`jn` coincides with the first `len` pattern characters. -/
def matchesAt (s p : List Nat) (jn len : Nat) : Prop :=
  jn + len ≤ s.length ∧ len ≤ p.length ∧
    ∀ u, u < len → s.getD (jn + u) 0 = p.getD u 0

/-! ## Kraft weights for the Huffman analysis -/

/-- Kraft weight of a code length (length 0 means "no code"). -/
def wq (x : Nat) : ℚ :=
  if x = 0 then 0 else ((2 : ℚ) ^ x)⁻¹

/-- Kraft sum of a code-length vector. -/
def kraftQ (bls : List Nat) : ℚ :=
  (bls.map wq).sum

/-- The Kraft mass of one heap group under the current length table. -/
def groupSum (res : List (Nat × Nat)) (g : Grp) : ℚ :=
  (g.letters.map (fun s => ((2 : ℚ) ^ ((res.lookup s).getD 0))⁻¹)).sum

/-- The Kraft mass of a finished length table. -/
def resSumQ (res : List (Nat × Nat)) : ℚ :=
  (res.map (fun p => ((2 : ℚ) ^ p.2)⁻¹)).sum

/-! ## Helper definitions for the roundtrip analysis -/

/-- Wellformedness of an emitted LZ77 token over byte data: a literal is
`(0, 0, c)` with `c < 256`; a match respects the minimum-match, lookahead and
window bounds and carries either no following literal or a byte literal. -/
def wfToken (t : Token) : Prop :=
  (t.dist = 0 ∧ t.len = 0 ∧ ∃ c, t.lit = some c ∧ c < 256) ∨
    (0 < t.dist ∧ 3 ≤ t.len ∧ t.len ≤ 257 ∧ t.dist ≤ 512 ∧
      (t.lit = none ∨ ∃ c, t.lit = some c ∧ c < 256))

/-- Decidable roundtrip certificate for one length-alphabet value. -/
def symLenCheck (length : Nat) : Bool :=
  match symLenEncode length with
  | none => false
  | some (sym, extra) =>
    match LENGTH_TABLE.get? (sym - 257) with
    | none => false
    | some (base, eb) =>
      decide (257 ≤ sym) && decide (sym ≤ 285) && decide (extra.length = eb) &&
        decide (eb ≤ 5) &&
        decide (base + (if eb > 0 then bitsToNat extra else 0) = length)

/-- Decidable roundtrip certificate for one distance-alphabet value. -/
def distCheck (distance : Nat) : Bool :=
  match distEncode distance with
  | none => false
  | some (sym, extra) =>
    match DISTANCE_TABLE.get? sym with
    | none => false
    | some (base, eb) =>
      decide (sym < 30) && decide (extra.length = eb) && decide (eb ≤ 13) &&
        decide (base + (if eb > 0 then bitsToNat extra else 0) = distance)

/-- The pair list of a wellformed token (`pairsOfToken` cannot fail on it). -/
def tokenPairs (t : Token) : List Pair :=
  (pairsOfToken t).getD []

/-- The full pair list of a block, end-of-block sentinel included. -/
def blockPairs (blk : List Token) : List Pair :=
  (blk.map tokenPairs).flatten ++ [Pair.mk 256 none none none]

/-- The literal/length coder of the fixed frame (`FIXED_LENGTH_TO_CODE`
lookup as a function; `none` models a `KeyError`). -/
def fixedCodeOf (s : Nat) : Option (List Bool) :=
  if s < 288 then some (fixedLengthCode s) else none

/-- The distance coder of the fixed frame. -/
def fixedDistCodeOf (s : Nat) : Option (List Bool) :=
  if s < 32 then some (fixedDistanceCode s) else none

/-- The literal/length coder of the dynamic frame of a pair list. -/
def dynCodeOf (pairs : List Pair) (s : Nat) : Option (List Bool) :=
  (createCodes (pairs.map (·.sym)) 286).2.lookup s

/-- The distance coder of the dynamic frame of a pair list. -/
def dynDistCodeOf (pairs : List Pair) (s : Nat) : Option (List Bool) :=
  (createCodes (pairs.filterMap (·.dsym)) 30).2.lookup s

/-- Code length of `FIXED_LENGTH_TO_CODE[s]`. -/
def fixedLenL (s : Nat) : Nat :=
  if s < 144 then 8 else if s < 256 then 9 else if s < 280 then 7 else 8

/-- Code value of `FIXED_LENGTH_TO_CODE[s]`. -/
def fixedLenV (s : Nat) : Nat :=
  if s < 144 then s + 48 else if s < 256 then s - 144 + 400
  else if s < 280 then s - 256 else s - 280 + 192

/-- Dyadic block bases of the fixed literal/length code. -/
def fixedNPBase (l : Nat) : Nat :=
  if l = 7 then 0 else if l = 8 then 48 else if l = 9 then 400
  else if l < 7 then 0 else 2 ^ l

/-- Dyadic block tops of the fixed literal/length code. -/
def fixedNPWidth (l : Nat) : Nat :=
  if l = 7 then 24 else if l = 8 then 200 else if l = 9 then 512
  else if l < 7 then 0 else 2 ^ l

/-! ## Concrete inputs used to settle individual claims -/

/-- The 12-byte buffer `b"abcabcabcabc"`. -/
def c4Input : List Nat := [97, 98, 99, 97, 98, 99, 97, 98, 99, 97, 98, 99]

/-- A 136-token block (131 literals `a`, then 5 literals `b`) whose fixed
and dynamic serializations have exactly equal bit length (1095 bits). -/
def c5Block : List Token :=
  List.replicate 131 (Token.mk 0 0 (some 97)) ++ List.replicate 5 (Token.mk 0 0 (some 98))

/-! ## IntegerCompressor roundtrip -/

/-! ## Proofs -/

set_option maxRecDepth 1000000
set_option maxHeartbeats 4000000

theorem natBitsRevF_irrel : ∀ (f1 f2 n : Nat), n ≤ f1 → n ≤ f2 →
    natBitsRevF f1 n = natBitsRevF f2 n := by
  intro f1
  induction f1 with
  | zero =>
    intro f2 n h1 h2
    match n, h1 with
    | 0, _ => cases f2 <;> rfl
  | succ f ih =>
    intro f2 n h1 h2
    match n with
    | 0 => cases f2 <;> rfl
    | m + 1 =>
      match f2, h2 with
      | g + 1, _ =>
        show (_ :: natBitsRevF f ((m + 1) / 2)) = (_ :: natBitsRevF g ((m + 1) / 2))
        have hhalf : (m + 1) / 2 ≤ m := by omega
        rw [ih g ((m + 1) / 2) (by omega) (by omega)]

/-- One-step unfolding of `natBitsRev` on a positive number. -/
theorem natBitsRev_succ (m : Nat) :
    natBitsRev (m + 1) = (decide (((m + 1) % 2) = 1)) :: natBitsRev ((m + 1) / 2) := by
  show natBitsRevF (m + 1) (m + 1) = _
  show (_ :: natBitsRevF m ((m + 1) / 2)) = _
  rw [natBitsRevF_irrel m ((m + 1) / 2) ((m + 1) / 2) (by omega) (le_refl _)]
  rfl

theorem intDecodeOne_length_lt {data : List Bool} {v : Nat} {rest : List Bool}
    (h : intDecodeOne data = some (v, rest)) : rest.length < data.length := by
  unfold intDecodeOne at h
  by_cases h1 : countLeadingTrue data ≥ data.length
  · simp [h1] at h
  · by_cases h2 : 2 * countLeadingTrue data + 1 > data.length
    · simp [h1, h2] at h
    · simp [h1, h2] at h
      obtain ⟨-, h4⟩ := h
      subst h4
      simp only [List.length_drop]
      omega

theorem minGrp_eq_or_mem (g : Grp) (q : List Grp) : minGrp g q = g ∨ minGrp g q ∈ q := by
  induction q generalizing g with
  | nil => left; rfl
  | cons x xs ih =>
    have hstep : minGrp g (x :: xs) = minGrp (if grpLt x g then x else g) xs := rfl
    rcases ih (if grpLt x g then x else g) with h | h
    · rw [hstep, h]
      by_cases hc : grpLt x g
      · right; simp [hc]
      · left; simp [hc]
    · right; rw [hstep]; exact List.mem_cons_of_mem x h

theorem minGrp_mem (g : Grp) (q : List Grp) : minGrp g q ∈ g :: q := by
  rcases minGrp_eq_or_mem g q with h | h
  · rw [h]; exact List.mem_cons_self g q
  · exact List.mem_cons_of_mem g h

theorem popMin_length {q : List Grp} {g : Grp} {rest : List Grp}
    (h : popMin q = some (g, rest)) : rest.length + 1 = q.length := by
  match q with
  | [] => simp [popMin] at h
  | x :: xs =>
    simp only [popMin, Option.some.injEq, Prod.mk.injEq] at h
    obtain ⟨h1, h2⟩ := h
    have hm : minGrp x xs ∈ x :: xs := minGrp_mem x xs
    subst h2
    rw [List.length_erase_of_mem hm]
    simp

theorem decodeNextLoop_length_lt {table : List (List Bool × Nat)} {acc data : List Bool}
    {sym : Nat} {rest : List Bool}
    (h : decodeNextLoop table acc data = some (sym, rest)) : rest.length < data.length := by
  induction data generalizing acc with
  | nil => simp [decodeNextLoop] at h
  | cons b bs ih =>
    simp only [decodeNextLoop] at h
    cases hl : table.lookup (acc ++ [b]) with
    | some s => rw [hl] at h; simp at h; obtain ⟨-, h2⟩ := h; subst h2; simp
    | none =>
      rw [hl] at h
      have := ih h
      simp only [List.length_cons]
      omega

theorem decodeNext_length_lt {data : List Bool} {table : List (List Bool × Nat)}
    {sym : Nat} {rest : List Bool}
    (h : decodeNext data table = some (sym, rest)) : rest.length < data.length :=
  decodeNextLoop_length_lt h

theorem symLenDecode_length_le {symbol : Nat} {data : List Bool} {v : Nat} {rest : List Bool}
    (h : symLenDecode symbol data = some (v, rest)) : rest.length ≤ data.length := by
  unfold symLenDecode at h
  by_cases hr : 257 ≤ symbol ∧ symbol ≤ 285
  · rw [if_pos hr] at h
    cases hg : LENGTH_TABLE.get? (symbol - 257) with
    | none => rw [hg] at h; simp at h
    | some be =>
      rw [hg] at h
      obtain ⟨base, eb⟩ := be
      simp at h
      obtain ⟨-, h2⟩ := h
      subst h2
      simp
  · rw [if_neg hr] at h; simp at h

theorem distDecode_length_le {symbol : Nat} {data : List Bool} {v : Nat} {rest : List Bool}
    (h : distDecode symbol data = some (v, rest)) : rest.length ≤ data.length := by
  unfold distDecode at h
  by_cases hr : symbol < 30
  · rw [if_pos hr] at h
    cases hg : DISTANCE_TABLE.get? symbol with
    | none => rw [hg] at h; simp at h
    | some be =>
      rw [hg] at h
      obtain ⟨base, eb⟩ := be
      simp at h
      obtain ⟨-, h2⟩ := h
      subst h2
      simp
  · rw [if_neg hr] at h; simp at h

theorem intDecodeLoop_length_lt {fuel : Nat} :
    ∀ {data : List Bool} {target : Nat} {acc v : List Nat} {rest : List Bool},
      intDecodeLoop fuel data target acc = some (v, rest) →
      rest.length < data.length := by
  induction fuel with
  | zero =>
    intro data target acc v rest h
    cases data <;> exact absurd h (by simp [intDecodeLoop])
  | succ n ih =>
    intro data target acc v rest h
    match data with
    | [] => exact absurd h (by simp [intDecodeLoop])
    | b :: bs =>
      rw [intDecodeLoop] at h
      split at h
      · exact absurd h (by simp)
      · rename_i w r hone
        have hlt := intDecodeOne_length_lt hone
        split at h
        · simp only [Option.some.injEq, Prod.mk.injEq] at h
          obtain ⟨-, h2⟩ := h
          subst h2
          omega
        · have := ih h
          omega

theorem intDecode_length_lt {data : List Bool} {target : Nat} {v : List Nat}
    {rest : List Bool} (h : intDecode data target = some (v, rest)) :
    rest.length < data.length :=
  intDecodeLoop_length_lt h

theorem decodeBlockBody_length_lt {fuel : Nat} :
    ∀ {data : List Bool} {llTable dTable : List (List Bool × Nat)}
      {acc tks : List Token} {rest : List Bool},
      decodeBlockBody fuel data llTable dTable acc = some (tks, rest) →
      rest.length < data.length := by
  induction fuel with
  | zero =>
    intro data llTable dTable acc tks rest h
    exact absurd h (by simp [decodeBlockBody])
  | succ n ih =>
    intro data llTable dTable acc tks rest h
    rw [decodeBlockBody] at h
    split at h
    · exact absurd h (by simp)
    · rename_i ll rest1 h1
      have a1 := decodeNext_length_lt h1
      split at h
      · have := ih h
        omega
      · split at h
        · simp only [Option.some.injEq, Prod.mk.injEq] at h
          obtain ⟨-, h6⟩ := h
          subst h6
          omega
        · split at h
          · exact absurd h (by simp)
          · rename_i length r2 h2
            have a2 := symLenDecode_length_le h2
            split at h
            · exact absurd h (by simp)
            · rename_i dsym r3 h3
              have a3 := decodeNext_length_lt h3
              split at h
              · exact absurd h (by simp)
              · rename_i distance r4 h4
                have a4 := distDecode_length_le h4
                split at h
                · exact absurd h (by simp)
                · rename_i lit r5 h5
                  have a5 := decodeNext_length_lt h5
                  split at h
                  · simp only [Option.some.injEq, Prod.mk.injEq] at h
                    obtain ⟨-, h6⟩ := h
                    subst h6
                    omega
                  · have := ih h
                    omega

theorem bitsToNat_from (l : List Bool) :
    ∀ a : Nat, l.foldl (fun x b => 2 * x + (if b then 1 else 0)) a =
      a * 2 ^ l.length + bitsToNat l := by
  induction l with
  | nil => intro a; simp [bitsToNat]
  | cons b t ih =>
    intro a
    simp only [List.foldl_cons, bitsToNat, List.length_cons]
    rw [ih, ih (2 * 0 + if b then 1 else 0)]
    ring

theorem bitsToNat_append (l1 l2 : List Bool) :
    bitsToNat (l1 ++ l2) = bitsToNat l1 * 2 ^ l2.length + bitsToNat l2 := by
  unfold bitsToNat
  rw [List.foldl_append]
  exact bitsToNat_from l2 _

theorem bitsToNat_reverse (l : List Bool) : bitsToNat l.reverse = lsbVal l := by
  induction l with
  | nil => rfl
  | cons b t ih =>
    rw [List.reverse_cons, bitsToNat_append, ih]
    simp [bitsToNat, lsbVal]
    ring

theorem lsbVal_natBitsRev (n : Nat) : lsbVal (natBitsRev n) = n := by
  induction n using Nat.strong_induction_on with
  | _ n ih =>
    match n with
    | 0 => rfl
    | m + 1 =>
      rw [natBitsRev_succ]
      simp only [lsbVal]
      rw [ih ((m + 1) / 2) (Nat.div_lt_self (Nat.succ_pos m) (by norm_num))]
      have h2 : (m + 1) % 2 < 2 := Nat.mod_lt _ (by norm_num)
      have := Nat.div_add_mod (m + 1) 2
      by_cases hb : (m + 1) % 2 = 1
      · simp [hb]; omega
      · simp [hb]; omega

theorem bitsToNat_natBits (n : Nat) : bitsToNat (natBits n) = n := by
  unfold natBits
  by_cases h : n = 0
  · subst h; decide
  · rw [if_neg h, bitsToNat_reverse, lsbVal_natBitsRev]

theorem natBits_ne_nil (n : Nat) : natBits n ≠ [] := by
  unfold natBits
  by_cases h : n = 0
  · simp [h]
  · rw [if_neg h]
    intro hc
    have : lsbVal (natBitsRev n) = n := lsbVal_natBitsRev n
    rw [List.reverse_eq_nil_iff.mp hc] at this
    exact h (this ▸ rfl)

theorem getLast?_cons_of_ne {α : Type} (b : α) (l : List α) (h : l ≠ []) :
    (b :: l).getLast? = l.getLast? := by
  cases l with
  | nil => exact absurd rfl h
  | cons x xs => rfl

theorem natBitsRev_getLast (n : Nat) (hn : 0 < n) :
    (natBitsRev n).getLast? = some true := by
  induction n using Nat.strong_induction_on with
  | _ n ih =>
    match n, hn with
    | m + 1, _ =>
      rw [natBitsRev_succ]
      by_cases h2 : (m + 1) / 2 = 0
      · have hm : m = 0 := by omega
        subst hm
        decide
      · rw [getLast?_cons_of_ne]
        · exact ih ((m + 1) / 2) (Nat.div_lt_self (Nat.succ_pos m) (by norm_num))
            (Nat.pos_of_ne_zero h2)
        · intro hc
          have := lsbVal_natBitsRev ((m + 1) / 2)
          rw [hc] at this
          exact h2 (this ▸ rfl)

/-- `bin(n)[2:]` of a positive `n` starts with a one bit (no leading zero). -/
theorem natBits_head_true (n : Nat) (hn : 0 < n) : (natBits n).head? = some true := by
  unfold natBits
  rw [if_neg (Nat.pos_iff_ne_zero.mp hn)]
  rw [List.head?_reverse]
  exact natBitsRev_getLast n hn

theorem intEncode_cons (x : Nat) (v : List Nat) :
    intEncode (x :: v) = intEncodeOne x ++ intEncode v := by
  show (x :: v).foldl (fun acc n => acc ++ intEncodeOne n) [] = _
  have key : ∀ (w : List Nat) (a : List Bool),
      w.foldl (fun acc n => acc ++ intEncodeOne n) a =
        a ++ w.foldl (fun acc n => acc ++ intEncodeOne n) [] := by
    intro w
    induction w with
    | nil => intro a; simp
    | cons y ys ih =>
      intro a
      simp only [List.foldl_cons]
      rw [ih (a ++ intEncodeOne y), ih (List.nil ++ intEncodeOne y)]
      simp
  simp only [List.foldl_cons, List.nil_append]
  exact key v (intEncodeOne x)

theorem countLeadingTrue_encodeOne (n : Nat) (rest : List Bool) :
    countLeadingTrue (intEncodeOne n ++ rest) = (natBits n).length := by
  unfold intEncodeOne
  generalize (natBits n).length = k
  induction k with
  | zero => simp [countLeadingTrue]
  | succ m ih =>
    rw [List.replicate_succ]
    simpa [countLeadingTrue] using ih

theorem intDecodeOne_encodeOne (n : Nat) (rest : List Bool) :
    intDecodeOne (intEncodeOne n ++ rest) = some (n, rest) := by
  have hsplit1 : intEncodeOne n ++ rest =
      (List.replicate (natBits n).length true ++ [false]) ++ (natBits n ++ rest) := by
    simp [intEncodeOne]
  have hsplit2 : intEncodeOne n ++ rest =
      (List.replicate (natBits n).length true ++ [false] ++ natBits n) ++ rest := by
    simp [intEncodeOne]
  have hlen : (intEncodeOne n ++ rest).length =
      2 * (natBits n).length + 1 + rest.length := by
    simp [intEncodeOne]
    omega
  unfold intDecodeOne
  rw [countLeadingTrue_encodeOne]
  simp only [hlen]
  rw [if_neg (by omega), if_neg (by omega)]
  have hdrop1 : (intEncodeOne n ++ rest).drop ((natBits n).length + 1) =
      natBits n ++ rest := by
    conv_lhs => rw [hsplit1]
    have : (List.replicate (natBits n).length true ++ [false]).length =
        (natBits n).length + 1 := by simp
    rw [← this, List.drop_left]
  have hdrop2 : (intEncodeOne n ++ rest).drop (2 * (natBits n).length + 1) = rest := by
    conv_lhs => rw [hsplit2]
    have : (List.replicate (natBits n).length true ++ [false] ++ natBits n).length =
        2 * (natBits n).length + 1 := by simp; omega
    rw [← this, List.drop_left]
  rw [hdrop1, hdrop2]
  have htake : (natBits n ++ rest).take (natBits n).length = natBits n :=
    List.take_left (natBits n) rest
  rw [htake, bitsToNat_natBits]

theorem intEncodeOne_ne_nil (n : Nat) : intEncodeOne n ≠ [] := by
  unfold intEncodeOne
  simp

theorem intDecodeLoop_step_some {data : List Bool} {v : Nat} {r : List Bool}
    (fuel : Nat) (hone : intDecodeOne data = some (v, r)) (hne : data ≠ [])
    (target : Nat) (acc : List Nat) :
    intDecodeLoop (fuel + 1) data target acc =
      if acc.length + 1 = target then some (acc ++ [v], r)
      else intDecodeLoop fuel r target (acc ++ [v]) := by
  cases data with
  | nil => exact absurd rfl hne
  | cons b bs =>
    show (match intDecodeOne (b :: bs) with
      | none => none
      | some (v, rest) =>
        if acc.length + 1 = target then some (acc ++ [v], rest)
        else intDecodeLoop fuel rest target (acc ++ [v])) = _
    rw [hone]

theorem intDecodeLoop_encode (v : List Nat) :
    ∀ (fuel : Nat) (rest : List Bool) (acc : List Nat), v ≠ [] →
      (intEncode v ++ rest).length ≤ fuel →
      intDecodeLoop fuel (intEncode v ++ rest) (acc.length + v.length) acc =
        some (acc ++ v, rest) := by
  induction v with
  | nil => intro fuel rest acc h _; exact absurd rfl h
  | cons x v' ih =>
    intro fuel rest acc _ hfuel
    have hne : intEncode (x :: v') ++ rest ≠ [] := by
      rw [intEncode_cons, List.append_assoc]
      intro hc
      exact intEncodeOne_ne_nil x (List.append_eq_nil.mp hc).1
    match fuel, hfuel with
    | f + 1, hfuel =>
      have hone : intDecodeOne (intEncode (x :: v') ++ rest) =
          some (x, intEncode v' ++ rest) := by
        rw [intEncode_cons, List.append_assoc]
        exact intDecodeOne_encodeOne x (intEncode v' ++ rest)
      rw [intDecodeLoop_step_some f hone hne]
      by_cases hv : v' = []
      · subst hv
        rw [if_pos (by simp)]
        simp [intEncode]
      · have hvpos : 0 < v'.length := List.length_pos.mpr hv
        rw [if_neg (by simp only [List.length_cons]; omega)]
        have hfuel2 : (intEncode v' ++ rest).length ≤ f := by
          have hlt := intDecodeOne_length_lt hone
          omega
        have := ih f rest (acc ++ [x]) hv hfuel2
        simp only [List.length_append, List.length_cons, List.length_nil] at this ⊢
        have harr : acc.length + 1 + v'.length = acc.length + (v'.length + 1) := by omega
        rw [harr] at this
        rw [this]
        simp
    | 0, hfuel =>
      exact absurd (List.length_eq_zero.mp (Nat.le_zero.mp hfuel)) hne

/-- Roundtrip of the integer codec on a non-empty vector, with arbitrary
trailing bits preserved. -/
theorem intDecode_intEncode (v : List Nat) (rest : List Bool) (hv : v ≠ []) :
    intDecode (intEncode v ++ rest) v.length = some (v, rest) := by
  have := intDecodeLoop_encode v (intEncode v ++ rest).length rest [] hv (le_refl _)
  simpa [intDecode] using this

/-! ## KMP table correctness (soundness direction) -/

theorem kmpTableLoop_length : ∀ (fuel : Nat) (p table : List Nat) (i j : Nat),
    (kmpTableLoop fuel p table i j).length = table.length := by
  intro fuel
  induction fuel with
  | zero => intro p table i j; rfl
  | succ f ih =>
    intro p table i j
    show (if j < p.length then _ else table).length = _
    by_cases hj : j < p.length
    · rw [if_pos hj]
      by_cases hc : p.getD i 0 = p.getD j 0
      · rw [if_pos hc, ih]; simp
      · rw [if_neg hc]
        by_cases hi : i = 0
        · rw [if_pos hi, ih]; simp
        · rw [if_neg hi, ih]
    · rw [if_neg hj]

theorem kmpTableLoop_spec : ∀ (fuel : Nat) (p table : List Nat) (i j : Nat),
    table.length = p.length →
    i < j →
    border p i j →
    (∀ k, k < j → k < p.length → sfx p (table.getD k 0) k) →
    2 * (p.length - j) + i < fuel →
    ∀ k, k < p.length → sfx p ((kmpTableLoop fuel p table i j).getD k 0) k := by
  intro fuel
  induction fuel with
  | zero =>
    intro p table i j _ _ _ _ hfuel
    exact absurd hfuel (by omega)
  | succ f ih =>
    intro p table i j hlen hij hbord hspec hfuel
    show ∀ k, k < p.length → sfx p ((if j < p.length then _ else table).getD k 0) k
    by_cases hj : j < p.length
    · rw [if_pos hj]
      by_cases hc : p.getD i 0 = p.getD j 0
      · rw [if_pos hc]
        refine ih p (table.set j (i + 1)) (i + 1) (j + 1) (by simpa using hlen)
          (by omega) ?_ ?_ (by omega)
        · intro u hu
          have harith : j + 1 - (i + 1) + u = j - i + u := by omega
          rw [harith]
          rcases Nat.lt_or_ge u i with hui | hui
          · exact hbord u hui
          · have hu_eq : u = i := by omega
            rw [hu_eq]
            have harith2 : j - i + i = j := by omega
            rw [harith2]
            exact hc
        · intro k hk hkp
          by_cases hkj : k = j
          · subst hkj
            have hget : (table.set k (i + 1)).getD k 0 = i + 1 := by
              rw [List.getD_eq_getElem?_getD, List.getElem?_set_self (by omega)]
              rfl
            rw [hget]
            constructor
            · omega
            · intro u hu
              have harith : k + 1 - (i + 1) + u = k - i + u := by omega
              rw [harith]
              rcases Nat.lt_or_ge u i with hui | hui
              · exact hbord u hui
              · have hu_eq : u = i := by omega
                subst hu_eq
                have harith2 : k - u + u = k := by omega
                rw [harith2]
                exact hc
          · have hget : (table.set j (i + 1)).getD k 0 = table.getD k 0 := by
              rw [List.getD_eq_getElem?_getD, List.getElem?_set_ne (by omega)]
              rw [List.getD_eq_getElem?_getD]
            rw [hget]
            exact hspec k (by omega) hkp
      · rw [if_neg hc]
        by_cases hi : i = 0
        · rw [if_pos hi]
          refine ih p (table.set j 0) 0 (j + 1) (by simpa using hlen)
            (by omega) (by intro u hu; omega) ?_ (by omega)
          intro k hk hkp
          by_cases hkj : k = j
          · subst hkj
            have hget : (table.set k 0).getD k 0 = 0 := by
              rw [List.getD_eq_getElem?_getD, List.getElem?_set_self (by omega)]
              rfl
            rw [hget]
            exact ⟨Nat.zero_le k, by intro u hu; omega⟩
          · have hget : (table.set j 0).getD k 0 = table.getD k 0 := by
              rw [List.getD_eq_getElem?_getD, List.getElem?_set_ne (by omega)]
              rw [List.getD_eq_getElem?_getD]
            rw [hget]
            exact hspec k (by omega) hkp
        · rw [if_neg hi]
          have hspec_prev := hspec (i - 1) (by omega) (by omega)
          obtain ⟨ht_le, ht_match⟩ := hspec_prev
          have hmin : min (table.getD (i - 1) 0) (i - 1) = table.getD (i - 1) 0 := by
            omega
          refine ih p table (min (table.getD (i - 1) 0) (i - 1)) j hlen
            (by omega) ?_ hspec (by omega)
          rw [hmin]
          intro u hu
          have h1 : p.getD u 0 = p.getD (i - 1 + 1 - table.getD (i - 1) 0 + u) 0 :=
            ht_match u hu
          have harith : i - 1 + 1 - table.getD (i - 1) 0 + u =
              i - table.getD (i - 1) 0 + u := by omega
          rw [harith] at h1
          rw [h1]
          have h2 := hbord (i - table.getD (i - 1) 0 + u) (by omega)
          rw [h2]
          congr 1
          omega
    · rw [if_neg hj]
      intro k hk
      exact hspec k (by omega) hk

theorem kmpTable_spec (p : List Nat) : tableSpec p (kmpTable p) := by
  intro k hk
  unfold kmpTable
  refine kmpTableLoop_spec (2 * p.length + 2) p _ 0 1 (by simp) (by omega)
    (fun u hu => absurd hu (by omega)) ?_ (by omega) k hk
  intro k2 hk2 _
  have hz : (List.replicate p.length (0 : Nat)).getD k2 0 = 0 := by
    rw [List.getD_eq_getElem?_getD, List.getElem?_replicate]
    split <;> rfl
  rw [hz]
  exact ⟨Nat.zero_le k2, fun u hu => absurd hu (by omega)⟩

/-- Every entry of the KMP skip table is at most its index, so the
termination clamp `min (table[i-1]) (i-1)` in the loops is the identity
whenever they are run on a table built by `kmpTable`. -/
theorem kmpTable_getD_le (p : List Nat) (k : Nat) : (kmpTable p).getD k 0 ≤ k := by
  rcases Nat.lt_or_ge k p.length with h | h
  · exact (kmpTable_spec p k h).1
  · have hlen : (kmpTable p).length = p.length := by
      unfold kmpTable
      rw [kmpTableLoop_length]
      simp
    rw [List.getD_eq_getElem?_getD, List.getElem?_eq_none (by omega)]
    exact Nat.zero_le k

/-! ## KMP search soundness -/

theorem kmpExit_sound {s p : List Nat} {minMatch lml : Nat} {lmi : Int}
    (hrec : lml = 0 ∧ lmi = -1 ∨
      0 < lml ∧ ∃ jn : Nat, lmi = (jn : Int) ∧ matchesAt s p jn lml)
    {ri : Int} {rlen : Nat}
    (h : (if lml ≥ minMatch then (lmi, lml) else (lmi, 0)) = (ri, rlen))
    (hpos : 0 < rlen) :
    ∃ jn : Nat, ri = (jn : Int) ∧ matchesAt s p jn rlen ∧
      (rlen = p.length ∨ minMatch ≤ rlen) := by
  split at h
  · simp only [Prod.mk.injEq] at h
    obtain ⟨h1, h2⟩ := h
    subst h1
    subst h2
    rcases hrec with ⟨hz, -⟩ | ⟨-, jn, hlm, hmat⟩
    · omega
    · exact ⟨jn, hlm, hmat, Or.inr (by assumption)⟩
  · simp only [Prod.mk.injEq] at h
    obtain ⟨-, h2⟩ := h
    omega

theorem kmpSearchLoop_sound : ∀ (fuel : Nat) (s p table : List Nat)
    (stopAfter minMatch i j lml : Nat) (lmi : Int),
    i ≤ j → j ≤ s.length → i < p.length →
    borderS s p i j →
    (lml = 0 ∧ lmi = -1 ∨
      0 < lml ∧ ∃ jn : Nat, lmi = (jn : Int) ∧ matchesAt s p jn lml) →
    tableSpec p table →
    ∀ (ri : Int) (rlen : Nat),
      kmpSearchLoop fuel s p table stopAfter minMatch i j lml lmi = (ri, rlen) →
      0 < rlen →
      ∃ jn : Nat, ri = (jn : Int) ∧ matchesAt s p jn rlen ∧
        (rlen = p.length ∨ minMatch ≤ rlen) := by
  intro fuel
  induction fuel with
  | zero =>
    intro s p table stopAfter minMatch i j lml lmi _ _ _ _ hrec _ ri rlen h hpos
    exact kmpExit_sound hrec h hpos
  | succ f ih =>
    intro s p table stopAfter minMatch i j lml lmi hij hjs hip hbord hrec htab ri rlen h hpos
    rw [kmpSearchLoop] at h
    split at h
    · rename_i hj
      split at h
      · exact kmpExit_sound hrec h hpos
      · split at h
        · rename_i hstop hc
          split at h
          · rename_i hfull
            simp only [Prod.mk.injEq] at h
            obtain ⟨h1, h2⟩ := h
            subst h1
            subst h2
            refine ⟨j - i, by omega, ⟨by omega, by omega, ?_⟩, Or.inl hfull⟩
            · intro u hu
              rcases Nat.lt_or_ge u i with hui | hui
              · exact (hbord u hui).symm
              · have hu_eq : u = i := by omega
                rw [hu_eq]
                have harith : j - i + i = j := by omega
                rw [harith]
                exact hc.symm
          · rename_i hfull
            refine ih s p table stopAfter minMatch (i + 1) (j + 1) lml lmi
              (by omega) (by omega) (by omega) ?_ hrec htab ri rlen h hpos
            intro u hu
            have harith : j + 1 - (i + 1) + u = j - i + u := by omega
            rw [harith]
            rcases Nat.lt_or_ge u i with hui | hui
            · exact hbord u hui
            · have hu_eq : u = i := by omega
              rw [hu_eq]
              have harith2 : j - i + i = j := by omega
              rw [harith2]
              exact hc
        · rename_i hstop hc
          split at h
          · rename_i hi0
            refine ih s p table stopAfter minMatch 0 (j + 1) lml lmi
              (by omega) (by omega) (by omega) (fun u hu => absurd hu (by omega))
              hrec htab ri rlen h hpos
          · rename_i hi0
            have hsfx := htab (i - 1) (by omega)
            obtain ⟨ht_le, ht_match⟩ := hsfx
            have hmin : min (table.getD (i - 1) 0) (i - 1) = table.getD (i - 1) 0 := by
              omega
            rw [hmin] at h
            refine ih s p table stopAfter minMatch (table.getD (i - 1) 0) j
              (if i > lml then i else lml)
              (if i > lml then (j : Int) - (i : Int) else lmi)
              (by omega) (by omega) (by omega) ?_ ?_ htab ri rlen h hpos
            · intro u hu
              have h1 : p.getD u 0 = p.getD (i - 1 + 1 - table.getD (i - 1) 0 + u) 0 :=
                ht_match u hu
              have harith : i - 1 + 1 - table.getD (i - 1) 0 + u =
                  i - table.getD (i - 1) 0 + u := by omega
              rw [harith] at h1
              rw [h1]
              have h2 := hbord (i - table.getD (i - 1) 0 + u) (by omega)
              rw [h2]
              congr 1
              omega
            · by_cases hil : i > lml
              · rw [if_pos hil, if_pos hil]
                refine Or.inr ⟨by omega, j - i, by omega, by omega, by omega, ?_⟩
                intro u hu
                exact (hbord u hu).symm
              · rw [if_neg hil, if_neg hil]
                exact hrec
    · exact kmpExit_sound hrec h hpos

theorem kmpPartialSearch_sound (s p : List Nat) (stopAfter minMatch : Nat)
    (hp : 0 < p.length) (ri : Int) (rlen : Nat)
    (h : kmpPartialSearch s p stopAfter minMatch = (ri, rlen)) (hpos : 0 < rlen) :
    ∃ jn : Nat, ri = (jn : Int) ∧ matchesAt s p jn rlen ∧
      (rlen = p.length ∨ minMatch ≤ rlen) :=
  kmpSearchLoop_sound (2 * s.length + 2) s p (kmpTable p) stopAfter minMatch 0 0 0 (-1)
    (le_refl 0) (Nat.zero_le _) hp (fun u hu => absurd hu (by omega))
    (Or.inl ⟨rfl, rfl⟩) (kmpTable_spec p) ri rlen h hpos

/-! ## LZ77 encoder invariants -/

theorem lz77EncodeLoop_succ_eq (f : Nat) (data : List Nat) (i : Nat)
    (hi : i < data.length) (sw look : List Nat) (r : Int × Nat)
    (hsw : sw = (data.take i).drop (i - 512))
    (hlook : look = (data.drop i).take 257)
    (hr : r = kmpPartialSearch sw look (2 ^ 20) 3) :
    lz77EncodeLoop (f + 1) data i =
      if r.2 > 0 ∧ look.length ≥ 3 then
        Token.mk (sw.length - r.1.toNat) r.2
          (if i + r.2 < data.length then some (data.getD (i + r.2) 0) else none) ::
          lz77EncodeLoop f data (i + r.2 + 1)
      else Token.mk 0 0 (some (data.getD i 0)) :: lz77EncodeLoop f data (i + 1) := by
  subst hsw
  subst hlook
  subst hr
  rw [lz77EncodeLoop, if_pos hi]

theorem lz77EncodeLoop_token_inv : ∀ (fuel : Nat) (data : List Nat) (i : Nat) (t : Token),
    t ∈ lz77EncodeLoop fuel data i → 0 < t.dist →
    3 ≤ t.len ∧ t.len ≤ 257 ∧ t.len ≤ t.dist ∧ t.dist ≤ 512 := by
  intro fuel
  induction fuel with
  | zero =>
    intro data i t ht _
    exact absurd ht (List.not_mem_nil t)
  | succ f ih =>
    intro data i t ht hd
    by_cases hi : i < data.length
    · rw [lz77EncodeLoop_succ_eq f data i hi _ _ _ rfl rfl rfl] at ht
      have hlook_len : ((data.drop i).take 257).length ≤ 257 := by
        simp [List.length_take]
      have hsw_len : (((data.take i).drop (i - 512)).length) ≤ 512 := by
        simp only [List.length_drop, List.length_take]
        omega
      generalize hk : kmpPartialSearch ((data.take i).drop (i - 512))
        ((data.drop i).take 257) (2 ^ 20) 3 = kr at ht
      split at ht
      · rename_i hcond
        obtain ⟨hr2, hlook3⟩ := hcond
        rcases List.mem_cons.mp ht with hhead | htail
        · subst hhead
          dsimp only at hd ⊢
          obtain ⟨jn, hjn, ⟨hm1, hm2, -⟩, hlen3⟩ :=
            kmpPartialSearch_sound ((data.take i).drop (i - 512))
              ((data.drop i).take 257) (2 ^ 20) 3 (by omega) kr.1 kr.2
              (by rw [hk]) hr2
          have htn : kr.1.toNat = jn := by
            rw [hjn]
            exact Int.toNat_natCast jn
          rw [htn]
          rcases hlen3 with h3 | h3 <;> omega
        · exact ih data (i + kr.2 + 1) t htail hd
      · rcases List.mem_cons.mp ht with hhead | htail
        · subst hhead
          exact absurd hd (by simp)
        · exact ih data (i + 1) t htail hd
    · rw [lz77EncodeLoop, if_neg hi] at ht
      exact absurd ht (List.not_mem_nil t)

/-! ## LZ77 decode reconstruction -/

theorem getD_drop (l : List Nat) (k u d : Nat) :
    (l.drop k).getD u d = l.getD (k + u) d := by
  rw [List.getD_eq_getElem?_getD, List.getD_eq_getElem?_getD, List.getElem?_drop]

theorem getD_take (l : List Nat) (n u d : Nat) (h : u < n) :
    (l.take n).getD u d = l.getD u d := by
  rw [List.getD_eq_getElem?_getD, List.getD_eq_getElem?_getD, List.getElem?_take,
    if_pos h]

theorem take_succ_getD (l : List Nat) (k : Nat) (h : k < l.length) :
    l.take (k + 1) = l.take k ++ [l.getD k 0] := by
  rw [List.take_succ, List.getElem?_eq_getElem h]
  rw [List.getD_eq_getElem?_getD, List.getElem?_eq_getElem h]
  rfl

theorem lz77CopyLoop_spec (data : List Nat) (i d l : Nat)
    (hd_le : d ≤ i) (hd_pos : 0 < d) (hil : i + l ≤ data.length)
    (hmatch : ∀ u, u < l → data.getD (i - d + u) 0 = data.getD (i + u) 0) :
    ∀ (rem j : Nat), j + rem = l →
      lz77CopyLoop rem (data.take (i + j)) ((i : Int) - (d : Int)) j =
        some (data.take (i + l)) := by
  intro rem
  induction rem with
  | zero =>
    intro j hj
    have hjl : j = l := by omega
    subst hjl
    rfl
  | succ r ih =>
    intro j hj
    have hjl : j < l := by omega
    show (match pyIndex (data.take (i + j)) ((i : Int) - (d : Int) + j) with
      | none => none
      | some b => lz77CopyLoop r (data.take (i + j) ++ [b]) ((i : Int) - (d : Int)) (j + 1)) = _
    have hidx : (i : Int) - (d : Int) + j = ((i - d + j : Nat) : Int) := by omega
    have hout_len : (data.take (i + j)).length = i + j := by
      simp only [List.length_take]
      omega
    have hpy : pyIndex (data.take (i + j)) ((i : Int) - (d : Int) + j) =
        some (data.getD (i + j) 0) := by
      unfold pyIndex
      rw [hidx]
      have hnoneg : ¬ ((i - d + j : Nat) : Int) < 0 := by omega
      rw [if_neg hnoneg]
      have hcond : (0 : Int) ≤ ((i - d + j : Nat) : Int) ∧
          ((i - d + j : Nat) : Int) < ((data.take (i + j)).length : Int) := by
        rw [hout_len]
        omega
      rw [if_pos hcond]
      have htoNat : (((i - d + j : Nat) : Int)).toNat = i - d + j := Int.toNat_natCast _
      rw [htoNat]
      rw [getD_take data (i + j) (i - d + j) 0 (by omega)]
      rw [hmatch j hjl]
    rw [hpy]
    show lz77CopyLoop r (data.take (i + j) ++ [data.getD (i + j) 0])
      ((i : Int) - (d : Int)) (j + 1) = _
    have hgrow : data.take (i + j) ++ [data.getD (i + j) 0] = data.take (i + j + 1) :=
      (take_succ_getD data (i + j) (by omega)).symm
    rw [hgrow]
    have harith : i + j + 1 = i + (j + 1) := by omega
    rw [harith]
    exact ih (j + 1) (by omega)

theorem lz77DecodeStep_genuine (data : List Nat) (i d l : Nat) (lit : Option Nat)
    (hd_le : d ≤ i) (hd_pos : 0 < d) (hl_pos : 0 < l) (hil : i + l ≤ data.length)
    (hmatch : ∀ u, u < l → data.getD (i - d + u) 0 = data.getD (i + u) 0)
    (hlit : lit = if i + l < data.length then some (data.getD (i + l) 0) else none) :
    lz77DecodeStep (data.take i) (Token.mk d l lit) = some (data.take (i + l + 1)) := by
  unfold lz77DecodeStep
  dsimp only
  rw [if_pos hl_pos]
  have hlen_take : ((data.take i).length : Int) = (i : Int) := by
    simp only [List.length_take]
    omega
  rw [hlen_take]
  have hcopy := lz77CopyLoop_spec data i d l hd_le hd_pos hil hmatch l 0 (by omega)
  have hi0 : i + 0 = i := by omega
  rw [hi0] at hcopy
  rw [hcopy]
  by_cases hend : i + l < data.length
  · rw [if_pos hend] at hlit
    rw [hlit]
    show some (data.take (i + l) ++ [data.getD (i + l) 0]) = _
    rw [← take_succ_getD data (i + l) hend]
  · rw [if_neg hend] at hlit
    rw [hlit]
    show some (data.take (i + l)) = some (data.take (i + l + 1))
    rw [List.take_of_length_le (by omega), List.take_of_length_le (by omega)]

theorem lz77DecodeStep_literal (data : List Nat) (i : Nat) (hi : i < data.length) :
    lz77DecodeStep (data.take i) (Token.mk 0 0 (some (data.getD i 0))) =
      some (data.take (i + 1)) := by
  unfold lz77DecodeStep
  dsimp only
  rw [if_neg (by omega)]
  show some (data.take i ++ [data.getD i 0]) = _
  rw [← take_succ_getD data i hi]

theorem lz77EncodeLoop_decode : ∀ (fuel : Nat) (data : List Nat) (i : Nat),
    data.length - i ≤ fuel →
    List.foldlM lz77DecodeStep (data.take i) (lz77EncodeLoop fuel data i) =
      some data := by
  intro fuel
  induction fuel with
  | zero =>
    intro data i hfuel
    show some (data.take i) = some data
    rw [List.take_of_length_le (by omega)]
  | succ f ih =>
    intro data i hfuel
    by_cases hi : i < data.length
    · rw [lz77EncodeLoop_succ_eq f data i hi _ _ _ rfl rfl rfl]
      generalize hk : kmpPartialSearch ((data.take i).drop (i - 512))
        ((data.drop i).take 257) (2 ^ 20) 3 = kr
      have hsw_len : (((data.take i).drop (i - 512)).length) = i - (i - 512) := by
        simp only [List.length_drop, List.length_take]
        omega
      have hlook_le : ((data.drop i).take 257).length ≤ 257 := by
        simp [List.length_take]
      have hlook_rem : ((data.drop i).take 257).length ≤ data.length - i := by
        simp only [List.length_take, List.length_drop]
        omega
      split
      · rename_i hcond
        obtain ⟨hr2, hlook3⟩ := hcond
        obtain ⟨jn, hjn, ⟨hm1, hm2, hm3⟩, -⟩ :=
          kmpPartialSearch_sound ((data.take i).drop (i - 512))
            ((data.drop i).take 257) (2 ^ 20) 3 (by omega) kr.1 kr.2
            (by rw [hk]) hr2
        have htn : kr.1.toNat = jn := by
          rw [hjn]
          exact Int.toNat_natCast jn
        rw [List.foldlM_cons]
        have hstep : lz77DecodeStep (data.take i)
            (Token.mk (((data.take i).drop (i - 512)).length - kr.1.toNat) kr.2
              (if i + kr.2 < data.length then some (data.getD (i + kr.2) 0) else none)) =
            some (data.take (i + kr.2 + 1)) := by
          rw [htn, hsw_len]
          refine lz77DecodeStep_genuine data i (i - (i - 512) - jn) kr.2 _
            (by omega) (by omega) (by omega) (by omega) ?_ rfl
          intro u hu
          have hsu := hm3 u hu
          have h1 : ((data.take i).drop (i - 512)).getD (jn + u) 0 =
              data.getD ((i - 512) + (jn + u)) 0 := by
            rw [getD_drop]
            rw [getD_take data i ((i - 512) + (jn + u)) 0 (by omega)]
          have h2 : ((data.drop i).take 257).getD u 0 = data.getD (i + u) 0 := by
            rw [getD_take _ 257 u 0 (by omega), getD_drop]
          rw [h1, h2] at hsu
          have harith : i - (i - (i - 512) - jn) + u = (i - 512) + (jn + u) := by
            omega
          rw [harith]
          exact hsu
        rw [hstep]
        show List.foldlM lz77DecodeStep (data.take (i + kr.2 + 1))
          (lz77EncodeLoop f data (i + kr.2 + 1)) = some data
        exact ih data (i + kr.2 + 1) (by omega)
      · rw [List.foldlM_cons]
        rw [lz77DecodeStep_literal data i hi]
        show List.foldlM lz77DecodeStep (data.take (i + 1))
          (lz77EncodeLoop f data (i + 1)) = some data
        exact ih data (i + 1) (by omega)
    · rw [lz77EncodeLoop, if_neg hi]
      show some (data.take i) = some data
      rw [List.take_of_length_le (by omega)]

/-! ## Numeric facts about binary numerals and padded codes -/

theorem natBitsRev_length_le : ∀ (l v : Nat), v < 2 ^ l → (natBitsRev v).length ≤ l := by
  intro l
  induction l with
  | zero =>
    intro v hv
    have hv0 : v = 0 := by omega
    subst hv0
    exact Nat.le_refl 0
  | succ k ih =>
    intro v hv
    match v with
    | 0 => exact Nat.zero_le _
    | m + 1 =>
      rw [natBitsRev_succ]
      simp only [List.length_cons]
      have hhalf : (m + 1) / 2 < 2 ^ k := by
        have h2 : (2 : Nat) ^ (k + 1) = 2 ^ k * 2 := by ring
        omega
      have := ih ((m + 1) / 2) hhalf
      omega

theorem natBits_length_le (v l : Nat) (hl : 0 < l) (hv : v < 2 ^ l) :
    (natBits v).length ≤ l := by
  unfold natBits
  by_cases h0 : v = 0
  · simp [h0]
    omega
  · rw [if_neg h0, List.length_reverse]
    exact natBitsRev_length_le l v hv

theorem toBinPadded_length (v l : Nat) (hl : 0 < l) (hv : v < 2 ^ l) :
    (toBinPadded v l).length = l := by
  unfold toBinPadded
  simp only [List.length_append, List.length_replicate]
  have := natBits_length_le v l hl hv
  omega

theorem bitsToNat_replicate_false (k : Nat) :
    bitsToNat (List.replicate k false) = 0 := by
  induction k with
  | zero => rfl
  | succ m ih =>
    rw [List.replicate_succ]
    show bitsToNat (false :: List.replicate m false) = 0
    unfold bitsToNat at ih ⊢
    simpa using ih

theorem bitsToNat_toBinPadded (v l : Nat) :
    bitsToNat (toBinPadded v l) = v := by
  unfold toBinPadded
  rw [bitsToNat_append, bitsToNat_replicate_false, bitsToNat_natBits]
  simp

theorem bitsToNat_lt (c : List Bool) : bitsToNat c < 2 ^ c.length := by
  induction c with
  | nil => simp [bitsToNat]
  | cons b t ih =>
    have hsplit : bitsToNat (b :: t) = bitsToNat [b] * 2 ^ t.length + bitsToNat t := by
      have : (b :: t) = [b] ++ t := rfl
      rw [this, bitsToNat_append]
    rw [hsplit]
    have hb : bitsToNat [b] ≤ 1 := by
      cases b <;> simp [bitsToNat]
    simp only [List.length_cons]
    have h2 : (2 : Nat) ^ (t.length + 1) = 2 * 2 ^ t.length := by ring
    have hble : bitsToNat [b] * 2 ^ t.length ≤ 1 * 2 ^ t.length :=
      Nat.mul_le_mul_right _ hb
    omega

/-- The value read off a code extension: if `c1` is a prefix of `c2` then
`c2`'s value lies in the dyadic interval determined by `c1`. -/
theorem prefix_value_interval (c1 c2 : List Bool) (hpre : c1 <+: c2) :
    bitsToNat c1 * 2 ^ (c2.length - c1.length) ≤ bitsToNat c2 ∧
    bitsToNat c2 < (bitsToNat c1 + 1) * 2 ^ (c2.length - c1.length) := by
  obtain ⟨t, ht⟩ := hpre
  subst ht
  rw [bitsToNat_append]
  have hlen : (c1 ++ t).length - c1.length = t.length := by simp
  rw [hlen]
  have := bitsToNat_lt t
  constructor
  · omega
  · have : (bitsToNat c1 + 1) * 2 ^ t.length =
        bitsToNat c1 * 2 ^ t.length + 2 ^ t.length := by ring
    omega

/-! ## Canonical code assignment: shape, order and prefix-freeness -/

theorem nextCodeBase_block (cnt : Nat → Nat) :
    ∀ l2 l1, l1 < l2 →
      (nextCodeBase cnt l1 + cnt l1) * 2 ^ (l2 - l1) ≤ nextCodeBase cnt l2 := by
  intro l2
  induction l2 with
  | zero => intro l1 h; omega
  | succ k ih =>
    intro l1 h
    show _ ≤ (nextCodeBase cnt k + cnt k) * 2
    rcases Nat.lt_or_ge l1 k with hlt | hge
    · have hstep := ih l1 hlt
      have hpow : 2 ^ (k + 1 - l1) = 2 ^ (k - l1) * 2 := by
        have : k + 1 - l1 = (k - l1) + 1 := by omega
        rw [this]
        ring
      rw [hpow, ← Nat.mul_assoc]
      have h1 : (nextCodeBase cnt l1 + cnt l1) * 2 ^ (k - l1) ≤
          nextCodeBase cnt k + cnt k := by omega
      exact Nat.mul_le_mul_right 2 h1
    · have hl1k : l1 = k := by omega
      subst hl1k
      have : l1 + 1 - l1 = 1 := by omega
      rw [this]
      omega

theorem assignCodes_shape (base B : Nat → Nat) :
    ∀ (suffix : List Nat) (idx : Nat) (nc : Nat → Nat),
      (∀ l, 0 < l → base l ≤ nc l ∧ nc l + suffix.count l ≤ B l) →
      ∀ p ∈ assignCodes suffix idx nc,
        ∃ l v, 0 < l ∧ base l ≤ v ∧ nc l ≤ v ∧ v < B l ∧ p.2 = toBinPadded v l := by
  intro suffix
  induction suffix with
  | nil => intro idx nc _ p hp; exact absurd hp (List.not_mem_nil p)
  | cons l0 rest ih =>
    intro idx nc hsub p hp
    unfold assignCodes at hp
    by_cases hl0 : l0 > 0
    · rw [if_pos hl0] at hp
      rcases List.mem_cons.mp hp with hhead | htail
      · refine ⟨l0, nc l0, hl0, (hsub l0 hl0).1, Nat.le_refl _, ?_, by rw [hhead]⟩
        have h2 := (hsub l0 hl0).2
        have hcount : (l0 :: rest).count l0 = rest.count l0 + 1 := by
          simp [List.count_cons]
        omega
      · have hsub2 : ∀ l, 0 < l →
            base l ≤ (fun x => if x = l0 then nc l0 + 1 else nc x) l ∧
            (fun x => if x = l0 then nc l0 + 1 else nc x) l + rest.count l ≤ B l := by
          intro l hl
          have h1 := (hsub l hl).1
          have h2 := (hsub l hl).2
          by_cases hll : l = l0
          · subst hll
            have hcount : (l :: rest).count l = rest.count l + 1 := by
              simp [List.count_cons]
            constructor
            · simp only [eq_self_iff_true, if_true]
              omega
            · simp only [eq_self_iff_true, if_true]
              omega
          · constructor
            · simp only [if_neg hll]
              exact h1
            · simp only [if_neg hll]
              have hcount : (l0 :: rest).count l = rest.count l := by
                simp [List.count_cons]
                omega
              omega
        obtain ⟨l, v, h⟩ := ih (idx + 1) _ hsub2 p htail
        refine ⟨l, v, h.1, h.2.1, ?_, h.2.2.2⟩
        have := h.2.2.1
        by_cases hll : l = l0
        · subst hll
          simp only [eq_self_iff_true, if_true] at this
          omega
        · simp only [if_neg hll] at this
          exact this
    · rw [if_neg hl0] at hp
      have hsub2 : ∀ l, 0 < l → base l ≤ nc l ∧ nc l + rest.count l ≤ B l := by
        intro l hl
        have h2 := (hsub l hl).2
        have hcount : rest.count l ≤ (l0 :: rest).count l := by
          rw [List.count_cons]
          split <;> omega
        exact ⟨(hsub l hl).1, by omega⟩
      exact ih (idx + 1) nc hsub2 p hp

/-- Two codes drawn from disjoint, consecutively laid-out dyadic blocks are
never prefixes of one another. -/
theorem blocks_no_prefix (base B : Nat → Nat)
    (hblock : ∀ l1 l2, l1 < l2 → B l1 * 2 ^ (l2 - l1) ≤ base l2)
    (hwidth : ∀ l, B l ≤ 2 ^ l)
    (l1 v1 l2 v2 : Nat)
    (h1 : 0 < l1) (hb1 : base l1 ≤ v1) (hv1 : v1 < B l1)
    (h2 : 0 < l2) (hb2 : base l2 ≤ v2) (hv2 : v2 < B l2)
    (hne : l1 ≠ l2 ∨ v1 ≠ v2) :
    ¬ toBinPadded v1 l1 <+: toBinPadded v2 l2 := by
  intro hpre
  have hw1 : v1 < 2 ^ l1 := by
    have := hwidth l1
    omega
  have hw2 : v2 < 2 ^ l2 := by
    have := hwidth l2
    omega
  have hlen1 : (toBinPadded v1 l1).length = l1 := toBinPadded_length v1 l1 h1 hw1
  have hlen2 : (toBinPadded v2 l2).length = l2 := toBinPadded_length v2 l2 h2 hw2
  have hll : l1 ≤ l2 := by
    have := hpre.length_le
    omega
  rcases Nat.lt_or_ge l1 l2 with hlt | hge
  · obtain ⟨hlow, hhigh⟩ := prefix_value_interval _ _ hpre
    rw [bitsToNat_toBinPadded, bitsToNat_toBinPadded, hlen1, hlen2] at hlow hhigh
    have hvb : v1 + 1 ≤ B l1 := by omega
    have hstep : (v1 + 1) * 2 ^ (l2 - l1) ≤ B l1 * 2 ^ (l2 - l1) :=
      Nat.mul_le_mul_right _ hvb
    have hblk := hblock l1 l2 hlt
    omega
  · have hl12 : l1 = l2 := by omega
    subst hl12
    have heq : toBinPadded v1 l1 = toBinPadded v2 l1 :=
      List.IsPrefix.eq_of_length hpre (by omega)
    have hveq : v1 = v2 := by
      have e1 := bitsToNat_toBinPadded v1 l1
      have e2 := bitsToNat_toBinPadded v2 l1
      rw [heq] at e1
      omega
    rcases hne with hne | hne
    · exact hne rfl
    · exact hne hveq

theorem assignCodes_pairwise (base B : Nat → Nat)
    (hblock : ∀ l1 l2, l1 < l2 → B l1 * 2 ^ (l2 - l1) ≤ base l2)
    (hwidth : ∀ l, B l ≤ 2 ^ l) :
    ∀ (suffix : List Nat) (idx : Nat) (nc : Nat → Nat),
      (∀ l, 0 < l → base l ≤ nc l ∧ nc l + suffix.count l ≤ B l) →
      List.Pairwise (fun p q => ¬ p.2 <+: q.2 ∧ ¬ q.2 <+: p.2)
        (assignCodes suffix idx nc) := by
  intro suffix
  induction suffix with
  | nil => intro idx nc _; exact List.Pairwise.nil
  | cons l0 rest ih =>
    intro idx nc hsub
    unfold assignCodes
    by_cases hl0 : l0 > 0
    · rw [if_pos hl0]
      have hcount0 : (l0 :: rest).count l0 = rest.count l0 + 1 := by
        simp [List.count_cons]
      have hsub2 : ∀ l, 0 < l →
          base l ≤ (fun x => if x = l0 then nc l0 + 1 else nc x) l ∧
          (fun x => if x = l0 then nc l0 + 1 else nc x) l + rest.count l ≤ B l := by
        intro l hl
        have h1 := (hsub l hl).1
        have h2 := (hsub l hl).2
        by_cases hll : l = l0
        · subst hll
          simp only [eq_self_iff_true, if_true]
          constructor
          · omega
          · rw [hcount0] at h2
            omega
        · simp only [if_neg hll]
          have hcount : (l0 :: rest).count l = rest.count l := by
            simp [List.count_cons]
            omega
          exact ⟨h1, by omega⟩
      refine List.Pairwise.cons ?_ (ih (idx + 1) _ hsub2)
      intro q hq
      obtain ⟨l, v, hl, hbv, hnv, hvB, hq2⟩ :=
        assignCodes_shape base B rest (idx + 1) _ hsub2 q hq
      have hv0B : nc l0 < B l0 := by
        have h2 := (hsub l0 hl0).2
        rw [hcount0] at h2
        omega
      have hb0 : base l0 ≤ nc l0 := (hsub l0 hl0).1
      show ¬ toBinPadded (nc l0) l0 <+: q.2 ∧ ¬ q.2 <+: toBinPadded (nc l0) l0
      rw [hq2]
      have hvne : l = l0 → nc l0 ≠ v := by
        intro hll
        subst hll
        simp only [eq_self_iff_true, if_true] at hnv
        omega
      constructor
      · apply blocks_no_prefix base B hblock hwidth l0 (nc l0) l v hl0 hb0 hv0B hl hbv hvB
        by_cases hll : l0 = l
        · right
          exact hvne hll.symm
        · left
          exact hll
      · apply blocks_no_prefix base B hblock hwidth l v l0 (nc l0) hl hbv hvB hl0 hb0 hv0B
        by_cases hll : l = l0
        · right
          intro hveq
          exact hvne hll (hveq ▸ rfl)
        · left
          exact hll
    · rw [if_neg hl0]
      have hsub2 : ∀ l, 0 < l → base l ≤ nc l ∧ nc l + rest.count l ≤ B l := by
        intro l hl
        have h2 := (hsub l hl).2
        have hcount : rest.count l ≤ (l0 :: rest).count l := by
          rw [List.count_cons]
          split <;> omega
        exact ⟨(hsub l hl).1, by omega⟩
      exact ih (idx + 1) nc hsub2

theorem assignCodes_total : ∀ (suffix : List Nat) (idx : Nat) (nc : Nat → Nat) (n : Nat),
    n < suffix.length → suffix.getD n 0 > 0 →
    ∃ c, (idx + n, c) ∈ assignCodes suffix idx nc := by
  intro suffix
  induction suffix with
  | nil => intro idx nc n hn _; simp at hn
  | cons l0 rest ih =>
    intro idx nc n hn hpos
    unfold assignCodes
    match n with
    | 0 =>
      have hl0 : l0 > 0 := by simpa [List.getD] using hpos
      rw [if_pos hl0]
      exact ⟨toBinPadded (nc l0) l0, by simp⟩
    | m + 1 =>
      have hm : m < rest.length := by
        simp only [List.length_cons] at hn
        omega
      have hpos2 : rest.getD m 0 > 0 := by
        simpa [List.getD] using hpos
      by_cases hl0 : l0 > 0
      · rw [if_pos hl0]
        obtain ⟨c, hc⟩ := ih (idx + 1) (fun x => if x = l0 then nc l0 + 1 else nc x) m hm hpos2
        refine ⟨c, List.mem_cons_of_mem _ ?_⟩
        have harith : idx + (m + 1) = idx + 1 + m := by omega
        rw [harith]
        exact hc
      · rw [if_neg hl0]
        obtain ⟨c, hc⟩ := ih (idx + 1) nc m hm hpos2
        refine ⟨c, ?_⟩
        have harith : idx + (m + 1) = idx + 1 + m := by omega
        rw [harith]
        exact hc

/-! ## Association-list and counter facts -/

theorem lookup_eq_some_of_mem {res : List (Nat × Nat)} (hnd : (res.map Prod.fst).Nodup)
    {p : Nat × Nat} (hp : p ∈ res) : res.lookup p.1 = some p.2 := by
  induction res with
  | nil => exact absurd hp (List.not_mem_nil p)
  | cons q t ih =>
    simp only [List.map_cons, List.nodup_cons] at hnd
    rcases List.mem_cons.mp hp with hh | ht
    · subst hh
      simp only [List.lookup]
      rw [beq_self_eq_true]
    · have hne : p.1 ≠ q.1 := by
        intro hc
        exact hnd.1 (hc ▸ List.mem_map_of_mem Prod.fst ht)
      simp only [List.lookup]
      rw [beq_eq_false_iff_ne.mpr hne]
      exact ih hnd.2 ht

theorem mem_of_lookup_eq_some {res : List (Nat × Nat)} {s v : Nat}
    (h : res.lookup s = some v) : (s, v) ∈ res := by
  induction res with
  | nil => simp [List.lookup] at h
  | cons q t ih =>
    simp only [List.lookup] at h
    by_cases he : s = q.1
    · rw [beq_iff_eq.mpr he] at h
      simp only [Option.some.injEq] at h
      subst he
      subst h
      exact List.mem_cons_self _ _
    · rw [beq_eq_false_iff_ne.mpr he] at h
      exact List.mem_cons_of_mem _ (ih h)

theorem lookup_isSome_of_mem_keys {res : List (Nat × Nat)} {s : Nat}
    (h : s ∈ res.map Prod.fst) : ∃ v, res.lookup s = some v := by
  induction res with
  | nil => simp at h
  | cons q t ih =>
    simp only [List.lookup]
    by_cases he : s = q.1
    · rw [beq_iff_eq.mpr he]
      exact ⟨q.2, rfl⟩
    · rw [beq_eq_false_iff_ne.mpr he]
      simp only [List.map_cons, List.mem_cons] at h
      rcases h with h | h
      · exact absurd h he
      · exact ih h

theorem lookup_eq_none_of_not_mem_keys {res : List (Nat × Nat)} {s : Nat}
    (h : s ∉ res.map Prod.fst) : res.lookup s = none := by
  induction res with
  | nil => rfl
  | cons q t ih =>
    simp only [List.map_cons, List.mem_cons, not_or] at h
    simp only [List.lookup]
    rw [beq_eq_false_iff_ne.mpr h.1]
    exact ih h.2

theorem mem_counterKeys_iff (data : List Nat) (s : Nat) :
    s ∈ counterKeys data ↔ s ∈ data := by
  have key : ∀ (l : List Nat) (acc : List Nat) (s : Nat),
      s ∈ l.foldl (fun acc x => if x ∈ acc then acc else acc ++ [x]) acc ↔
        s ∈ acc ∨ s ∈ l := by
    intro l
    induction l with
    | nil => intro acc s; simp
    | cons x t ih =>
      intro acc s
      simp only [List.foldl_cons]
      rw [ih]
      by_cases hx : x ∈ acc
      · rw [if_pos hx]
        constructor
        · rintro (h | h)
          · exact Or.inl h
          · exact Or.inr (List.mem_cons_of_mem x h)
        · rintro (h | h)
          · exact Or.inl h
          · rcases List.mem_cons.mp h with rfl | h
            · exact Or.inl hx
            · exact Or.inr h
      · rw [if_neg hx]
        simp only [List.mem_append, List.mem_singleton, List.mem_cons]
        tauto
  have := key data [] s
  simp only [List.not_mem_nil, false_or] at this
  exact this

theorem counterKeys_nodup (data : List Nat) : (counterKeys data).Nodup := by
  have key : ∀ (l : List Nat) (acc : List Nat), acc.Nodup →
      (l.foldl (fun acc x => if x ∈ acc then acc else acc ++ [x]) acc).Nodup := by
    intro l
    induction l with
    | nil => intro acc h; exact h
    | cons x t ih =>
      intro acc h
      simp only [List.foldl_cons]
      by_cases hx : x ∈ acc
      · rw [if_pos hx]
        exact ih acc h
      · rw [if_neg hx]
        refine ih _ ?_
        rw [List.nodup_append]
        exact ⟨h, List.nodup_singleton x, by simpa using hx⟩
  exact key data [] List.nodup_nil

theorem counter_keys (data : List Nat) : (counter data).map Prod.fst = counterKeys data := by
  unfold counter
  rw [List.map_map]
  exact List.map_id ..

theorem incr_keys (res : List (Nat × Nat)) (s : Nat) :
    (res.map (fun p => if p.1 = s then (p.1, p.2 + 1) else p)).map Prod.fst =
      res.map Prod.fst := by
  rw [List.map_map]
  apply List.map_congr_left
  intro p _
  by_cases h : p.1 = s
  · simp [h]
  · simp [h]

theorem incrFold_keys (ls : List Nat) :
    ∀ (res : List (Nat × Nat)),
      ((ls.foldl (fun r s => r.map (fun p => if p.1 = s then (p.1, p.2 + 1) else p))
        res).map Prod.fst) = res.map Prod.fst := by
  induction ls with
  | nil => intro res; rfl
  | cons x t ih =>
    intro res
    simp only [List.foldl_cons]
    rw [ih, incr_keys]

theorem huffLoop_keys : ∀ (fuel : Nat) (q : List Grp) (res : List (Nat × Nat)),
    (huffLoop fuel q res).map Prod.fst = res.map Prod.fst := by
  intro fuel
  induction fuel with
  | zero => intro q res; rfl
  | succ f ih =>
    intro q res
    show ((if q.length > 1 then _ else res).map Prod.fst) = _
    by_cases hq : q.length > 1
    · rw [if_pos hq]
      cases h1 : popMin q with
      | none => rfl
      | some pr1 =>
        obtain ⟨g1, q1⟩ := pr1
        show ((match popMin q1 with
          | none => res
          | some (g2, q2) =>
            huffLoop f (Grp.mk (g1.w + g2.w) (g1.letters ++ g2.letters) :: q2)
              ((g1.letters ++ g2.letters).foldl
                (fun (r : List (Nat × Nat)) (s : Nat) =>
                  r.map (fun (p : Nat × Nat) => if p.1 = s then (p.1, p.2 + 1) else p))
                res)).map Prod.fst) = res.map Prod.fst
        cases h2 : popMin q1 with
        | none => rfl
        | some pr2 =>
          obtain ⟨g2, q2⟩ := pr2
          show (huffLoop f (Grp.mk (g1.w + g2.w) (g1.letters ++ g2.letters) :: q2)
              ((g1.letters ++ g2.letters).foldl
                (fun r s => r.map (fun p => if p.1 = s then (p.1, p.2 + 1) else p))
                res)).map Prod.fst = res.map Prod.fst
          rw [ih, incrFold_keys]
    · rw [if_neg hq]

theorem createHuffmanTree_keys (freqs : List (Nat × Nat)) :
    (createHuffmanTree freqs).map Prod.fst = freqs.map Prod.fst := by
  match freqs with
  | [] => rfl
  | [(letter, c)] => rfl
  | (a :: b :: t) =>
    show (huffLoop _ _ _).map Prod.fst = _
    rw [huffLoop_keys]
    rw [List.map_map]
    apply List.map_congr_left
    intro p _
    rfl

/-! ## From the Kraft sum to the canonical block bound -/

theorem count_weight_le_sum (w : Nat → ℚ) (hw : ∀ k, 0 ≤ w k) :
    ∀ (bls : List Nat) (R : Nat),
      (∑ k ∈ Finset.range R, (bls.count k : ℚ) * w k) ≤ (bls.map w).sum := by
  intro bls
  induction bls with
  | nil =>
    intro R
    simp
  | cons x t ih =>
    intro R
    have hsplit : ∀ k ∈ Finset.range R, ((x :: t).count k : ℚ) * w k =
        (t.count k : ℚ) * w k + (if k = x then w k else 0) := by
      intro k _
      rw [List.count_cons]
      by_cases hk : k = x
      · rw [if_pos hk, if_pos (by simpa using hk.symm)]
        push_cast
        ring
      · rw [if_neg hk, if_neg (by simpa using fun h => hk h.symm)]
        push_cast
        ring
    rw [Finset.sum_congr rfl hsplit, Finset.sum_add_distrib]
    have h2 : (∑ k ∈ Finset.range R, if k = x then w k else 0) ≤ w x := by
      rw [Finset.sum_ite_eq' (Finset.range R) x w]
      split
      · exact le_refl _
      · exact hw x
    have h1 := ih R
    show _ ≤ ((x :: t).map w).sum
    rw [List.map_cons, List.sum_cons]
    linarith

theorem wq_nonneg (k : Nat) : 0 ≤ wq k := by
  unfold wq
  split
  · exact le_refl 0
  · positivity

theorem nextCodeBase_le_pow (bls : List Nat) (hK : kraftQ bls ≤ 1) (l : Nat) :
    nextCodeBase (fun k => if k = 0 then 0 else bls.count k) l +
      (if l = 0 then 0 else bls.count l) ≤ 2 ^ l := by
  have hpa : ∀ m, ((nextCodeBase (fun k => if k = 0 then 0 else bls.count k) m +
      (if m = 0 then 0 else bls.count m) : Nat) : ℚ) =
      (∑ k ∈ Finset.range (m + 1),
        ((if k = 0 then 0 else bls.count k : Nat) : ℚ) * ((2 : ℚ) ^ k)⁻¹) * 2 ^ m := by
    intro m
    induction m with
    | zero => simp [nextCodeBase]
    | succ n ih =>
      rw [Finset.sum_range_succ, add_mul]
      have hstep : nextCodeBase (fun k => if k = 0 then 0 else bls.count k) (n + 1) =
          (nextCodeBase (fun k => if k = 0 then 0 else bls.count k) n +
            (if n = 0 then 0 else bls.count n)) * 2 := rfl
      rw [hstep]
      have hcancel : ((if n + 1 = 0 then 0 else bls.count (n + 1) : Nat) : ℚ) *
          ((2 : ℚ) ^ (n + 1))⁻¹ * 2 ^ (n + 1) =
          ((if n + 1 = 0 then 0 else bls.count (n + 1) : Nat) : ℚ) := by
        have hne : ((2 : ℚ) ^ (n + 1)) ≠ 0 := by positivity
        field_simp
      rw [hcancel]
      push_cast
      push_cast at ih
      rw [ih]
      ring
  have hsum_le : (∑ k ∈ Finset.range (l + 1),
      ((if k = 0 then 0 else bls.count k : Nat) : ℚ) * ((2 : ℚ) ^ k)⁻¹) ≤ 1 := by
    have hle := count_weight_le_sum wq wq_nonneg bls (l + 1)
    have hcongr : ∀ k ∈ Finset.range (l + 1),
        ((if k = 0 then 0 else bls.count k : Nat) : ℚ) * ((2 : ℚ) ^ k)⁻¹ =
          (bls.count k : ℚ) * wq k := by
      intro k _
      by_cases hk : k = 0
      · subst hk
        simp [wq]
      · rw [if_neg hk]
        unfold wq
        rw [if_neg hk]
    rw [Finset.sum_congr rfl hcongr]
    exact le_trans hle hK
  have hq : ((nextCodeBase (fun k => if k = 0 then 0 else bls.count k) l +
      (if l = 0 then 0 else bls.count l) : Nat) : ℚ) ≤ 2 ^ l := by
    rw [hpa l]
    calc (∑ k ∈ Finset.range (l + 1),
        ((if k = 0 then 0 else bls.count k : Nat) : ℚ) * ((2 : ℚ) ^ k)⁻¹) * 2 ^ l
        ≤ 1 * 2 ^ l := by
          apply mul_le_mul_of_nonneg_right hsum_le
          positivity
      _ = 2 ^ l := one_mul _
  exact_mod_cast hq

/-! ## The merge loop preserves the Kraft mass -/

theorem incr_lookup (t s : Nat) (res : List (Nat × Nat)) :
    ((res.map (fun p => if p.1 = t then (p.1, p.2 + 1) else p)).lookup s) =
      if s = t then (res.lookup s).map (fun v => v + 1) else res.lookup s := by
  induction res with
  | nil => split <;> rfl
  | cons q r ih =>
    obtain ⟨k, v⟩ := q
    simp only [List.map_cons]
    by_cases hq : k = t
    · rw [if_pos (by simpa using hq)]
      by_cases hs : s = k
      · simp only [List.lookup]
        rw [beq_iff_eq.mpr hs, if_pos (hs.trans hq)]
        rfl
      · simp only [List.lookup]
        rw [beq_eq_false_iff_ne.mpr hs]
        show (r.map (fun p => if p.1 = t then (p.1, p.2 + 1) else p)).lookup s =
          if s = t then (r.lookup s).map (fun v => v + 1) else r.lookup s
        exact ih
    · rw [if_neg (by simpa using hq)]
      by_cases hs : s = k
      · simp only [List.lookup]
        rw [beq_iff_eq.mpr hs, if_neg (fun h => hq (hs.symm.trans h))]
      · simp only [List.lookup]
        rw [beq_eq_false_iff_ne.mpr hs]
        show (r.map (fun p => if p.1 = t then (p.1, p.2 + 1) else p)).lookup s =
          if s = t then (r.lookup s).map (fun v => v + 1) else r.lookup s
        exact ih

theorem incrFold_lookup (ls : List Nat) : ∀ (res : List (Nat × Nat)) (s : Nat),
    ((ls.foldl (fun r x => r.map (fun p => if p.1 = x then (p.1, p.2 + 1) else p))
        res).lookup s) =
      (res.lookup s).map (fun v => v + ls.count s) := by
  induction ls with
  | nil =>
    intro res s
    rw [List.foldl_nil]
    cases res.lookup s
    · rfl
    · simp
  | cons x tl ih =>
    intro res s
    rw [List.foldl_cons, ih, incr_lookup x s res]
    by_cases hs : s = x
    · subst hs
      rw [if_pos rfl]
      cases h : res.lookup s
      · rfl
      · rename_i v
        show some (v + 1 + tl.count s) = some (v + (s :: tl).count s)
        have hc : (s :: tl).count s = tl.count s + 1 := by simp [List.count_cons]
        rw [hc]
        have he : v + 1 + tl.count s = v + (tl.count s + 1) := by omega
        rw [he]
    · rw [if_neg hs]
      cases h : res.lookup s
      · rfl
      · rename_i v
        show some (v + tl.count s) = some (v + (x :: tl).count s)
        have hc : (x :: tl).count s = tl.count s := by simp [List.count_cons, hs]
        rw [hc]

theorem incrFold_eq_map (ls : List Nat) : ∀ (res : List (Nat × Nat)),
    ls.foldl (fun r x => r.map (fun p => if p.1 = x then (p.1, p.2 + 1) else p)) res =
      res.map (fun p => (p.1, p.2 + ls.count p.1)) := by
  induction ls with
  | nil =>
    intro res
    rw [List.foldl_nil]
    have h : res.map (fun p => (p.1, p.2 + List.count p.1 [])) = res.map id :=
      List.map_congr_left (fun p _ => by simp)
    rw [h, List.map_id]
  | cons x tl ih =>
    intro res
    rw [List.foldl_cons, ih, List.map_map]
    apply List.map_congr_left
    intro p _
    by_cases hp : p.1 = x
    · show ((fun p => (p.1, p.2 + tl.count p.1))
        (if p.1 = x then (p.1, p.2 + 1) else p)) = (p.1, p.2 + (x :: tl).count p.1)
      rw [if_pos hp]
      show (p.1, p.2 + 1 + tl.count p.1) = (p.1, p.2 + (x :: tl).count p.1)
      rw [Prod.mk.injEq]
      refine ⟨rfl, ?_⟩
      have hc : (x :: tl).count p.1 = tl.count p.1 + 1 := by simp [List.count_cons, hp]
      rw [hc]
      omega
    · show ((fun p => (p.1, p.2 + tl.count p.1))
        (if p.1 = x then (p.1, p.2 + 1) else p)) = (p.1, p.2 + (x :: tl).count p.1)
      rw [if_neg hp]
      show (p.1, p.2 + tl.count p.1) = (p.1, p.2 + (x :: tl).count p.1)
      rw [Prod.mk.injEq]
      refine ⟨rfl, ?_⟩
      have hc : (x :: tl).count p.1 = tl.count p.1 := by simp [List.count_cons, hp]
      rw [hc]

theorem popMin_eq_none {q : List Grp} (h : popMin q = none) : q = [] := by
  match q with
  | [] => rfl
  | x :: xs => simp [popMin] at h

theorem popMin_perm {q : List Grp} {g : Grp} {rest : List Grp}
    (h : popMin q = some (g, rest)) : q.Perm (g :: rest) := by
  match q with
  | [] => simp [popMin] at h
  | x :: xs =>
    simp only [popMin, Option.some.injEq, Prod.mk.injEq] at h
    obtain ⟨h1, h2⟩ := h
    rw [← h1, ← h2]
    exact List.perm_cons_erase (minGrp_mem x xs)

theorem sum_map_one_eq_length {α : Type} (l : List α) (f : α → ℚ)
    (h : ∀ x ∈ l, f x = 1) : (l.map f).sum = l.length := by
  induction l with
  | nil => simp
  | cons x t ih =>
    rw [List.map_cons, List.sum_cons, h x (List.mem_cons_self x t),
      ih (fun y hy => h y (List.mem_cons_of_mem x hy)), List.length_cons]
    push_cast
    ring

theorem two_distinct_of_nodup {l : List Nat} (hnd : l.Nodup) (hlen : 2 ≤ l.length) :
    ∃ a ∈ l, ∃ b ∈ l, a ≠ b := by
  match l, hnd, hlen with
  | [], _, hlen => simp at hlen
  | [a], _, hlen => simp at hlen
  | a :: b :: t, hnd, _ =>
    refine ⟨a, List.mem_cons_self a _, b,
      List.mem_cons_of_mem a (List.mem_cons_self b t), ?_⟩
    rw [List.nodup_cons] at hnd
    intro hab
    exact hnd.1 (hab ▸ List.mem_cons_self b t)

theorem flatten_singleton_map {α β : Type} (f : α → β) (l : List α) :
    ((l.map (fun x => [f x])).flatten) = l.map f := by
  induction l with
  | nil => rfl
  | cons x t ih => simp [ih]

theorem resSumQ_eq_groups (q : List Grp) (res : List (Nat × Nat))
    (hknd : (res.map Prod.fst).Nodup)
    (hjnd : ((q.map Grp.letters).flatten).Nodup)
    (hmem : ∀ s, s ∈ (q.map Grp.letters).flatten ↔ s ∈ res.map Prod.fst) :
    (q.map (groupSum res)).sum = resSumQ res := by
  have hperm : ((q.map Grp.letters).flatten).Perm (res.map Prod.fst) :=
    (List.perm_ext_iff_of_nodup hjnd hknd).mpr hmem
  have hstep1 : (((q.map Grp.letters).flatten).map
      (fun s => ((2 : ℚ) ^ ((res.lookup s).getD 0))⁻¹)).sum =
      ((res.map Prod.fst).map (fun s => ((2 : ℚ) ^ ((res.lookup s).getD 0))⁻¹)).sum :=
    (hperm.map _).sum_eq
  have hstep2 : (((q.map Grp.letters).flatten).map
      (fun s => ((2 : ℚ) ^ ((res.lookup s).getD 0))⁻¹)).sum =
      (q.map (groupSum res)).sum := by
    rw [List.map_flatten, List.sum_flatten, List.map_map, List.map_map]
    rfl
  have hstep3 : ((res.map Prod.fst).map
      (fun s => ((2 : ℚ) ^ ((res.lookup s).getD 0))⁻¹)).sum = resSumQ res := by
    rw [List.map_map]
    unfold resSumQ
    congr 1
    apply List.map_congr_left
    intro p hp
    show ((2 : ℚ) ^ ((res.lookup p.1).getD 0))⁻¹ = ((2 : ℚ) ^ p.2)⁻¹
    rw [lookup_eq_some_of_mem hknd hp]
    rfl
  rw [← hstep2, hstep1, hstep3]

theorem huffLoop_terminal (q : List Grp) (res : List (Nat × Nat))
    (hq : q.length ≤ 1)
    (hjnd : ((q.map Grp.letters).flatten).Nodup)
    (hknd : (res.map Prod.fst).Nodup)
    (hmem : ∀ s, s ∈ (q.map Grp.letters).flatten ↔ s ∈ res.map Prod.fst)
    (hgs : ∀ g ∈ q, groupSum res g = 1)
    (hzero : ∀ p ∈ res, p.2 = 0 → ∃ g ∈ q, g.letters = [p.1]) :
    resSumQ res ≤ 1 ∧ (2 ≤ res.length → ∀ p ∈ res, 0 < p.2) := by
  constructor
  · have heq := resSumQ_eq_groups q res hknd hjnd hmem
    rw [← heq, sum_map_one_eq_length q (groupSum res) hgs]
    exact_mod_cast hq
  · intro h2 p hp
    by_contra hple
    have hp0 : p.2 = 0 := by omega
    obtain ⟨g, hgq, hgl⟩ := hzero p hp hp0
    have hqeq : q = [g] := by
      match q, hq, hgq with
      | [], _, hgq2 => exact absurd hgq2 (List.not_mem_nil g)
      | [g0], _, hgq2 => rw [List.mem_singleton.mp hgq2]
      | a :: b :: t, hq2, _ => simp at hq2
    subst hqeq
    obtain ⟨a, ha, b, hb, hab⟩ := two_distinct_of_nodup hknd
      (by rw [List.length_map]; exact h2)
    have ha2 := (hmem a).mpr ha
    have hb2 := (hmem b).mpr hb
    simp [hgl] at ha2 hb2
    exact hab (ha2.trans hb2.symm)

theorem huffLoop_stop (f : Nat) (q : List Grp) (res : List (Nat × Nat))
    (hq : ¬ q.length > 1) : huffLoop (f + 1) q res = res := by
  show (if q.length > 1 then _ else res) = res
  rw [if_neg hq]

theorem huffLoop_step (f : Nat) (q : List Grp) (res : List (Nat × Nat))
    (hq : q.length > 1) {g1 : Grp} {q1 : List Grp} (h1 : popMin q = some (g1, q1))
    {g2 : Grp} {q2 : List Grp} (h2 : popMin q1 = some (g2, q2)) :
    huffLoop (f + 1) q res =
      huffLoop f (Grp.mk (g1.w + g2.w) (g1.letters ++ g2.letters) :: q2)
        ((g1.letters ++ g2.letters).foldl
          (fun r s => r.map (fun p => if p.1 = s then (p.1, p.2 + 1) else p)) res) := by
  show (if q.length > 1 then
      match popMin q with
      | none => res
      | some (g1, q1) =>
        match popMin q1 with
        | none => res
        | some (g2, q2) =>
          huffLoop f (Grp.mk (g1.w + g2.w) (g1.letters ++ g2.letters) :: q2)
            ((g1.letters ++ g2.letters).foldl
              (fun (r : List (Nat × Nat)) (s : Nat) =>
                r.map (fun (p : Nat × Nat) => if p.1 = s then (p.1, p.2 + 1) else p)) res)
    else res) = _
  rw [if_pos hq, h1]
  show (match popMin q1 with
      | none => res
      | some (g2, q2) =>
        huffLoop f (Grp.mk (g1.w + g2.w) (g1.letters ++ g2.letters) :: q2)
          ((g1.letters ++ g2.letters).foldl
            (fun (r : List (Nat × Nat)) (s : Nat) =>
              r.map (fun (p : Nat × Nat) => if p.1 = s then (p.1, p.2 + 1) else p)) res)) = _
  rw [h2]

theorem groupSum_incrFold_self (res : List (Nat × Nat)) (L : List Nat)
    (hLnd : L.Nodup) (hkey : ∀ s ∈ L, ∃ v, res.lookup s = some v) :
    (L.map (fun s => ((2 : ℚ) ^
        (((L.foldl (fun r x => r.map (fun p => if p.1 = x then (p.1, p.2 + 1) else p))
          res).lookup s).getD 0))⁻¹)).sum
      = (L.map (fun s => ((2 : ℚ) ^ ((res.lookup s).getD 0))⁻¹)).sum * 2⁻¹ := by
  have hpt : ∀ s ∈ L, ((2 : ℚ) ^
      (((L.foldl (fun r x => r.map (fun p => if p.1 = x then (p.1, p.2 + 1) else p))
        res).lookup s).getD 0))⁻¹
      = ((2 : ℚ) ^ ((res.lookup s).getD 0))⁻¹ * 2⁻¹ := by
    intro s hs
    obtain ⟨v, hv⟩ := hkey s hs
    have hcount : L.count s = 1 := List.count_eq_one_of_mem hLnd hs
    rw [incrFold_lookup L res s, hv, hcount]
    show ((2 : ℚ) ^ (v + 1))⁻¹ = ((2 : ℚ) ^ v)⁻¹ * 2⁻¹
    rw [pow_succ, mul_inv]
  rw [List.map_congr_left hpt, List.sum_map_mul_right]

theorem groupSum_incrFold_other (res : List (Nat × Nat)) (L M : List Nat)
    (hdisj : ∀ s ∈ M, s ∉ L) :
    (M.map (fun s => ((2 : ℚ) ^
        (((L.foldl (fun r x => r.map (fun p => if p.1 = x then (p.1, p.2 + 1) else p))
          res).lookup s).getD 0))⁻¹)).sum
      = (M.map (fun s => ((2 : ℚ) ^ ((res.lookup s).getD 0))⁻¹)).sum := by
  have hpt : ∀ s ∈ M, ((2 : ℚ) ^
      (((L.foldl (fun r x => r.map (fun p => if p.1 = x then (p.1, p.2 + 1) else p))
        res).lookup s).getD 0))⁻¹
      = ((2 : ℚ) ^ ((res.lookup s).getD 0))⁻¹ := by
    intro s hs
    have hcount : L.count s = 0 := List.count_eq_zero.mpr (hdisj s hs)
    rw [incrFold_lookup L res s, hcount]
    cases h : res.lookup s <;> rfl
  rw [List.map_congr_left hpt]

theorem huffLoop_kraft : ∀ (fuel : Nat) (q : List Grp) (res : List (Nat × Nat)),
    q.length ≤ fuel + 1 →
    ((q.map Grp.letters).flatten).Nodup →
    ((res.map Prod.fst).Nodup) →
    (∀ s, s ∈ (q.map Grp.letters).flatten ↔ s ∈ res.map Prod.fst) →
    (∀ g ∈ q, groupSum res g = 1) →
    (∀ p ∈ res, p.2 = 0 → ∃ g ∈ q, g.letters = [p.1]) →
    resSumQ (huffLoop fuel q res) ≤ 1 ∧
      (2 ≤ res.length → ∀ p ∈ huffLoop fuel q res, 0 < p.2) := by
  intro fuel
  induction fuel with
  | zero =>
    intro q res hfuel hjnd hknd hmem hgs hzero
    exact huffLoop_terminal q res hfuel hjnd hknd hmem hgs hzero
  | succ f ih =>
    intro q res hfuel hjnd hknd hmem hgs hzero
    by_cases hq : q.length > 1
    · cases h1 : popMin q with
      | none =>
        have hnil := popMin_eq_none h1
        rw [hnil] at hq
        simp at hq
      | some pr1 =>
        obtain ⟨g1, q1⟩ := pr1
        cases h2 : popMin q1 with
        | none =>
          have hnil := popMin_eq_none h2
          have hlen1 := popMin_length h1
          rw [hnil] at hlen1
          simp at hlen1
          exact absurd hq (by omega)
        | some pr2 =>
          obtain ⟨g2, q2⟩ := pr2
          have hperm1 := popMin_perm h1
          have hperm2 := popMin_perm h2
          have hperm : q.Perm (g1 :: g2 :: q2) := hperm1.trans (hperm2.cons g1)
          have hlen1 := popMin_length h1
          have hlen2 := popMin_length h2
          have hpermJ : ((q.map Grp.letters).flatten).Perm
              ((g1.letters ++ g2.letters) ++ (q2.map Grp.letters).flatten) := by
            have h3 := (hperm.map Grp.letters).flatten
            simpa using h3
          have hflat : (((Grp.mk (g1.w + g2.w) (g1.letters ++ g2.letters)) :: q2).map
              Grp.letters).flatten
              = (g1.letters ++ g2.letters) ++ (q2.map Grp.letters).flatten := by
            simp
          have hjnd2 := hpermJ.nodup_iff.mp hjnd
          have hjnd' : ((((Grp.mk (g1.w + g2.w) (g1.letters ++ g2.letters)) :: q2).map
              Grp.letters).flatten).Nodup := by
            rw [hflat]
            exact hjnd2
          have hknd' : ((((g1.letters ++ g2.letters).foldl
              (fun r s => r.map (fun p => if p.1 = s then (p.1, p.2 + 1) else p))
              res).map Prod.fst).Nodup) := by
            rw [incrFold_keys]
            exact hknd
          have hmem' : ∀ s, s ∈ (((Grp.mk (g1.w + g2.w) (g1.letters ++ g2.letters)) :: q2).map
              Grp.letters).flatten ↔
              s ∈ ((g1.letters ++ g2.letters).foldl
                (fun r s => r.map (fun p => if p.1 = s then (p.1, p.2 + 1) else p))
                res).map Prod.fst := by
            intro s
            rw [hflat, incrFold_keys, ← hmem s]
            exact (List.Perm.mem_iff hpermJ).symm
          have hkey : ∀ s ∈ g1.letters ++ g2.letters, ∃ v, res.lookup s = some v := by
            intro s hs
            apply lookup_isSome_of_mem_keys
            exact (hmem s).mp (hpermJ.mem_iff.mpr (List.mem_append_left _ hs))
          have hLnd : (g1.letters ++ g2.letters).Nodup := hjnd2.of_append_left
          have hdisj : ∀ s, s ∈ (q2.map Grp.letters).flatten →
              s ∉ g1.letters ++ g2.letters := by
            intro s hs hsL
            exact List.disjoint_of_nodup_append hjnd2 hsL hs
          have hgs' : ∀ g ∈ (Grp.mk (g1.w + g2.w) (g1.letters ++ g2.letters)) :: q2,
              groupSum ((g1.letters ++ g2.letters).foldl
                (fun r s => r.map (fun p => if p.1 = s then (p.1, p.2 + 1) else p)) res) g
                = 1 := by
            intro g hg
            rcases List.mem_cons.mp hg with heq | hg2
            · rw [heq]
              unfold groupSum
              show ((g1.letters ++ g2.letters).map (fun s => ((2 : ℚ) ^
                ((((g1.letters ++ g2.letters).foldl
                  (fun r x => r.map (fun p => if p.1 = x then (p.1, p.2 + 1) else p))
                  res).lookup s).getD 0))⁻¹)).sum = 1
              rw [groupSum_incrFold_self res (g1.letters ++ g2.letters) hLnd hkey]
              rw [List.map_append, List.sum_append]
              have e1 : (g1.letters.map
                  (fun s => ((2 : ℚ) ^ ((res.lookup s).getD 0))⁻¹)).sum = 1 :=
                hgs g1 (hperm.mem_iff.mpr (List.mem_cons_self _ _))
              have e2 : (g2.letters.map
                  (fun s => ((2 : ℚ) ^ ((res.lookup s).getD 0))⁻¹)).sum = 1 :=
                hgs g2 (hperm.mem_iff.mpr
                  (List.mem_cons_of_mem _ (List.mem_cons_self _ _)))
              rw [e1, e2]
              norm_num
            · unfold groupSum
              rw [groupSum_incrFold_other res (g1.letters ++ g2.letters) g.letters
                (fun s hs => hdisj s (List.mem_flatten.mpr
                  ⟨g.letters, List.mem_map_of_mem Grp.letters hg2, hs⟩))]
              exact hgs g (hperm.mem_iff.mpr
                (List.mem_cons_of_mem _ (List.mem_cons_of_mem _ hg2)))
          have hzero' : ∀ p ∈ (g1.letters ++ g2.letters).foldl
              (fun r s => r.map (fun p => if p.1 = s then (p.1, p.2 + 1) else p)) res,
              p.2 = 0 → ∃ g ∈ (Grp.mk (g1.w + g2.w) (g1.letters ++ g2.letters)) :: q2,
                g.letters = [p.1] := by
            intro p hp hp2
            rw [incrFold_eq_map] at hp
            obtain ⟨p0, hp0mem, hpe⟩ := List.mem_map.mp hp
            have h1e : p0.1 = p.1 := by rw [← hpe]
            have h2e : p0.2 + (g1.letters ++ g2.letters).count p0.1 = p.2 := by
              rw [← hpe]
            have hp02 : p0.2 = 0 := by omega
            have hcnt0 : (g1.letters ++ g2.letters).count p0.1 = 0 := by omega
            have hnotL : p0.1 ∉ g1.letters ++ g2.letters := List.count_eq_zero.mp hcnt0
            obtain ⟨g, hgq, hgl⟩ := hzero p0 hp0mem hp02
            have hgm := hperm.mem_iff.mp hgq
            rcases List.mem_cons.mp hgm with heq | hgm2
            · exfalso
              apply hnotL
              apply List.mem_append_left
              rw [← heq, hgl]
              exact List.mem_cons_self _ _
            · rcases List.mem_cons.mp hgm2 with heq | hgm3
              · exfalso
                apply hnotL
                apply List.mem_append_right
                rw [← heq, hgl]
                exact List.mem_cons_self _ _
              · exact ⟨g, List.mem_cons_of_mem _ hgm3, by rw [hgl, h1e]⟩
          rw [huffLoop_step f q res hq h1 h2]
          have hf2 : ((Grp.mk (g1.w + g2.w) (g1.letters ++ g2.letters)) :: q2).length
              ≤ f + 1 := by
            simp only [List.length_cons]
            omega
          have hKP := ih ((Grp.mk (g1.w + g2.w) (g1.letters ++ g2.letters)) :: q2)
            ((g1.letters ++ g2.letters).foldl
              (fun r s => r.map (fun p => if p.1 = s then (p.1, p.2 + 1) else p)) res)
            hf2 hjnd' hknd' hmem' hgs' hzero'
          refine ⟨hKP.1, fun hr2 => hKP.2 ?_⟩
          rw [incrFold_eq_map, List.length_map]
          exact hr2
    · rw [huffLoop_stop f q res hq]
      exact huffLoop_terminal q res (by omega) hjnd hknd hmem hgs hzero

theorem huffLoop_start (F : List (Nat × Nat)) (hnd : (F.map Prod.fst).Nodup) :
    resSumQ (huffLoop F.length (F.map (fun p => Grp.mk p.2 [p.1]))
        (F.map (fun p => (p.1, 0)))) ≤ 1 ∧
      (2 ≤ F.length → ∀ p ∈ huffLoop F.length (F.map (fun p => Grp.mk p.2 [p.1]))
        (F.map (fun p => (p.1, 0))), 0 < p.2) := by
  have hflatEq : (((F.map (fun p => Grp.mk p.2 [p.1])).map Grp.letters).flatten)
      = F.map Prod.fst := by
    rw [List.map_map]
    have h1 : F.map (Grp.letters ∘ fun p => Grp.mk p.2 [p.1]) =
        F.map (fun x => [Prod.fst x]) := List.map_congr_left (fun p _ => rfl)
    rw [h1, flatten_singleton_map Prod.fst F]
  have hkeysEq : ((F.map (fun p => (p.1, 0))).map Prod.fst) = F.map Prod.fst := by
    rw [List.map_map]
    exact List.map_congr_left (fun p _ => rfl)
  have hknd0 : ((F.map (fun p => (p.1, 0))).map Prod.fst).Nodup := by
    rw [hkeysEq]
    exact hnd
  have hgs0 : ∀ g ∈ F.map (fun p => Grp.mk p.2 [p.1]),
      groupSum (F.map (fun p => (p.1, 0))) g = 1 := by
    intro g hg
    obtain ⟨p, hpF, hpe⟩ := List.mem_map.mp hg
    have hlk : (F.map (fun p => (p.1, 0))).lookup p.1 = some 0 :=
      @lookup_eq_some_of_mem (F.map (fun p => (p.1, 0))) hknd0 (p.1, 0)
        (List.mem_map_of_mem (fun p => (p.1, 0)) hpF)
    rw [← hpe]
    show ([p.1].map (fun s => ((2 : ℚ) ^
      (((F.map (fun p => (p.1, 0))).lookup s).getD 0))⁻¹)).sum = 1
    simp [hlk]
  have hzero0 : ∀ p ∈ F.map (fun p => (p.1, 0)), p.2 = 0 →
      ∃ g ∈ F.map (fun p => Grp.mk p.2 [p.1]), g.letters = [p.1] := by
    intro p hp _
    obtain ⟨p0, hp0, hpe⟩ := List.mem_map.mp hp
    refine ⟨Grp.mk p0.2 [p0.1], List.mem_map_of_mem _ hp0, ?_⟩
    rw [← hpe]
  have hfuel : (F.map (fun p => Grp.mk p.2 [p.1])).length ≤ F.length + 1 := by
    rw [List.length_map]
    omega
  have hjnd0 : (((F.map (fun p => Grp.mk p.2 [p.1])).map Grp.letters).flatten).Nodup := by
    rw [hflatEq]
    exact hnd
  have hmem0 : ∀ s, s ∈ ((F.map (fun p => Grp.mk p.2 [p.1])).map Grp.letters).flatten ↔
      s ∈ (F.map (fun p => (p.1, 0))).map Prod.fst := by
    intro s
    rw [hflatEq, hkeysEq]
  have big := huffLoop_kraft F.length (F.map (fun p => Grp.mk p.2 [p.1]))
    (F.map (fun p => (p.1, 0))) hfuel hjnd0 hknd0 hmem0 hgs0 hzero0
  refine ⟨big.1, fun h2 => big.2 ?_⟩
  rw [List.length_map]
  exact h2

theorem createHuffmanTree_kraft (freqs : List (Nat × Nat))
    (hnd : (freqs.map Prod.fst).Nodup) :
    resSumQ (createHuffmanTree freqs) ≤ 1 ∧
      (∀ p ∈ createHuffmanTree freqs, 0 < p.2) := by
  match freqs, hnd with
  | [], _ =>
    have h0 : createHuffmanTree [] = [] := rfl
    rw [h0]
    exact ⟨by norm_num [resSumQ], fun p hp => absurd hp (List.not_mem_nil p)⟩
  | [(letter, c)], _ =>
    have h1 : createHuffmanTree [(letter, c)] = [(letter, 1)] := rfl
    rw [h1]
    constructor
    · norm_num [resSumQ]
    · intro p hp
      rw [List.mem_singleton.mp hp]
      norm_num
  | p1 :: p2 :: t, hnd =>
    have hct : createHuffmanTree (p1 :: p2 :: t) =
        huffLoop (p1 :: p2 :: t).length
          ((p1 :: p2 :: t).map (fun p => Grp.mk p.2 [p.1]))
          ((p1 :: p2 :: t).map (fun p => (p.1, 0))) := rfl
    rw [hct]
    have hs := huffLoop_start (p1 :: p2 :: t) hnd
    exact ⟨hs.1, hs.2 (by simp only [List.length_cons]; omega)⟩

/-! ## From the length table to the canonical code table -/

theorem mem_le_foldr_max : ∀ (l : List Nat), ∀ x ∈ l, x ≤ l.foldr max 0 := by
  intro l
  induction l with
  | nil => intro x hx; exact absurd hx (List.not_mem_nil x)
  | cons a t ih =>
    intro x hx
    rcases List.mem_cons.mp hx with heq | hx2
    · show x ≤ max a (t.foldr max 0)
      rw [heq]
      exact Nat.le_max_left _ _
    · show x ≤ max a (t.foldr max 0)
      exact le_trans (ih x hx2) (Nat.le_max_right _ _)

theorem getD_range_map (A : Nat) (f : Nat → Nat) (s : Nat) (hs : s < A) :
    (((List.range A).map f).getD s 0) = f s := by
  rw [List.getD_eq_getElem?_getD, List.getElem?_map, List.getElem?_range hs]
  rfl

theorem kraftQ_clVec_le (cl : List (Nat × Nat)) (A : Nat)
    (hknd : (cl.map Prod.fst).Nodup)
    (hpos : ∀ p ∈ cl, 0 < p.2)
    (hkeysA : ∀ s ∈ cl.map Prod.fst, s < A)
    (hK : resSumQ cl ≤ 1) :
    kraftQ ((List.range A).map (fun letter => ((cl.lookup letter).getD 0))) ≤ 1 := by
  have hstep0 : (((List.range A).map (fun letter => ((cl.lookup letter).getD 0))).map wq)
      = (List.range A).map (fun letter => wq ((cl.lookup letter).getD 0)) := by
    rw [List.map_map]
    rfl
  have hrangeF : (List.range A).toFinset = Finset.range A := by
    ext x
    simp
  have hsub : (cl.map Prod.fst).toFinset ⊆ Finset.range A := by
    intro x hx
    rw [Finset.mem_range]
    exact hkeysA x (List.mem_toFinset.mp hx)
  have hvanish : ∀ x ∈ Finset.range A, x ∉ (cl.map Prod.fst).toFinset →
      wq ((cl.lookup x).getD 0) = 0 := by
    intro x _ hx
    have hnk : x ∉ cl.map Prod.fst := fun hc => hx (List.mem_toFinset.mpr hc)
    rw [lookup_eq_none_of_not_mem_keys hnk]
    rfl
  have hpt : ∀ p ∈ cl, ((fun letter => wq ((cl.lookup letter).getD 0)) ∘ Prod.fst) p
      = ((2 : ℚ) ^ p.2)⁻¹ := by
    intro p hp
    show wq ((cl.lookup p.1).getD 0) = ((2 : ℚ) ^ p.2)⁻¹
    rw [lookup_eq_some_of_mem hknd hp]
    show wq p.2 = _
    unfold wq
    rw [if_neg (Nat.pos_iff_ne_zero.mp (hpos p hp))]
  unfold kraftQ
  rw [hstep0, ← List.sum_toFinset _ (List.nodup_range A), hrangeF,
    ← Finset.sum_subset hsub hvanish, List.sum_toFinset _ hknd, List.map_map,
    List.map_congr_left hpt]
  exact hK

theorem createCodes_snd (data : List Nat) (A : Nat) :
    (createCodes data A).2 = genCodes ((List.range A).map
      (fun letter => (((createHuffmanTree (counter data)).lookup letter).getD 0))) := by
  show ((genCodes ((List.range A).map
      (fun letter => (((createHuffmanTree (counter data)).lookup letter).getD 0)))).map
        (fun p => (p.2, p.1))).map (fun p => (p.2, p.1)) = _
  rw [List.map_map]
  have hid : (genCodes ((List.range A).map
      (fun letter => (((createHuffmanTree (counter data)).lookup letter).getD 0)))).map
        ((fun (p : List Bool × Nat) => (p.2, p.1)) ∘ (fun (p : Nat × List Bool) => (p.2, p.1)))
      = (genCodes ((List.range A).map
        (fun letter => (((createHuffmanTree (counter data)).lookup letter).getD 0)))).map id :=
    List.map_congr_left (fun p _ => rfl)
  rw [hid, List.map_id]

theorem genCodes_pairwise (bls : List Nat) (hK : kraftQ bls ≤ 1) :
    List.Pairwise (fun p q => ¬ p.2 <+: q.2 ∧ ¬ q.2 <+: p.2) (genCodes bls) := by
  unfold genCodes
  by_cases h0 : bls = []
  · rw [if_pos h0]
    exact List.Pairwise.nil
  · rw [if_neg h0]
    by_cases h1 : bls.foldr max 0 = 0
    · rw [if_pos h1]
      exact List.Pairwise.nil
    · rw [if_neg h1]
      exact assignCodes_pairwise
        (nextCodeBase (fun k => if k = 0 then 0 else bls.count k))
        (fun l => nextCodeBase (fun k => if k = 0 then 0 else bls.count k) l +
          (if l = 0 then 0 else bls.count l))
        (fun l1 l2 h => nextCodeBase_block (fun k => if k = 0 then 0 else bls.count k) l2 l1 h)
        (fun l => nextCodeBase_le_pow bls hK l)
        bls 0 _
        (fun l hl => ⟨Nat.le_refl _, by
          have hne : ¬ l = 0 := by omega
          simp only [if_neg hne]
          exact Nat.le_refl _⟩)

theorem genCodes_total (bls : List Nat) (s : Nat) (hs : s < bls.length)
    (hpos : 0 < bls.getD s 0) : ∃ c, (s, c) ∈ genCodes bls := by
  unfold genCodes
  by_cases h0 : bls = []
  · subst h0
    simp at hs
  · rw [if_neg h0]
    by_cases h1 : bls.foldr max 0 = 0
    · exfalso
      have hmem : bls.getD s 0 ∈ bls := by
        rw [List.getD_eq_getElem bls 0 hs]
        exact List.getElem_mem hs
      have := mem_le_foldr_max bls _ hmem
      rw [h1] at this
      omega
    · rw [if_neg h1]
      have h := assignCodes_total bls 0
        (nextCodeBase (fun k => if k = 0 then 0 else bls.count k)) s hs hpos
      simpa using h

/-! ## Association lists over an arbitrary key type -/

theorem lookupG_eq_some_of_mem {α β : Type} [BEq α] [LawfulBEq α] {res : List (α × β)}
    (hnd : (res.map Prod.fst).Nodup) {p : α × β} (hp : p ∈ res) :
    res.lookup p.1 = some p.2 := by
  induction res with
  | nil => exact absurd hp (List.not_mem_nil p)
  | cons q t ih =>
    simp only [List.map_cons, List.nodup_cons] at hnd
    rcases List.mem_cons.mp hp with hh | ht
    · subst hh
      simp only [List.lookup]
      rw [beq_self_eq_true]
    · have hne : p.1 ≠ q.1 := by
        intro hc
        exact hnd.1 (hc ▸ List.mem_map_of_mem Prod.fst ht)
      simp only [List.lookup]
      rw [beq_eq_false_iff_ne.mpr hne]
      exact ih hnd.2 ht

theorem lookupG_eq_none_of_not_mem_keys {α β : Type} [BEq α] [LawfulBEq α]
    {res : List (α × β)} {s : α} (h : s ∉ res.map Prod.fst) : res.lookup s = none := by
  induction res with
  | nil => rfl
  | cons q t ih =>
    simp only [List.map_cons, List.mem_cons, not_or] at h
    simp only [List.lookup]
    rw [beq_eq_false_iff_ne.mpr h.1]
    exact ih h.2

theorem lookupG_mem {α β : Type} [BEq α] [LawfulBEq α] {res : List (α × β)} {s : α} {v : β}
    (h : res.lookup s = some v) : (s, v) ∈ res := by
  induction res with
  | nil => simp [List.lookup] at h
  | cons q t ih =>
    simp only [List.lookup] at h
    by_cases he : s = q.1
    · rw [beq_iff_eq.mpr he] at h
      simp only [Option.some.injEq] at h
      subst he
      subst h
      exact List.mem_cons_self _ _
    · rw [beq_eq_false_iff_ne.mpr he] at h
      exact List.mem_cons_of_mem _ (ih h)

theorem lookupG_isSome_of_mem_keys {α β : Type} [BEq α] [LawfulBEq α]
    {res : List (α × β)} {s : α} (h : s ∈ res.map Prod.fst) :
    ∃ v, res.lookup s = some v := by
  induction res with
  | nil => simp at h
  | cons q t ih =>
    simp only [List.lookup]
    by_cases he : s = q.1
    · rw [beq_iff_eq.mpr he]
      exact ⟨q.2, rfl⟩
    · rw [beq_eq_false_iff_ne.mpr he]
      simp only [List.map_cons, List.mem_cons] at h
      rcases h with h | h
      · exact absurd h he
      · exact ih h

/-! ## Huffman decoding of a prefix-free code -/

theorem decodeNextLoop_run (table : List (List Bool × Nat)) (s : Nat) :
    ∀ (cs : List Bool) (acc rest : List Bool), cs ≠ [] →
      (∀ k, 0 < k → k < cs.length → table.lookup (acc ++ cs.take k) = none) →
      table.lookup (acc ++ cs) = some s →
      decodeNextLoop table acc (cs ++ rest) = some (s, rest) := by
  intro cs
  induction cs with
  | nil =>
    intro acc rest hne _ _
    exact absurd rfl hne
  | cons b cs2 ih =>
    intro acc rest hne hpre hfull
    by_cases hcs : cs2 = []
    · subst hcs
      show decodeNextLoop table acc (b :: rest) = some (s, rest)
      simp only [decodeNextLoop]
      rw [hfull]
    · show decodeNextLoop table acc (b :: (cs2 ++ rest)) = some (s, rest)
      simp only [decodeNextLoop]
      have h1 : table.lookup (acc ++ [b]) = none := by
        have := hpre 1 (by omega) (by
          simp only [List.length_cons]
          have : cs2.length ≠ 0 := fun hc => hcs (List.length_eq_zero.mp hc)
          omega)
        simpa using this
      rw [h1]
      apply ih (acc ++ [b]) rest hcs
      · intro k hk0 hklen
        have := hpre (k + 1) (by omega) (by
          simp only [List.length_cons]
          omega)
        rw [List.append_assoc]
        simpa using this
      · rw [List.append_assoc]
        simpa using hfull

theorem decodeNext_run (table : List (List Bool × Nat)) (s : Nat) (cs rest : List Bool)
    (hne : cs ≠ [])
    (hpre : ∀ k, 0 < k → k < cs.length → table.lookup (cs.take k) = none)
    (hfull : table.lookup cs = some s) :
    decodeNext (cs ++ rest) table = some (s, rest) :=
  decodeNextLoop_run table s cs [] rest hne (by simpa using hpre) (by simpa using hfull)

theorem pairwiseNP_keys_nodup {codes : List (Nat × List Bool)}
    (hpf : List.Pairwise (fun p q => ¬ p.2 <+: q.2 ∧ ¬ q.2 <+: p.2) codes) :
    ((codes.map (fun p => (p.2, p.1))).map Prod.fst).Nodup := by
  rw [List.map_map]
  show List.Pairwise (fun a b => ¬ a = b)
    (codes.map (Prod.fst ∘ fun p => (p.2, p.1)))
  rw [List.pairwise_map]
  refine hpf.imp ?_
  intro a b h hab
  have h2 : a.2 = b.2 := hab
  exact h.1 (h2 ▸ List.prefix_refl a.2)

theorem decodeNext_of_codes (codes : List (Nat × List Bool)) (s : Nat) (cs rest : List Bool)
    (hpf : List.Pairwise (fun p q => ¬ p.2 <+: q.2 ∧ ¬ q.2 <+: p.2) codes)
    (hmem : (s, cs) ∈ codes) (hne : cs ≠ []) :
    decodeNext (cs ++ rest) (codes.map (fun p => (p.2, p.1))) = some (s, rest) := by
  apply decodeNext_run _ s cs rest hne
  · intro k hk0 hklen
    apply lookupG_eq_none_of_not_mem_keys
    intro hmemk
    rw [List.map_map] at hmemk
    obtain ⟨q, hq, hqe⟩ := List.mem_map.mp hmemk
    have hq2 : q.2 = cs.take k := hqe
    have hqpre : q.2 <+: cs := by
      rw [hq2]
      exact List.take_prefix k cs
    have hqne : q.2 ≠ cs := by
      rw [hq2]
      intro hc
      have hlen := congrArg List.length hc
      rw [List.length_take, Nat.min_eq_left (le_of_lt hklen)] at hlen
      omega
    by_cases hqs : q = (s, cs)
    · exact hqne (by rw [hqs])
    · have hr := List.Pairwise.forall (fun a b h => ⟨h.2, h.1⟩) hpf hq hmem hqs
      exact hr.1 hqpre
  · exact @lookupG_eq_some_of_mem (List Bool) Nat _ _
      (codes.map (fun p => (p.2, p.1))) (pairwiseNP_keys_nodup hpf) (cs, s)
      (List.mem_map_of_mem (fun p => (p.2, p.1)) hmem)

/-! ## The two alphabets roundtrip on the encoder's ranges -/

theorem symLenCheck_all : ∀ len, len < 258 → 3 ≤ len → symLenCheck len = true := by
  decide

theorem distCheck_all : ∀ d, d < 513 → 1 ≤ d → distCheck d = true := by
  decide

theorem symLenCheck_spec {length : Nat} (hc : symLenCheck length = true) :
    ∃ sym extra, symLenEncode length = some (sym, extra) ∧ 257 ≤ sym ∧ sym ≤ 285 ∧
      extra.length ≤ 5 ∧ ∀ r, symLenDecode sym (extra ++ r) = some (length, r) := by
  unfold symLenCheck at hc
  cases he : symLenEncode length with
  | none =>
    rw [he] at hc
    exact absurd hc (by simp)
  | some pr =>
    obtain ⟨sym, extra⟩ := pr
    rw [he] at hc
    have hc2 : (match LENGTH_TABLE.get? (sym - 257) with
        | none => false
        | some (base, eb) =>
          decide (257 ≤ sym) && decide (sym ≤ 285) && decide (extra.length = eb) &&
            decide (eb ≤ 5) &&
            decide ((base + if eb > 0 then bitsToNat extra else 0) = length)) = true := hc
    cases hg : LENGTH_TABLE.get? (sym - 257) with
    | none =>
      rw [hg] at hc2
      exact absurd hc2 (by simp)
    | some be =>
      obtain ⟨base, eb⟩ := be
      rw [hg] at hc2
      simp only [Bool.and_eq_true, decide_eq_true_eq] at hc2
      obtain ⟨⟨⟨⟨h257, h285⟩, hlen⟩, heb5⟩, hval⟩ := hc2
      refine ⟨sym, extra, rfl, h257, h285, by omega, ?_⟩
      intro r
      unfold symLenDecode
      rw [if_pos ⟨h257, h285⟩, hg]
      show some (base + (if eb > 0 then bitsToNat ((extra ++ r).take eb) else 0),
        (extra ++ r).drop eb) = some (length, r)
      rw [← hlen, List.take_left, List.drop_left]
      rw [← hlen] at hval
      rw [hval]

theorem distCheck_spec {distance : Nat} (hc : distCheck distance = true) :
    ∃ sym extra, distEncode distance = some (sym, extra) ∧ sym < 30 ∧
      extra.length ≤ 13 ∧ ∀ r, distDecode sym (extra ++ r) = some (distance, r) := by
  unfold distCheck at hc
  cases he : distEncode distance with
  | none =>
    rw [he] at hc
    exact absurd hc (by simp)
  | some pr =>
    obtain ⟨sym, extra⟩ := pr
    rw [he] at hc
    have hc2 : (match DISTANCE_TABLE.get? sym with
        | none => false
        | some (base, eb) =>
          decide (sym < 30) && decide (extra.length = eb) && decide (eb ≤ 13) &&
            decide ((base + if eb > 0 then bitsToNat extra else 0) = distance)) = true := hc
    cases hg : DISTANCE_TABLE.get? sym with
    | none =>
      rw [hg] at hc2
      exact absurd hc2 (by simp)
    | some be =>
      obtain ⟨base, eb⟩ := be
      rw [hg] at hc2
      simp only [Bool.and_eq_true, decide_eq_true_eq] at hc2
      obtain ⟨⟨⟨h30, hlen⟩, heb⟩, hval⟩ := hc2
      refine ⟨sym, extra, rfl, h30, by omega, ?_⟩
      intro r
      unfold distDecode
      rw [if_pos h30, hg]
      show some (base + (if eb > 0 then bitsToNat ((extra ++ r).take eb) else 0),
        (extra ++ r).drop eb) = some (distance, r)
      rw [← hlen, List.take_left, List.drop_left]
      rw [← hlen] at hval
      rw [hval]

/-! ## The fixed code tables are prefix-free -/

theorem pow_le_pow_helper (a l1 l2 : Nat) (h : l1 < l2) (ha : a ≤ 2 ^ l1) :
    a * 2 ^ (l2 - l1) ≤ 2 ^ l2 := by
  have h2 : 2 ^ l2 = 2 ^ l1 * 2 ^ (l2 - l1) := by
    rw [← pow_add]
    congr 1
    omega
  rw [h2]
  exact Nat.mul_le_mul_right _ ha

theorem fixedNP_block : ∀ l1 l2, l1 < l2 →
    fixedNPWidth l1 * 2 ^ (l2 - l1) ≤ fixedNPBase l2 := by
  intro l1 l2 h
  have hbase2 : ∀ m, 9 < m → fixedNPBase m = 2 ^ m := by
    intro m hm
    unfold fixedNPBase
    rw [if_neg (by omega), if_neg (by omega), if_neg (by omega), if_neg (by omega)]
  by_cases h1a : l1 < 7
  · have hw : fixedNPWidth l1 = 0 := by
      unfold fixedNPWidth
      rw [if_neg (by omega), if_neg (by omega), if_neg (by omega), if_pos h1a]
    rw [hw, Nat.zero_mul]
    exact Nat.zero_le _
  · by_cases h17 : l1 = 7
    · subst h17
      show 24 * 2 ^ (l2 - 7) ≤ fixedNPBase l2
      by_cases h28 : l2 = 8
      · subst h28
        decide
      · by_cases h29 : l2 = 9
        · subst h29
          decide
        · rw [hbase2 l2 (by omega)]
          exact pow_le_pow_helper 24 7 l2 (by omega) (by decide)
    · by_cases h18 : l1 = 8
      · subst h18
        show 200 * 2 ^ (l2 - 8) ≤ fixedNPBase l2
        by_cases h29 : l2 = 9
        · subst h29
          decide
        · rw [hbase2 l2 (by omega)]
          exact pow_le_pow_helper 200 8 l2 (by omega) (by decide)
      · by_cases h19 : l1 = 9
        · subst h19
          show 512 * 2 ^ (l2 - 9) ≤ fixedNPBase l2
          rw [hbase2 l2 (by omega)]
          exact pow_le_pow_helper 512 9 l2 (by omega) (by decide)
        · have hw : fixedNPWidth l1 = 2 ^ l1 := by
            unfold fixedNPWidth
            rw [if_neg h17, if_neg h18, if_neg h19, if_neg (by omega)]
          rw [hw, hbase2 l2 (by omega)]
          exact pow_le_pow_helper (2 ^ l1) l1 l2 h (le_refl _)

theorem fixedNP_width : ∀ l, fixedNPWidth l ≤ 2 ^ l := by
  intro l
  unfold fixedNPWidth
  split_ifs with h7 h8 h9 hlt
  · subst h7
    decide
  · subst h8
    decide
  · subst h9
    decide
  · exact Nat.zero_le _
  · exact le_refl _

theorem fixedLengthCode_shape (s : Nat) (hs : s < 288) :
    fixedLengthCode s = toBinPadded (fixedLenV s) (fixedLenL s) ∧
      fixedNPBase (fixedLenL s) ≤ fixedLenV s ∧
      fixedLenV s < fixedNPWidth (fixedLenL s) ∧ 0 < fixedLenL s := by
  unfold fixedLengthCode fixedLenL fixedLenV
  split_ifs with h1 h2 h3
  · exact ⟨rfl, by show 48 ≤ s + 48; omega, by show s + 48 < 200; omega, by omega⟩
  · exact ⟨rfl, by show 400 ≤ s - 144 + 400; omega,
      by show s - 144 + 400 < 512; omega, by omega⟩
  · exact ⟨rfl, by show 0 ≤ s - 256; omega, by show s - 256 < 24; omega, by omega⟩
  · exact ⟨rfl, by show 48 ≤ s - 280 + 192; omega,
      by show s - 280 + 192 < 200; omega, by omega⟩

theorem fixedLen_inj (s1 s2 : Nat) (h1 : s1 < 288) (h2 : s2 < 288) (hne : s1 ≠ s2)
    (hl : fixedLenL s1 = fixedLenL s2) : fixedLenV s1 ≠ fixedLenV s2 := by
  unfold fixedLenL at hl
  unfold fixedLenV
  split_ifs at hl ⊢ <;> omega

theorem fixedLen_pairwise : List.Pairwise (fun p q => ¬ p.2 <+: q.2 ∧ ¬ q.2 <+: p.2)
    ((List.range 288).map (fun s => (s, fixedLengthCode s))) := by
  rw [List.pairwise_map]
  refine (List.pairwise_lt_range 288).imp_of_mem ?_
  intro a b ha hb hab
  obtain ⟨hea, hba, hwa, hla⟩ := fixedLengthCode_shape a (List.mem_range.mp ha)
  obtain ⟨heb, hbb, hwb, hlb⟩ := fixedLengthCode_shape b (List.mem_range.mp hb)
  have hne1 : fixedLenL a ≠ fixedLenL b ∨ fixedLenV a ≠ fixedLenV b := by
    by_cases hll : fixedLenL a = fixedLenL b
    · exact Or.inr (fixedLen_inj a b (List.mem_range.mp ha) (List.mem_range.mp hb)
        (Nat.ne_of_lt hab) hll)
    · exact Or.inl hll
  have hne2 : fixedLenL b ≠ fixedLenL a ∨ fixedLenV b ≠ fixedLenV a := by
    rcases hne1 with h | h
    · exact Or.inl (fun hc => h hc.symm)
    · exact Or.inr (fun hc => h hc.symm)
  constructor
  · rw [hea, heb]
    exact blocks_no_prefix fixedNPBase fixedNPWidth fixedNP_block fixedNP_width
      (fixedLenL a) (fixedLenV a) (fixedLenL b) (fixedLenV b)
      hla hba hwa hlb hbb hwb hne1
  · rw [hea, heb]
    exact blocks_no_prefix fixedNPBase fixedNPWidth fixedNP_block fixedNP_width
      (fixedLenL b) (fixedLenV b) (fixedLenL a) (fixedLenV a)
      hlb hbb hwb hla hba hwa hne2

theorem fixedLenL_bounds (s : Nat) : 0 < fixedLenL s ∧ fixedLenL s ≤ 9 := by
  unfold fixedLenL
  split_ifs <;> omega

theorem fixedLengthCode_length (s : Nat) (hs : s < 288) :
    (fixedLengthCode s).length = fixedLenL s ∧ fixedLengthCode s ≠ [] := by
  obtain ⟨he, _, hw, hl⟩ := fixedLengthCode_shape s hs
  have hv2 : fixedLenV s < 2 ^ fixedLenL s := lt_of_lt_of_le hw (fixedNP_width _)
  have hlen : (fixedLengthCode s).length = fixedLenL s := by
    rw [he]
    exact toBinPadded_length _ _ hl hv2
  refine ⟨hlen, List.ne_nil_of_length_pos ?_⟩
  rw [hlen]
  exact hl

theorem fixedCodeToLength_eq : fixedCodeToLength =
    ((List.range 288).map (fun s => (s, fixedLengthCode s))).map (fun p => (p.2, p.1)) := by
  unfold fixedCodeToLength
  rw [List.map_map]
  rfl

theorem decodeNext_fixedLen (s : Nat) (hs : s < 288) (rest : List Bool) :
    decodeNext (fixedLengthCode s ++ rest) fixedCodeToLength = some (s, rest) := by
  rw [fixedCodeToLength_eq]
  exact decodeNext_of_codes _ s _ rest fixedLen_pairwise
    (List.mem_map_of_mem _ (List.mem_range.mpr hs))
    (fixedLengthCode_length s hs).2

theorem toBinPadded_no_prefix_eqlen (v1 v2 l : Nat) (hl : 0 < l) (h1 : v1 < 2 ^ l)
    (h2 : v2 < 2 ^ l) (hne : v1 ≠ v2) : ¬ toBinPadded v1 l <+: toBinPadded v2 l := by
  intro hp
  have he := List.IsPrefix.eq_of_length hp
    (by rw [toBinPadded_length v1 l hl h1, toBinPadded_length v2 l hl h2])
  apply hne
  have e1 := bitsToNat_toBinPadded v1 l
  rw [he, bitsToNat_toBinPadded] at e1
  exact e1.symm

theorem fixedDist_pairwise : List.Pairwise (fun p q => ¬ p.2 <+: q.2 ∧ ¬ q.2 <+: p.2)
    ((List.range 32).map (fun s => (s, fixedDistanceCode s))) := by
  rw [List.pairwise_map]
  refine (List.pairwise_lt_range 32).imp_of_mem ?_
  intro a b ha hb hab
  have ha32 := List.mem_range.mp ha
  have hb32 := List.mem_range.mp hb
  have hab2 : a ≠ b := Nat.ne_of_lt hab
  constructor
  · exact toBinPadded_no_prefix_eqlen a b 5 (by omega) (by omega) (by omega) hab2
  · exact toBinPadded_no_prefix_eqlen b a 5 (by omega) (by omega) (by omega)
      (fun hc => hab2 hc.symm)

theorem fixedDistanceCode_length (s : Nat) (hs : s < 32) :
    (fixedDistanceCode s).length = 5 ∧ fixedDistanceCode s ≠ [] := by
  have hlen : (fixedDistanceCode s).length = 5 :=
    toBinPadded_length s 5 (by omega) (by omega)
  refine ⟨hlen, List.ne_nil_of_length_pos ?_⟩
  rw [hlen]
  omega

theorem fixedCodeToDistance_eq : fixedCodeToDistance =
    ((List.range 32).map (fun s => (s, fixedDistanceCode s))).map (fun p => (p.2, p.1)) := by
  unfold fixedCodeToDistance
  rw [List.map_map]
  rfl

theorem decodeNext_fixedDist (s : Nat) (hs : s < 32) (rest : List Bool) :
    decodeNext (fixedDistanceCode s ++ rest) fixedCodeToDistance = some (s, rest) := by
  rw [fixedCodeToDistance_eq]
  exact decodeNext_of_codes _ s _ rest fixedDist_pairwise
    (List.mem_map_of_mem _ (List.mem_range.mpr hs))
    (fixedDistanceCode_length s hs).2

/-! ## Pair lists of wellformed tokens -/

theorem pairsOfToken_lit {t : Token} {c : Nat} (h0 : t.dist = 0) (hl : t.lit = some c) :
    pairsOfToken t = some [Pair.mk c none none none] := by
  unfold pairsOfToken
  rw [if_neg (fun hc => hc h0), hl]

theorem pairsOfToken_match {t : Token} {ls ds : Nat} {le de : List Bool}
    (h0 : t.dist ≠ 0) (hsl : symLenEncode t.len = some (ls, le))
    (hd : distEncode t.dist = some (ds, de)) :
    pairsOfToken t = some (Pair.mk ls (some le) (some ds) (some de) ::
      (match t.lit with
       | some c => [Pair.mk c none none none]
       | none => [])) := by
  unfold pairsOfToken
  rw [if_pos h0, hsl, hd]

theorem pairsOfToken_wf {t : Token} (h : wfToken t) :
    pairsOfToken t = some (tokenPairs t) := by
  rcases h with ⟨h0, hlen, c, hc, hc256⟩ | ⟨hd, h3, h257, h512, hlit⟩
  · rw [pairsOfToken_lit h0 hc]
    unfold tokenPairs
    rw [pairsOfToken_lit h0 hc]
    rfl
  · obtain ⟨ls, le, hsl, -, -, -, -⟩ :=
      symLenCheck_spec (symLenCheck_all t.len (by omega) h3)
    obtain ⟨ds, de, hdd, -, -, -⟩ :=
      distCheck_spec (distCheck_all t.dist (by omega) (by omega))
    rw [pairsOfToken_match (by omega) hsl hdd]
    unfold tokenPairs
    rw [pairsOfToken_match (by omega) hsl hdd]
    rfl

theorem pairsOfBlock_eval : ∀ (blk : List Token) (a : List Pair),
    (∀ t ∈ blk, pairsOfToken t = some (tokenPairs t)) →
    blk.foldlM (fun acc t => (pairsOfToken t).map (acc ++ ·)) a =
      some (a ++ (blk.map tokenPairs).flatten) := by
  intro blk
  induction blk with
  | nil =>
    intro a _
    show some a = some (a ++ [])
    rw [List.append_nil]
  | cons t blk2 ih =>
    intro a htot
    rw [List.foldlM_cons, htot t (List.mem_cons_self t blk2)]
    show blk2.foldlM (fun acc t => (pairsOfToken t).map (acc ++ ·)) (a ++ tokenPairs t) =
      some (a ++ ((t :: blk2).map tokenPairs).flatten)
    rw [ih (a ++ tokenPairs t) (fun u hu => htot u (List.mem_cons_of_mem t hu)),
      List.map_cons, List.flatten_cons, List.append_assoc]

theorem pairsOfBlock_some (blk : List Token)
    (h : ∀ t ∈ blk, pairsOfToken t = some (tokenPairs t)) :
    pairsOfBlock blk = some (blockPairs blk) := by
  unfold pairsOfBlock
  rw [pairsOfBlock_eval blk [] h]
  show some (([] ++ (blk.map tokenPairs).flatten) ++ [Pair.mk 256 none none none]) =
    some (blockPairs blk)
  rw [List.nil_append]
  rfl

/-! ## Serializing a pair list -/

theorem serPair_lit (codeOf dcodeOf : Nat → Option (List Bool)) (c : Nat) (cc : List Bool)
    (hc : codeOf c = some cc) :
    serPair codeOf dcodeOf (Pair.mk c none none none) = some cc := by
  unfold serPair
  rw [hc]
  show some (cc ++ []) = some cc
  rw [List.append_nil]

theorem serPair_match (codeOf dcodeOf : Nat → Option (List Bool)) (ls ds : Nat)
    (le de cc dc : List Bool) (hc : codeOf ls = some cc) (hdc : dcodeOf ds = some dc) :
    serPair codeOf dcodeOf (Pair.mk ls (some le) (some ds) (some de)) =
      some (cc ++ le ++ dc ++ de) := by
  unfold serPair
  rw [hc]
  show (match dcodeOf ds with
      | none => none
      | some dc2 => some (cc ++ le ++ dc2 ++ de)) = some (cc ++ le ++ dc ++ de)
  rw [hdc]

theorem serPairs_eval (codeOf dcodeOf : Nat → Option (List Bool)) :
    ∀ (ps : List Pair) (a : List Bool),
      (∀ p ∈ ps, (serPair codeOf dcodeOf p).isSome = true) →
      ps.foldlM (fun acc p => (serPair codeOf dcodeOf p).map (acc ++ ·)) a =
        some (a ++ (ps.map (fun p => (serPair codeOf dcodeOf p).getD [])).flatten) := by
  intro ps
  induction ps with
  | nil =>
    intro a _
    show some a = some (a ++ [])
    rw [List.append_nil]
  | cons p t ih =>
    intro a htot
    rw [List.foldlM_cons]
    cases hp : serPair codeOf dcodeOf p with
    | none =>
      have hs := htot p (List.mem_cons_self p t)
      rw [hp] at hs
      simp at hs
    | some bp =>
      show t.foldlM (fun acc p => (serPair codeOf dcodeOf p).map (acc ++ ·)) (a ++ bp) =
        some (a ++ ((p :: t).map (fun p => (serPair codeOf dcodeOf p).getD [])).flatten)
      rw [ih (a ++ bp) (fun q hq => htot q (List.mem_cons_of_mem p hq)),
        List.map_cons, List.flatten_cons, hp]
      show some ((a ++ bp) ++ _) = some (a ++ (bp ++ _))
      rw [List.append_assoc]

theorem serPairs_some (codeOf dcodeOf : Nat → Option (List Bool)) (ps : List Pair)
    (htot : ∀ p ∈ ps, (serPair codeOf dcodeOf p).isSome = true) :
    serPairs codeOf dcodeOf ps =
      some ((ps.map (fun p => (serPair codeOf dcodeOf p).getD [])).flatten) := by
  have h := serPairs_eval codeOf dcodeOf ps [] htot
  rw [List.nil_append] at h
  exact h

/-! ## Shape of the LZ77 token stream -/

theorem lz77EncodeLoop_past_end (fuel : Nat) (data : List Nat) (i : Nat)
    (h : ¬ i < data.length) : lz77EncodeLoop fuel data i = [] := by
  cases fuel with
  | zero => rfl
  | succ f =>
    show (if i < data.length then _ else []) = []
    rw [if_neg h]

theorem lz77EncodeLoop_shape : ∀ (fuel : Nat) (data : List Nat) (i : Nat),
    ∀ t ∈ lz77EncodeLoop fuel data i,
      (t.dist = 0 ∧ t.len = 0 ∧ ∃ c, t.lit = some c ∧ c ∈ data) ∨
        (0 < t.dist ∧ (t.lit = none ∨ ∃ c, t.lit = some c ∧ c ∈ data)) := by
  intro fuel
  induction fuel with
  | zero =>
    intro data i t ht
    exact absurd ht (List.not_mem_nil t)
  | succ f ih =>
    intro data i t ht
    by_cases hi : i < data.length
    · rw [lz77EncodeLoop_succ_eq f data i hi _ _ _ rfl rfl rfl] at ht
      generalize hk : kmpPartialSearch ((data.take i).drop (i - 512))
        ((data.drop i).take 257) (2 ^ 20) 3 = kr at ht
      split at ht
      · rename_i hcond
        rcases List.mem_cons.mp ht with hhead | htail
        · subst hhead
          right
          dsimp only
          constructor
          · obtain ⟨jn, hjn, ⟨hm1, hm2, -⟩, hlen3⟩ :=
              kmpPartialSearch_sound ((data.take i).drop (i - 512))
                ((data.drop i).take 257) (2 ^ 20) 3 (by omega) kr.1 kr.2
                (by rw [hk]) hcond.1
            have htn : kr.1.toNat = jn := by
              rw [hjn]
              exact Int.toNat_natCast jn
            rw [htn]
            omega
          · by_cases hin : i + kr.2 < data.length
            · right
              refine ⟨data.getD (i + kr.2) 0, ?_, ?_⟩
              · rw [if_pos hin]
              · rw [List.getD_eq_getElem data 0 hin]
                exact List.getElem_mem hin
            · left
              rw [if_neg hin]
        · exact ih data (i + kr.2 + 1) t htail
      · rcases List.mem_cons.mp ht with hhead | htail
        · subst hhead
          left
          refine ⟨rfl, rfl, data.getD i 0, rfl, ?_⟩
          rw [List.getD_eq_getElem data 0 hi]
          exact List.getElem_mem hi
        · exact ih data (i + 1) t htail
    · rw [lz77EncodeLoop_past_end _ data i hi] at ht
      exact absurd ht (List.not_mem_nil t)

theorem lz77EncodeLoop_lastOnly : ∀ (fuel : Nat) (data : List Nat) (i : Nat),
    ∀ t ∈ (lz77EncodeLoop fuel data i).dropLast, t.lit ≠ none := by
  intro fuel
  induction fuel with
  | zero =>
    intro data i t ht
    exact absurd ht (List.not_mem_nil t)
  | succ f ih =>
    intro data i t ht
    by_cases hi : i < data.length
    · rw [lz77EncodeLoop_succ_eq f data i hi _ _ _ rfl rfl rfl] at ht
      generalize hk : kmpPartialSearch ((data.take i).drop (i - 512))
        ((data.drop i).take 257) (2 ^ 20) 3 = kr at ht
      split at ht
      · cases hrest : lz77EncodeLoop f data (i + kr.2 + 1) with
        | nil =>
          rw [hrest] at ht
          exact absurd ht (List.not_mem_nil t)
        | cons u us =>
          rw [hrest, List.dropLast_cons_of_ne_nil (by simp)] at ht
          rcases List.mem_cons.mp ht with hhead | htail
          · subst hhead
            dsimp only
            have hin : i + kr.2 < data.length := by
              by_contra hin
              have := lz77EncodeLoop_past_end f data (i + kr.2 + 1) (by omega)
              rw [this] at hrest
              exact absurd hrest.symm (List.cons_ne_nil u us)
            rw [if_pos hin]
            exact Option.some_ne_none _
          · have := ih data (i + kr.2 + 1) t
            rw [hrest] at this
            exact this htail
      · cases hrest : lz77EncodeLoop f data (i + 1) with
        | nil =>
          rw [hrest] at ht
          exact absurd ht (List.not_mem_nil t)
        | cons u us =>
          rw [hrest, List.dropLast_cons_of_ne_nil (by simp)] at ht
          rcases List.mem_cons.mp ht with hhead | htail
          · subst hhead
            exact Option.some_ne_none _
          · have := ih data (i + 1) t
            rw [hrest] at this
            exact this htail
    · rw [lz77EncodeLoop_past_end _ data i hi] at ht
      exact absurd ht (List.not_mem_nil t)

theorem lz77EncodeLoop_count_le : ∀ (fuel : Nat) (data : List Nat) (i : Nat),
    (lz77EncodeLoop fuel data i).length ≤ fuel := by
  intro fuel
  induction fuel with
  | zero =>
    intro data i
    exact Nat.le_refl 0
  | succ f ih =>
    intro data i
    by_cases hi : i < data.length
    · rw [lz77EncodeLoop_succ_eq f data i hi _ _ _ rfl rfl rfl]
      split
      · rw [List.length_cons]
        have := ih data (i + (kmpPartialSearch ((data.take i).drop (i - 512))
          ((data.drop i).take 257) (2 ^ 20) 3).2 + 1)
        omega
      · rw [List.length_cons]
        have := ih data (i + 1)
        omega
    · rw [lz77EncodeLoop_past_end _ data i hi]
      exact Nat.zero_le _

theorem lz77Encode_wfToken (data : List Nat) (hb : ∀ b ∈ data, b < 256) :
    ∀ t ∈ lz77Encode data, wfToken t := by
  intro t ht
  rcases lz77EncodeLoop_shape data.length data 0 t ht with ⟨h0, hl, c, hc, hcd⟩ | ⟨hd, hlit⟩
  · exact Or.inl ⟨h0, hl, c, hc, hb c hcd⟩
  · obtain ⟨h3, h257, hld, h512⟩ := lz77EncodeLoop_token_inv data.length data 0 t ht hd
    right
    refine ⟨hd, h3, h257, h512, ?_⟩
    rcases hlit with h | ⟨c, hc, hcd⟩
    · exact Or.inl h
    · exact Or.inr ⟨c, hc, hb c hcd⟩

/-! ## Decoding one serialized block -/

theorem decodeBlockBody_succ (f : Nat) (data : List Bool)
    (llT dT : List (List Bool × Nat)) (acc : List Token) :
    decodeBlockBody (f + 1) data llT dT acc =
      match decodeNext data llT with
      | none => none
      | some (ll, rest) =>
        if ll < 256 then decodeBlockBody f rest llT dT (acc ++ [Token.mk 0 0 (some ll)])
        else if ll = 256 then some (acc, rest)
        else
          match symLenDecode ll rest with
          | none => none
          | some (length, r2) =>
            match decodeNext r2 dT with
            | none => none
            | some (dsym, r3) =>
              match distDecode dsym r3 with
              | none => none
              | some (distance, r4) =>
                match decodeNext r4 llT with
                | none => none
                | some (lit, r5) =>
                  if lit = 256 then some (acc ++ [Token.mk distance length none], r5)
                  else decodeBlockBody f r5 llT dT
                    (acc ++ [Token.mk distance length (some lit)]) := rfl

theorem blockPairs_cons (t : Token) (blk2 : List Token) :
    blockPairs (t :: blk2) = tokenPairs t ++ blockPairs blk2 := by
  unfold blockPairs
  rw [List.map_cons, List.flatten_cons, List.append_assoc]

theorem serPair_lit_isSome {codeOf dcodeOf : Nat → Option (List Bool)} {c : Nat}
    (h : (serPair codeOf dcodeOf (Pair.mk c none none none)).isSome = true) :
    ∃ cc, codeOf c = some cc := by
  unfold serPair at h
  cases hcc : codeOf c with
  | none =>
    rw [hcc] at h
    simp at h
  | some cc => exact ⟨cc, rfl⟩

theorem serPair_match_isSome {codeOf dcodeOf : Nat → Option (List Bool)}
    {ls ds : Nat} {le de : List Bool}
    (h : (serPair codeOf dcodeOf (Pair.mk ls (some le) (some ds) (some de))).isSome
      = true) : ∃ cc dc, codeOf ls = some cc ∧ dcodeOf ds = some dc := by
  unfold serPair at h
  cases hcc : codeOf ls with
  | none =>
    rw [hcc] at h
    simp at h
  | some cc =>
    rw [hcc] at h
    have h2 : (match dcodeOf ds with
        | none => none
        | some dc => some (cc ++ le ++ dc ++ de)).isSome = true := h
    cases hdc : dcodeOf ds with
    | none =>
      rw [hdc] at h2
      simp at h2
    | some dc => exact ⟨cc, dc, rfl, rfl⟩

theorem serPairs_isSome_of_some (codeOf dcodeOf : Nat → Option (List Bool)) :
    ∀ (ps : List Pair) (a : List Bool) (body : List Bool),
      ps.foldlM (fun acc p => (serPair codeOf dcodeOf p).map (acc ++ ·)) a = some body →
      ∀ p ∈ ps, (serPair codeOf dcodeOf p).isSome = true := by
  intro ps
  induction ps with
  | nil =>
    intro a body _ p hp
    exact absurd hp (List.not_mem_nil p)
  | cons q t ih =>
    intro a body hser p hp
    rw [List.foldlM_cons] at hser
    cases hq : serPair codeOf dcodeOf q with
    | none =>
      rw [hq] at hser
      simp at hser
    | some bq =>
      rcases List.mem_cons.mp hp with rfl | hpt
      · rw [hq]
        rfl
      · rw [hq] at hser
        have hser2 : t.foldlM (fun acc p => (serPair codeOf dcodeOf p).map (acc ++ ·))
            (a ++ bq) = some body := hser
        exact ih (a ++ bq) body hser2 p hpt

theorem decodeBlockBody_ser
    (llT dT : List (List Bool × Nat)) (codeOf dcodeOf : Nat → Option (List Bool))
    (hll : ∀ s cs rest, codeOf s = some cs → decodeNext (cs ++ rest) llT = some (s, rest))
    (hdd : ∀ s cs rest, dcodeOf s = some cs → decodeNext (cs ++ rest) dT = some (s, rest))
    (hllne : ∀ s cs, codeOf s = some cs → cs ≠ []) :
    ∀ (blk : List Token) (fuel : Nat) (acc : List Token) (rest body : List Bool),
      (∀ t ∈ blk, wfToken t) →
      (∀ t ∈ blk.dropLast, t.lit ≠ none) →
      serPairs codeOf dcodeOf (blockPairs blk) = some body →
      body.length < fuel →
      decodeBlockBody fuel (body ++ rest) llT dT acc = some (acc ++ blk, rest) := by
  intro blk
  induction blk with
  | nil =>
    intro fuel acc rest body _ _ hser hlt
    have hsen : Pair.mk 256 none none none ∈ blockPairs [] := List.mem_cons_self _ _
    have htotAll := serPairs_isSome_of_some codeOf dcodeOf (blockPairs []) [] body hser
    obtain ⟨ccSen, hccSen⟩ := serPair_lit_isSome (htotAll _ hsen)
    have hbody : body = ccSen := by
      have h1 := serPairs_some codeOf dcodeOf (blockPairs []) htotAll
      rw [hser] at h1
      injection h1 with h1
      rw [h1]
      show ((serPair codeOf dcodeOf (Pair.mk 256 none none none)).getD [] ++ []) = ccSen
      rw [serPair_lit codeOf dcodeOf 256 ccSen hccSen, List.append_nil]
      rfl
    cases fuel with
    | zero => exact absurd hlt (by omega)
    | succ f =>
      rw [decodeBlockBody_succ, hbody, hll 256 ccSen rest hccSen]
      dsimp only
      rw [if_neg (by omega), if_pos rfl, List.append_nil]
  | cons t blk2 ih =>
    intro fuel acc rest body hwf hlast hser hlt
    have htotAll := serPairs_isSome_of_some codeOf dcodeOf (blockPairs (t :: blk2))
      [] body hser
    have htot2 : ∀ p ∈ blockPairs blk2, (serPair codeOf dcodeOf p).isSome = true := by
      intro p hp
      apply htotAll
      rw [blockPairs_cons]
      exact List.mem_append_right _ hp
    have hser2 := serPairs_some codeOf dcodeOf (blockPairs blk2) htot2
    have hbody : body = ((tokenPairs t).map
        (fun p => (serPair codeOf dcodeOf p).getD [])).flatten ++
        ((blockPairs blk2).map (fun p => (serPair codeOf dcodeOf p).getD [])).flatten := by
      have h1 := serPairs_some codeOf dcodeOf (blockPairs (t :: blk2)) htotAll
      rw [hser] at h1
      injection h1 with h1
      rw [h1, blockPairs_cons, List.map_append, List.flatten_append]
    have hwf2 : ∀ u ∈ blk2, wfToken u := fun u hu => hwf u (List.mem_cons_of_mem t hu)
    have hlast2 : ∀ u ∈ blk2.dropLast, u.lit ≠ none := by
      intro u hu
      apply hlast
      have hbne : blk2 ≠ [] := by
        intro hb
        rw [hb] at hu
        exact absurd hu (List.not_mem_nil u)
      rw [List.dropLast_cons_of_ne_nil hbne]
      exact List.mem_cons_of_mem t hu
    rcases hwf t (List.mem_cons_self t blk2) with ⟨h0, hl0, c, hc, hc256⟩ |
      ⟨hdpos, h3, h257, h512, hlitcase⟩
    · -- literal token
      have hTP : tokenPairs t = [Pair.mk c none none none] := by
        unfold tokenPairs
        rw [pairsOfToken_lit h0 hc]
        rfl
      have hPmem : Pair.mk c none none none ∈ blockPairs (t :: blk2) := by
        rw [blockPairs_cons, hTP]
        exact List.mem_append_left _ (List.mem_cons_self _ _)
      obtain ⟨cc, hcc⟩ := serPair_lit_isSome (htotAll _ hPmem)
      have hccne := hllne c cc hcc
      have hbody2 : body = cc ++ ((blockPairs blk2).map
          (fun p => (serPair codeOf dcodeOf p).getD [])).flatten := by
        rw [hbody, hTP]
        simp only [List.map_cons, List.map_nil, List.flatten_cons, List.flatten_nil,
          List.append_nil, serPair_lit codeOf dcodeOf c cc hcc, Option.getD_some]
      cases fuel with
      | zero => exact absurd hlt (by omega)
      | succ f =>
        have hdata : body ++ rest = cc ++ (((blockPairs blk2).map
            (fun p => (serPair codeOf dcodeOf p).getD [])).flatten ++ rest) := by
          rw [hbody2, List.append_assoc]
        rw [decodeBlockBody_succ, hdata, hll c cc _ hcc]
        dsimp only
        rw [if_pos hc256]
        have hflt : (((blockPairs blk2).map
            (fun p => (serPair codeOf dcodeOf p).getD [])).flatten).length < f := by
          have hlb := hlt
          rw [hbody2, List.length_append] at hlb
          have hcl : 0 < cc.length := List.length_pos.mpr hccne
          omega
        rw [ih f (acc ++ [Token.mk 0 0 (some c)]) rest _ hwf2 hlast2 hser2 hflt]
        have hteq : t = Token.mk 0 0 (some c) := by
          have he : t = Token.mk t.dist t.len t.lit := rfl
          rw [h0, hl0, hc] at he
          exact he
        rw [hteq, List.append_assoc]
        rfl
    · -- match token
      obtain ⟨ls, le, hsl, hls257, hls285, hle5, hsldec⟩ :=
        symLenCheck_spec (symLenCheck_all t.len (by omega) h3)
      obtain ⟨ds, de, hdd2, hds30, hde13, hddec⟩ :=
        distCheck_spec (distCheck_all t.dist (by omega) (by omega))
      rcases hlitcase with hlitnone | ⟨c, hc, hc256⟩
      · -- final match token without literal: the block ends here
        have hbnil : blk2 = [] := by
          cases blk2 with
          | nil => rfl
          | cons u us =>
            exfalso
            apply hlast t ?_ hlitnone
            rw [List.dropLast_cons_of_ne_nil (List.cons_ne_nil u us)]
            exact List.mem_cons_self _ _
        subst hbnil
        have hTP : tokenPairs t = [Pair.mk ls (some le) (some ds) (some de)] := by
          unfold tokenPairs
          rw [pairsOfToken_match (by omega) hsl hdd2, hlitnone]
          rfl
        have hMPmem : Pair.mk ls (some le) (some ds) (some de) ∈
            blockPairs (t :: []) := by
          rw [blockPairs_cons, hTP]
          exact List.mem_append_left _ (List.mem_cons_self _ _)
        have hsen : Pair.mk 256 none none none ∈ blockPairs ([] : List Token) :=
          List.mem_cons_self _ _
        obtain ⟨cc, dc, hcc, hdc⟩ := serPair_match_isSome (htotAll _ hMPmem)
        obtain ⟨ccSen, hccSen⟩ := serPair_lit_isSome (htot2 _ hsen)
        have hbody2 : body = (cc ++ le ++ dc ++ de) ++ ccSen := by
          rw [hbody, hTP]
          simp only [List.map_cons, List.map_nil, List.flatten_cons, List.flatten_nil,
            List.append_nil, serPair_match codeOf dcodeOf ls ds le de cc dc hcc hdc,
            Option.getD_some]
          show _ ++ (((blockPairs ([] : List Token)).map
            (fun p => (serPair codeOf dcodeOf p).getD [])).flatten) = _
          congr 1
          show ((serPair codeOf dcodeOf (Pair.mk 256 none none none)).getD [] ++ []) = ccSen
          rw [serPair_lit codeOf dcodeOf 256 ccSen hccSen, List.append_nil]
          rfl
        cases fuel with
        | zero => exact absurd hlt (by omega)
        | succ f =>
          have hdata : body ++ rest =
              cc ++ (le ++ (dc ++ (de ++ (ccSen ++ rest)))) := by
            rw [hbody2]
            simp [List.append_assoc]
          rw [decodeBlockBody_succ, hdata, hll ls cc _ hcc]
          dsimp only
          rw [if_neg (by omega), if_neg (by omega), hsldec (dc ++ (de ++ (ccSen ++ rest)))]
          dsimp only
          rw [hdd ds dc _ hdc]
          dsimp only
          rw [hddec (ccSen ++ rest)]
          dsimp only
          rw [hll 256 ccSen rest hccSen]
          dsimp only
          rw [if_pos rfl]
          have hteq : t = Token.mk t.dist t.len none := by
            have he : t = Token.mk t.dist t.len t.lit := rfl
            rw [hlitnone] at he
            exact he
          rw [← hteq]
      · -- match token followed by its literal
        have hTP : tokenPairs t = [Pair.mk ls (some le) (some ds) (some de),
            Pair.mk c none none none] := by
          unfold tokenPairs
          rw [pairsOfToken_match (by omega) hsl hdd2, hc]
          rfl
        have hMPmem : Pair.mk ls (some le) (some ds) (some de) ∈
            blockPairs (t :: blk2) := by
          rw [blockPairs_cons, hTP]
          exact List.mem_append_left _ (List.mem_cons_self _ _)
        have hLPmem : Pair.mk c none none none ∈ blockPairs (t :: blk2) := by
          rw [blockPairs_cons, hTP]
          exact List.mem_append_left _
            (List.mem_cons_of_mem _ (List.mem_cons_self _ _))
        obtain ⟨cc, dc, hcc, hdc⟩ := serPair_match_isSome (htotAll _ hMPmem)
        obtain ⟨cc2, hcc2⟩ := serPair_lit_isSome (htotAll _ hLPmem)
        have hccne := hllne ls cc hcc
        have hbody2 : body = (cc ++ le ++ dc ++ de) ++ (cc2 ++
            ((blockPairs blk2).map
              (fun p => (serPair codeOf dcodeOf p).getD [])).flatten) := by
          rw [hbody, hTP]
          simp only [List.map_cons, List.map_nil, List.flatten_cons, List.flatten_nil,
            List.append_nil, serPair_match codeOf dcodeOf ls ds le de cc dc hcc hdc,
            serPair_lit codeOf dcodeOf c cc2 hcc2, Option.getD_some, List.append_assoc]
        cases fuel with
        | zero => exact absurd hlt (by omega)
        | succ f =>
          have hdata : body ++ rest = cc ++ (le ++ (dc ++ (de ++ (cc2 ++
              (((blockPairs blk2).map
                (fun p => (serPair codeOf dcodeOf p).getD [])).flatten ++ rest))))) := by
            rw [hbody2]
            simp [List.append_assoc]
          rw [decodeBlockBody_succ, hdata, hll ls cc _ hcc]
          dsimp only
          rw [if_neg (by omega), if_neg (by omega),
            hsldec (dc ++ (de ++ (cc2 ++ (((blockPairs blk2).map
              (fun p => (serPair codeOf dcodeOf p).getD [])).flatten ++ rest))))]
          dsimp only
          rw [hdd ds dc _ hdc]
          dsimp only
          rw [hddec (cc2 ++ (((blockPairs blk2).map
            (fun p => (serPair codeOf dcodeOf p).getD [])).flatten ++ rest))]
          dsimp only
          rw [hll c cc2 _ hcc2]
          dsimp only
          rw [if_neg (by omega)]
          have hflt : (((blockPairs blk2).map
              (fun p => (serPair codeOf dcodeOf p).getD [])).flatten).length < f := by
            have hlb := hlt
            rw [hbody2] at hlb
            simp only [List.length_append] at hlb
            have hcl : 0 < cc.length := List.length_pos.mpr hccne
            omega
          rw [ih f (acc ++ [Token.mk t.dist t.len (some c)]) rest _ hwf2 hlast2
            hser2 hflt]
          have hteq : t = Token.mk t.dist t.len (some c) := by
            have he : t = Token.mk t.dist t.len t.lit := rfl
            rw [hc] at he
            exact he
          rw [← hteq, List.append_assoc]
          rfl

/-! ## The dynamic code table of a data stream -/

theorem genCodes_ne_nil (bls : List Nat) (hK : kraftQ bls ≤ 1) :
    ∀ p ∈ genCodes bls, p.2 ≠ [] := by
  intro p hp
  unfold genCodes at hp
  by_cases h0 : bls = []
  · rw [if_pos h0] at hp
    exact absurd hp (List.not_mem_nil p)
  · rw [if_neg h0] at hp
    by_cases h1 : bls.foldr max 0 = 0
    · rw [if_pos h1] at hp
      exact absurd hp (List.not_mem_nil p)
    · rw [if_neg h1] at hp
      obtain ⟨l, v, hl, hbv, hnv, hvB, hp2⟩ := assignCodes_shape
        (nextCodeBase (fun k => if k = 0 then 0 else bls.count k))
        (fun l => nextCodeBase (fun k => if k = 0 then 0 else bls.count k) l +
          (if l = 0 then 0 else bls.count l))
        bls 0 _
        (fun l hl => ⟨Nat.le_refl _, by
          have hne : ¬ l = 0 := by omega
          simp only [if_neg hne]
          exact Nat.le_refl _⟩)
        p hp
      rw [hp2]
      apply List.ne_nil_of_length_pos
      rw [toBinPadded_length v l hl
        (lt_of_lt_of_le hvB (nextCodeBase_le_pow bls hK l))]
      exact hl

theorem createCodes_fst_length (data : List Nat) (A : Nat) :
    (createCodes data A).1.length = A := by
  show ((List.range A).map _).length = A
  rw [List.length_map, List.length_range]

theorem createCodes_props (data : List Nat) (A : Nat) (hA : ∀ s ∈ data, s < A) :
    List.Pairwise (fun p q => ¬ p.2 <+: q.2 ∧ ¬ q.2 <+: p.2) (createCodes data A).2 ∧
      (∀ s ∈ data, ∃ c, (s, c) ∈ (createCodes data A).2) ∧
      (∀ p ∈ (createCodes data A).2, p.2 ≠ []) := by
  have hknd : ((createHuffmanTree (counter data)).map Prod.fst).Nodup := by
    rw [createHuffmanTree_keys, counter_keys]
    exact counterKeys_nodup data
  have hck := createHuffmanTree_kraft (counter data) (by
    rw [counter_keys]
    exact counterKeys_nodup data)
  have hkeysA : ∀ s ∈ (createHuffmanTree (counter data)).map Prod.fst, s < A := by
    intro s hsk
    rw [createHuffmanTree_keys, counter_keys] at hsk
    exact hA s ((mem_counterKeys_iff data s).mp hsk)
  have hKv : kraftQ ((List.range A).map
      (fun letter => (((createHuffmanTree (counter data)).lookup letter).getD 0))) ≤ 1 :=
    kraftQ_clVec_le (createHuffmanTree (counter data)) A hknd hck.2 hkeysA hck.1
  rw [createCodes_snd]
  refine ⟨genCodes_pairwise _ hKv, ?_, genCodes_ne_nil _ hKv⟩
  intro s hs
  apply genCodes_total
  · rw [List.length_map, List.length_range]
    exact hA s hs
  · rw [getD_range_map A _ s (hA s hs)]
    have hsk : s ∈ (createHuffmanTree (counter data)).map Prod.fst := by
      rw [createHuffmanTree_keys, counter_keys]
      exact (mem_counterKeys_iff data s).mpr hs
    obtain ⟨v, hv⟩ := lookup_isSome_of_mem_keys hsk
    rw [hv]
    exact hck.2 (s, v) (mem_of_lookup_eq_some hv)

theorem intEncode_append (v1 v2 : List Nat) :
    intEncode (v1 ++ v2) = intEncode v1 ++ intEncode v2 := by
  induction v1 with
  | nil => rfl
  | cons x t ih =>
    rw [List.cons_append, intEncode_cons, intEncode_cons, ih, List.append_assoc]

/-! ## The pairs of a wellformed block and their serializations -/

theorem blockPairs_shape (blk : List Token) (hwf : ∀ t ∈ blk, wfToken t) :
    ∀ p ∈ blockPairs blk,
      p.sym < 286 ∧
      (p.symExtra = none ∨ ∃ le, p.symExtra = some le ∧ le.length ≤ 5) ∧
      (p.dsym = none ∨ ∃ d, p.dsym = some d ∧ d < 30) ∧
      (p.distExtra = none ∨ ∃ de, p.distExtra = some de ∧ de.length ≤ 13) := by
  intro p hp
  unfold blockPairs at hp
  rcases List.mem_append.mp hp with hp1 | hp2
  · obtain ⟨lps, hlps, hplps⟩ := List.mem_flatten.mp hp1
    obtain ⟨t, htmem, htp⟩ := List.mem_map.mp hlps
    rcases hwf t htmem with ⟨h0, hl0, c, hc, hc256⟩ | ⟨hdpos, h3, h257, h512, hlitcase⟩
    · have hTP : tokenPairs t = [Pair.mk c none none none] := by
        unfold tokenPairs
        rw [pairsOfToken_lit h0 hc]
        rfl
      rw [← htp, hTP] at hplps
      rw [List.mem_singleton.mp hplps]
      exact ⟨(by omega : c < 286), Or.inl rfl, Or.inl rfl, Or.inl rfl⟩
    · obtain ⟨ls, le, hsl, hls257, hls285, hle5, -⟩ :=
        symLenCheck_spec (symLenCheck_all t.len (by omega) h3)
      obtain ⟨ds, de, hdd2, hds30, hde13, -⟩ :=
        distCheck_spec (distCheck_all t.dist (by omega) (by omega))
      rcases hlitcase with hlitnone | ⟨c, hc, hc256⟩
      · have hTP : tokenPairs t = [Pair.mk ls (some le) (some ds) (some de)] := by
          unfold tokenPairs
          rw [pairsOfToken_match (by omega) hsl hdd2, hlitnone]
          rfl
        rw [← htp, hTP] at hplps
        rw [List.mem_singleton.mp hplps]
        exact ⟨(by omega : ls < 286), Or.inr ⟨le, rfl, hle5⟩, Or.inr ⟨ds, rfl, hds30⟩,
          Or.inr ⟨de, rfl, hde13⟩⟩
      · have hTP : tokenPairs t = [Pair.mk ls (some le) (some ds) (some de),
            Pair.mk c none none none] := by
          unfold tokenPairs
          rw [pairsOfToken_match (by omega) hsl hdd2, hc]
          rfl
        rw [← htp, hTP] at hplps
        rcases List.mem_cons.mp hplps with hh | h2
        · rw [hh]
          exact ⟨(by omega : ls < 286), Or.inr ⟨le, rfl, hle5⟩, Or.inr ⟨ds, rfl, hds30⟩,
            Or.inr ⟨de, rfl, hde13⟩⟩
        · rw [List.mem_singleton.mp h2]
          exact ⟨(by omega : c < 286), Or.inl rfl, Or.inl rfl, Or.inl rfl⟩
  · rw [List.mem_singleton.mp hp2]
    exact ⟨(by omega : (256 : Nat) < 286), Or.inl rfl, Or.inl rfl, Or.inl rfl⟩

theorem serPair_isSome_of (codeOf dcodeOf : Nat → Option (List Bool)) (p : Pair)
    (h1 : ∃ cc, codeOf p.sym = some cc)
    (h2 : ∀ d, p.dsym = some d → ∃ dc, dcodeOf d = some dc) :
    (serPair codeOf dcodeOf p).isSome = true := by
  obtain ⟨cc, hcc⟩ := h1
  unfold serPair
  rw [hcc]
  dsimp only
  cases hd : p.dsym with
  | none => rfl
  | some d =>
    obtain ⟨dc, hdc⟩ := h2 d hd
    dsimp only
    rw [hdc]
    rfl

theorem flatten_length_le32 (L : List (List Bool)) (h : ∀ l ∈ L, l.length ≤ 32) :
    L.flatten.length ≤ 32 * L.length := by
  induction L with
  | nil => simp
  | cons x t ih =>
    rw [List.flatten_cons, List.length_append, List.length_cons]
    have h1 := h x (List.mem_cons_self x t)
    have h2 := ih (fun l hl => h l (List.mem_cons_of_mem x hl))
    omega

theorem serPair_fixed_len (p : Pair)
    (hs : p.sym < 286)
    (hsx : p.symExtra = none ∨ ∃ le, p.symExtra = some le ∧ le.length ≤ 5)
    (hds : p.dsym = none ∨ ∃ d, p.dsym = some d ∧ d < 30)
    (hdx : p.distExtra = none ∨ ∃ de, p.distExtra = some de ∧ de.length ≤ 13) :
    ((serPair fixedCodeOf fixedDistCodeOf p).getD []).length ≤ 32 := by
  have hcc : fixedCodeOf p.sym = some (fixedLengthCode p.sym) := by
    unfold fixedCodeOf
    rw [if_pos (by omega)]
  have hccl : (fixedLengthCode p.sym).length ≤ 9 := by
    rw [(fixedLengthCode_length p.sym (by omega)).1]
    exact (fixedLenL_bounds p.sym).2
  have hsxl : (p.symExtra.getD []).length ≤ 5 := by
    rcases hsx with h | ⟨le, hle, hl5⟩
    · rw [h]
      exact Nat.zero_le 5
    · rw [hle]
      exact hl5
  unfold serPair
  rw [hcc]
  dsimp only
  cases hd : p.dsym with
  | none =>
    show ((some (fixedLengthCode p.sym ++ p.symExtra.getD [])).getD []).length ≤ 32
    rw [Option.getD_some, List.length_append]
    omega
  | some d =>
    rcases hds with hnone | ⟨d2, hd2, hd30⟩
    · rw [hnone] at hd
      exact absurd hd (by simp)
    · rw [hd2] at hd
      injection hd with hd
      have hdc : fixedDistCodeOf d = some (fixedDistanceCode d) := by
        unfold fixedDistCodeOf
        rw [if_pos (by omega)]
      have hdcl : (fixedDistanceCode d).length = 5 :=
        (fixedDistanceCode_length d (by omega)).1
      have hdxl : (p.distExtra.getD []).length ≤ 13 := by
        rcases hdx with h | ⟨de, hde, hl13⟩
        · rw [h]
          exact Nat.zero_le 13
        · rw [hde]
          exact hl13
      dsimp only
      rw [hdc]
      show ((some (fixedLengthCode p.sym ++ p.symExtra.getD [] ++ fixedDistanceCode d ++
        p.distExtra.getD [])).getD []).length ≤ 32
      rw [Option.getD_some, List.length_append, List.length_append, List.length_append]
      omega

/-! ## Decode correctness of the four coders -/

theorem fixedCodeOf_decode (s : Nat) (cs rest : List Bool) (h : fixedCodeOf s = some cs) :
    decodeNext (cs ++ rest) fixedCodeToLength = some (s, rest) := by
  unfold fixedCodeOf at h
  by_cases h288 : s < 288
  · rw [if_pos h288] at h
    injection h with h
    rw [← h]
    exact decodeNext_fixedLen s h288 rest
  · rw [if_neg h288] at h
    exact absurd h (by simp)

theorem fixedCodeOf_ne_nil (s : Nat) (cs : List Bool) (h : fixedCodeOf s = some cs) :
    cs ≠ [] := by
  unfold fixedCodeOf at h
  by_cases h288 : s < 288
  · rw [if_pos h288] at h
    injection h with h
    rw [← h]
    exact (fixedLengthCode_length s h288).2
  · rw [if_neg h288] at h
    exact absurd h (by simp)

theorem fixedDistCodeOf_decode (s : Nat) (cs rest : List Bool)
    (h : fixedDistCodeOf s = some cs) :
    decodeNext (cs ++ rest) fixedCodeToDistance = some (s, rest) := by
  unfold fixedDistCodeOf at h
  by_cases h32 : s < 32
  · rw [if_pos h32] at h
    injection h with h
    rw [← h]
    exact decodeNext_fixedDist s h32 rest
  · rw [if_neg h32] at h
    exact absurd h (by simp)

theorem dynCodeOf_decode (pairs : List Pair) (hA : ∀ s ∈ pairs.map (·.sym), s < 286) :
    (∀ s cs rest, dynCodeOf pairs s = some cs →
      decodeNext (cs ++ rest) (genDecodeTable (createCodes (pairs.map (·.sym)) 286).1)
        = some (s, rest)) ∧
      (∀ s cs, dynCodeOf pairs s = some cs → cs ≠ []) := by
  have hprops := createCodes_props (pairs.map (·.sym)) 286 hA
  have hpf := hprops.1
  have hne := hprops.2.2
  rw [createCodes_snd] at hpf hne
  constructor
  · intro s cs rest hlk
    unfold dynCodeOf at hlk
    rw [createCodes_snd] at hlk
    have hmem := lookupG_mem hlk
    exact decodeNext_of_codes _ s cs rest hpf hmem (hne (s, cs) hmem)
  · intro s cs hlk
    unfold dynCodeOf at hlk
    rw [createCodes_snd] at hlk
    exact hne (s, cs) (lookupG_mem hlk)

theorem dynDistCodeOf_decode (pairs : List Pair)
    (hA : ∀ s ∈ pairs.filterMap (·.dsym), s < 30) :
    ∀ s cs rest, dynDistCodeOf pairs s = some cs →
      decodeNext (cs ++ rest)
        (genDecodeTable (createCodes (pairs.filterMap (·.dsym)) 30).1) = some (s, rest) := by
  have hprops := createCodes_props (pairs.filterMap (·.dsym)) 30 hA
  have hpf := hprops.1
  have hne := hprops.2.2
  rw [createCodes_snd] at hpf hne
  intro s cs rest hlk
  unfold dynDistCodeOf at hlk
  rw [createCodes_snd] at hlk
  have hmem := lookupG_mem hlk
  exact decodeNext_of_codes _ s cs rest hpf hmem (hne (s, cs) hmem)

/-! ## One block through the block loop of decompress -/

theorem decompressLoop_succ (f : Nat) (b : Bool) (bs : List Bool) (acc : List Token) :
    decompressLoop (f + 1) (b :: bs) acc =
      if (b :: bs).take 2 = [true, false] then
        match intDecode ((b :: bs).drop 2) 286 with
        | none => none
        | some (llbl, r1) =>
          match intDecode r1 30 with
          | none => none
          | some (dbl, r2) =>
            match decodeBlockBody (r2.length + 1) r2 (genDecodeTable llbl)
                (genDecodeTable dbl) [] with
            | none => none
            | some (tks, r3) => decompressLoop f r3 (acc ++ tks)
      else
        match decodeBlockBody (((b :: bs).drop 2).length + 1) ((b :: bs).drop 2)
            fixedCodeToLength fixedCodeToDistance [] with
        | none => none
        | some (tks, r3) => decompressLoop f r3 (acc ++ tks) := rfl

theorem serializeBlock_decode (blk : List Token) (hwf : ∀ t ∈ blk, wfToken t)
    (hlast : ∀ t ∈ blk.dropLast, t.lit ≠ none) :
    ∃ sb, serializeBlock blk = some sb ∧ 2 ≤ sb.length ∧
      sb.length ≤ 2 + 32 * (blockPairs blk).length ∧
      ∀ (f : Nat) (rest : List Bool) (acc : List Token),
        decompressLoop (f + 1) (sb ++ rest) acc = decompressLoop f rest (acc ++ blk) := by
  have hpairs : pairsOfBlock blk = some (blockPairs blk) :=
    pairsOfBlock_some blk (fun t ht => pairsOfToken_wf (hwf t ht))
  have hshape := blockPairs_shape blk hwf
  have hAs : ∀ s ∈ (blockPairs blk).map (fun p : Pair => p.sym), s < 286 := by
    intro s hs
    obtain ⟨p, hp, hps⟩ := List.mem_map.mp hs
    rw [← hps]
    exact (hshape p hp).1
  have hAd : ∀ d ∈ (blockPairs blk).filterMap (fun p : Pair => p.dsym), d < 30 := by
    intro d hd
    obtain ⟨p, hp, hpd⟩ := List.mem_filterMap.mp hd
    rcases (hshape p hp).2.2.1 with hnone | ⟨d2, hd2, hd30⟩
    · rw [hnone] at hpd
      exact absurd hpd (by simp)
    · rw [hd2] at hpd
      injection hpd with hpd
      omega
  have hpropsL := createCodes_props ((blockPairs blk).map (fun p : Pair => p.sym)) 286 hAs
  have hpropsD := createCodes_props ((blockPairs blk).filterMap (fun p : Pair => p.dsym)) 30 hAd
  have hTotDyn : ∀ p ∈ blockPairs blk,
      (serPair (dynCodeOf (blockPairs blk)) (dynDistCodeOf (blockPairs blk)) p).isSome
        = true := by
    intro p hp
    apply serPair_isSome_of
    · obtain ⟨c, hcmem⟩ := hpropsL.2.1 p.sym (List.mem_map_of_mem _ hp)
      exact lookupG_isSome_of_mem_keys (List.mem_map_of_mem Prod.fst hcmem)
    · intro d hd
      obtain ⟨c, hcmem⟩ := hpropsD.2.1 d (List.mem_filterMap.mpr ⟨p, hp, hd⟩)
      exact lookupG_isSome_of_mem_keys (List.mem_map_of_mem Prod.fst hcmem)
  have hTotFix : ∀ p ∈ blockPairs blk,
      (serPair fixedCodeOf fixedDistCodeOf p).isSome = true := by
    intro p hp
    apply serPair_isSome_of
    · refine ⟨fixedLengthCode p.sym, ?_⟩
      unfold fixedCodeOf
      rw [if_pos (by have := (hshape p hp).1; omega)]
    · intro d hd
      rcases (hshape p hp).2.2.1 with hnone | ⟨d2, hd2, hd30⟩
      · rw [hnone] at hd
        exact absurd hd (by simp)
      · rw [hd2] at hd
        injection hd with hd
        refine ⟨fixedDistanceCode d, ?_⟩
        unfold fixedDistCodeOf
        rw [if_pos (by omega)]
  have hSerDyn := serPairs_some (dynCodeOf (blockPairs blk))
    (dynDistCodeOf (blockPairs blk)) (blockPairs blk) hTotDyn
  have hSerFix := serPairs_some fixedCodeOf fixedDistCodeOf (blockPairs blk) hTotFix
  have hdyn : dynFrame (blockPairs blk) = some (intEncode
      ((createCodes ((blockPairs blk).map (fun p : Pair => p.sym)) 286).1 ++
        (createCodes ((blockPairs blk).filterMap (fun p : Pair => p.dsym)) 30).1) ++
      ((blockPairs blk).map (fun p => (serPair (dynCodeOf (blockPairs blk))
        (dynDistCodeOf (blockPairs blk)) p).getD [])).flatten) := by
    show (match serPairs (dynCodeOf (blockPairs blk)) (dynDistCodeOf (blockPairs blk))
        (blockPairs blk) with
      | none => none
      | some body => some (intEncode
          ((createCodes ((blockPairs blk).map (fun p : Pair => p.sym)) 286).1 ++
            (createCodes ((blockPairs blk).filterMap (fun p : Pair => p.dsym)) 30).1) ++ body)) = _
    rw [hSerDyn]
  have hfix : fixedFrame (blockPairs blk) = some (((blockPairs blk).map
      (fun p => (serPair fixedCodeOf fixedDistCodeOf p).getD [])).flatten) := hSerFix
  have hsb : serializeBlock blk = some (chooseFrame
      (intEncode ((createCodes ((blockPairs blk).map (fun p : Pair => p.sym)) 286).1 ++
        (createCodes ((blockPairs blk).filterMap (fun p : Pair => p.dsym)) 30).1) ++
        ((blockPairs blk).map (fun p => (serPair (dynCodeOf (blockPairs blk))
          (dynDistCodeOf (blockPairs blk)) p).getD [])).flatten)
      (((blockPairs blk).map
        (fun p => (serPair fixedCodeOf fixedDistCodeOf p).getD [])).flatten)) := by
    unfold serializeBlock
    rw [hpairs]
    dsimp only
    rw [hdyn, hfix]
  have hlenF : (((blockPairs blk).map
      (fun p => (serPair fixedCodeOf fixedDistCodeOf p).getD [])).flatten).length ≤
      32 * (blockPairs blk).length := by
    have h := flatten_length_le32 ((blockPairs blk).map
        (fun p => (serPair fixedCodeOf fixedDistCodeOf p).getD []))
      (by
        intro l hl
        obtain ⟨p, hp, hpl⟩ := List.mem_map.mp hl
        rw [← hpl]
        exact serPair_fixed_len p (hshape p hp).1 (hshape p hp).2.1 (hshape p hp).2.2.1
          (hshape p hp).2.2.2)
    rw [List.length_map] at h
    exact h
  refine ⟨_, hsb, ?_, ?_, ?_⟩
  · unfold chooseFrame
    split
    · simp only [List.length_append, List.length_cons, List.length_nil]
      omega
    · simp only [List.length_append, List.length_cons, List.length_nil]
      omega
  · unfold chooseFrame
    split
    · simp only [List.length_append, List.length_cons, List.length_nil]
      omega
    · rename_i hgt
      simp only [List.length_append, List.length_cons, List.length_nil]
      simp only [gt_iff_lt, not_lt, List.length_append] at hgt
      omega
  · intro f rest acc
    unfold chooseFrame
    split
    · -- fixed frame chosen
      have heq : (([false, true] ++ (((blockPairs blk).map
          (fun p => (serPair fixedCodeOf fixedDistCodeOf p).getD [])).flatten)) ++ rest)
          = false :: (true :: ((((blockPairs blk).map
            (fun p => (serPair fixedCodeOf fixedDistCodeOf p).getD [])).flatten)
            ++ rest)) := by
        simp
      rw [heq, decompressLoop_succ, if_neg (by simp)]
      rw [show (false :: (true :: ((((blockPairs blk).map
          (fun p => (serPair fixedCodeOf fixedDistCodeOf p).getD [])).flatten)
          ++ rest))).drop 2
          = (((blockPairs blk).map
            (fun p => (serPair fixedCodeOf fixedDistCodeOf p).getD [])).flatten)
            ++ rest from rfl]
      rw [decodeBlockBody_ser fixedCodeToLength fixedCodeToDistance fixedCodeOf
        fixedDistCodeOf fixedCodeOf_decode fixedDistCodeOf_decode fixedCodeOf_ne_nil
        blk _ [] rest _ hwf hlast hSerFix (by
          rw [List.length_append]
          omega)]
      dsimp only
      rw [List.nil_append]
    · -- dynamic frame chosen
      have heq : (([true, false] ++ (intEncode
          ((createCodes ((blockPairs blk).map (fun p : Pair => p.sym)) 286).1 ++
            (createCodes ((blockPairs blk).filterMap (fun p : Pair => p.dsym)) 30).1) ++
          ((blockPairs blk).map (fun p => (serPair (dynCodeOf (blockPairs blk))
            (dynDistCodeOf (blockPairs blk)) p).getD [])).flatten)) ++ rest)
          = true :: (false :: ((intEncode
          ((createCodes ((blockPairs blk).map (fun p : Pair => p.sym)) 286).1 ++
            (createCodes ((blockPairs blk).filterMap (fun p : Pair => p.dsym)) 30).1) ++
          ((blockPairs blk).map (fun p => (serPair (dynCodeOf (blockPairs blk))
            (dynDistCodeOf (blockPairs blk)) p).getD [])).flatten) ++ rest)) := by
        simp
      rw [heq, decompressLoop_succ,
        if_pos (show ((true :: (false :: ((intEncode
          ((createCodes ((blockPairs blk).map (fun p : Pair => p.sym)) 286).1 ++
            (createCodes ((blockPairs blk).filterMap (fun p : Pair => p.dsym)) 30).1) ++
          ((blockPairs blk).map (fun p => (serPair (dynCodeOf (blockPairs blk))
            (dynDistCodeOf (blockPairs blk)) p).getD [])).flatten) ++ rest))).take 2)
          = [true, false] from rfl)]
      have hd1 : (intEncode
          ((createCodes ((blockPairs blk).map (fun p : Pair => p.sym)) 286).1 ++
            (createCodes ((blockPairs blk).filterMap (fun p : Pair => p.dsym)) 30).1) ++
          ((blockPairs blk).map (fun p => (serPair (dynCodeOf (blockPairs blk))
            (dynDistCodeOf (blockPairs blk)) p).getD [])).flatten) ++ rest =
          intEncode (createCodes ((blockPairs blk).map (fun p : Pair => p.sym)) 286).1 ++
          (intEncode (createCodes ((blockPairs blk).filterMap (fun p : Pair => p.dsym)) 30).1 ++
          (((blockPairs blk).map (fun p => (serPair (dynCodeOf (blockPairs blk))
            (dynDistCodeOf (blockPairs blk)) p).getD [])).flatten ++ rest)) := by
        rw [intEncode_append]
        simp [List.append_assoc]
      rw [show ((true :: (false :: ((intEncode
          ((createCodes ((blockPairs blk).map (fun p : Pair => p.sym)) 286).1 ++
            (createCodes ((blockPairs blk).filterMap (fun p : Pair => p.dsym)) 30).1) ++
          ((blockPairs blk).map (fun p => (serPair (dynCodeOf (blockPairs blk))
            (dynDistCodeOf (blockPairs blk)) p).getD [])).flatten) ++ rest)))).drop 2
          = (intEncode
          ((createCodes ((blockPairs blk).map (fun p : Pair => p.sym)) 286).1 ++
            (createCodes ((blockPairs blk).filterMap (fun p : Pair => p.dsym)) 30).1) ++
          ((blockPairs blk).map (fun p => (serPair (dynCodeOf (blockPairs blk))
            (dynDistCodeOf (blockPairs blk)) p).getD [])).flatten) ++ rest from rfl, hd1]
      have hne1 : (createCodes ((blockPairs blk).map (fun p : Pair => p.sym)) 286).1 ≠ [] := by
        apply List.ne_nil_of_length_pos
        rw [createCodes_fst_length]
        omega
      have h1 := intDecode_intEncode (createCodes ((blockPairs blk).map (fun p : Pair => p.sym)) 286).1
        (intEncode (createCodes ((blockPairs blk).filterMap (fun p : Pair => p.dsym)) 30).1 ++
          (((blockPairs blk).map (fun p => (serPair (dynCodeOf (blockPairs blk))
            (dynDistCodeOf (blockPairs blk)) p).getD [])).flatten ++ rest)) hne1
      rw [createCodes_fst_length] at h1
      rw [h1]
      dsimp only
      have hne2 : (createCodes ((blockPairs blk).filterMap (fun p : Pair => p.dsym)) 30).1 ≠ [] := by
        apply List.ne_nil_of_length_pos
        rw [createCodes_fst_length]
        omega
      have h2 := intDecode_intEncode
        (createCodes ((blockPairs blk).filterMap (fun p : Pair => p.dsym)) 30).1
        (((blockPairs blk).map (fun p => (serPair (dynCodeOf (blockPairs blk))
          (dynDistCodeOf (blockPairs blk)) p).getD [])).flatten ++ rest) hne2
      rw [createCodes_fst_length] at h2
      rw [h2]
      dsimp only
      rw [decodeBlockBody_ser
        (genDecodeTable (createCodes ((blockPairs blk).map (fun p : Pair => p.sym)) 286).1)
        (genDecodeTable (createCodes ((blockPairs blk).filterMap (fun p : Pair => p.dsym)) 30).1)
        (dynCodeOf (blockPairs blk)) (dynDistCodeOf (blockPairs blk))
        (dynCodeOf_decode (blockPairs blk) hAs).1
        (dynDistCodeOf_decode (blockPairs blk) hAd)
        (dynCodeOf_decode (blockPairs blk) hAs).2
        blk _ [] rest _ hwf hlast hSerDyn (by
          rw [List.length_append]
          omega)]
      dsimp only
      rw [List.nil_append]

/-! ## Block splitting and the whole-stream serialization -/

theorem decompressLoop_nil (f : Nat) (acc : List Token) :
    decompressLoop f [] acc = some acc := by
  cases f <;> rfl

theorem tokenPairs_length_le (t : Token) (h : wfToken t) :
    (tokenPairs t).length ≤ 2 := by
  rcases h with ⟨h0, hlen, c, hc, hc256⟩ | ⟨hd, h3, h257, h512, hlit⟩
  · unfold tokenPairs
    rw [pairsOfToken_lit h0 hc]
    simp
  · obtain ⟨ls, le, hsl, -, -, -, -⟩ :=
      symLenCheck_spec (symLenCheck_all t.len (by omega) h3)
    obtain ⟨ds, de, hdd, -, -, -⟩ :=
      distCheck_spec (distCheck_all t.dist (by omega) (by omega))
    unfold tokenPairs
    rw [pairsOfToken_match (by omega) hsl hdd]
    cases hl : t.lit <;> simp

theorem blockPairs_length_le : ∀ (blk : List Token), (∀ t ∈ blk, wfToken t) →
    (blockPairs blk).length ≤ 2 * blk.length + 1 := by
  intro blk
  induction blk with
  | nil =>
    intro _
    decide
  | cons t blk2 ih =>
    intro hwf
    rw [blockPairs_cons, List.length_append, List.length_cons]
    have h1 := tokenPairs_length_le t (hwf t (List.mem_cons_self t blk2))
    have h2 := ih (fun u hu => hwf u (List.mem_cons_of_mem t hu))
    omega

theorem splitBlocksLoop_cons (t : Token) (rest : List Token) (sp : Splitter)
    (cur : List Token) (blocks : List (List Token)) :
    splitBlocksLoop (t :: rest) sp cur blocks =
      (if (shouldEndBlock
            (if t.dist = 0 then observeLiteral sp (t.lit.getD 0) else observeMatch sp t.len)
            (cur ++ [t]).length).1 then
        splitBlocksLoop rest initSplitter [] (blocks ++ [cur ++ [t]])
      else
        splitBlocksLoop rest
          (shouldEndBlock
            (if t.dist = 0 then observeLiteral sp (t.lit.getD 0) else observeMatch sp t.len)
            (cur ++ [t]).length).2
          (cur ++ [t]) blocks) := rfl

theorem splitBlocksLoop_inv : ∀ (l : List Token) (sp : Splitter) (cur : List Token)
    (blocks : List (List Token)),
    (∀ b ∈ blocks, b ≠ [] ∧ (∀ t ∈ b, wfToken t) ∧ ∀ t ∈ b.dropLast, t.lit ≠ none) →
    (∀ t ∈ cur ++ l, wfToken t) →
    (∀ t ∈ (cur ++ l).dropLast, t.lit ≠ none) →
    (splitBlocksLoop l sp cur blocks).flatten = blocks.flatten ++ (cur ++ l) ∧
      ∀ b ∈ splitBlocksLoop l sp cur blocks,
        b ≠ [] ∧ (∀ t ∈ b, wfToken t) ∧ ∀ t ∈ b.dropLast, t.lit ≠ none := by
  intro l
  induction l with
  | nil =>
    intro sp cur blocks hblocks hwf hlast
    show ((if cur = [] then blocks else blocks ++ [cur]).flatten =
        blocks.flatten ++ (cur ++ [])) ∧
      ∀ b ∈ (if cur = [] then blocks else blocks ++ [cur]),
        b ≠ [] ∧ (∀ t ∈ b, wfToken t) ∧ ∀ t ∈ b.dropLast, t.lit ≠ none
    by_cases hc : cur = []
    · subst hc
      rw [if_pos rfl]
      exact ⟨by simp, hblocks⟩
    · rw [if_neg hc]
      constructor
      · simp
      · intro b hb
        rcases List.mem_append.mp hb with hb1 | hb2
        · exact hblocks b hb1
        · have hbe : b = cur := by simpa using hb2
          subst hbe
          refine ⟨hc, ?_, ?_⟩
          · intro u hu
            exact hwf u (by simpa using hu)
          · intro u hu
            apply hlast
            simpa using hu
  | cons t rest ih =>
    intro sp cur blocks hblocks hwf hlast
    have hwf2 : ∀ u ∈ (cur ++ [t]) ++ rest, wfToken u := by
      intro u hu
      apply hwf
      rw [List.append_assoc] at hu
      simpa using hu
    have hlast2 : ∀ u ∈ ((cur ++ [t]) ++ rest).dropLast, u.lit ≠ none := by
      intro u hu
      apply hlast
      rw [List.append_assoc] at hu
      simpa using hu
    have hmemRest : ∀ u, u ∈ rest.dropLast → u ∈ (t :: rest).dropLast := by
      intro u hu
      cases rest with
      | nil => simpa using hu
      | cons r rs =>
        rw [List.dropLast_cons₂]
        exact List.mem_cons_of_mem t hu
    rw [splitBlocksLoop_cons]
    by_cases hcond : (shouldEndBlock
        (if t.dist = 0 then observeLiteral sp (t.lit.getD 0) else observeMatch sp t.len)
        (cur ++ [t]).length).1 = true
    · rw [if_pos hcond]
      have hblocks2 : ∀ b ∈ blocks ++ [cur ++ [t]],
          b ≠ [] ∧ (∀ u ∈ b, wfToken u) ∧ ∀ u ∈ b.dropLast, u.lit ≠ none := by
        intro b hb
        rcases List.mem_append.mp hb with hb1 | hb2
        · exact hblocks b hb1
        · have hbe : b = cur ++ [t] := by simpa using hb2
          subst hbe
          refine ⟨by simp, ?_, ?_⟩
          · intro u hu
            exact hwf2 u (List.mem_append_left rest hu)
          · intro u hu
            rw [List.dropLast_concat] at hu
            apply hlast
            rw [List.dropLast_append_cons]
            exact List.mem_append_left _ hu
      have h := ih initSplitter [] (blocks ++ [cur ++ [t]]) hblocks2
        (fun u hu => hwf2 u (List.mem_append_right _ (by simpa using hu)))
        (fun u hu => hlast u (by
          rw [List.dropLast_append_cons]
          exact List.mem_append_right cur (hmemRest u (by simpa using hu))))
      refine ⟨?_, h.2⟩
      rw [h.1]
      simp [List.append_assoc]
    · rw [if_neg hcond]
      have h := ih
        ((shouldEndBlock
            (if t.dist = 0 then observeLiteral sp (t.lit.getD 0) else observeMatch sp t.len)
            (cur ++ [t]).length).2)
        (cur ++ [t]) blocks hblocks hwf2 hlast2
      refine ⟨?_, h.2⟩
      rw [h.1]
      simp [List.append_assoc]

theorem splitBlocks_props (tokens : List Token)
    (hwf : ∀ t ∈ tokens, wfToken t) (hlast : ∀ t ∈ tokens.dropLast, t.lit ≠ none) :
    (splitBlocks tokens).flatten = tokens ∧
      ∀ b ∈ splitBlocks tokens,
        b ≠ [] ∧ (∀ t ∈ b, wfToken t) ∧ ∀ t ∈ b.dropLast, t.lit ≠ none := by
  have h := splitBlocksLoop_inv tokens initSplitter [] []
    (by intro b hb; exact absurd hb (List.not_mem_nil b))
    (by intro u hu; exact hwf u (by simpa using hu))
    (by intro u hu; exact hlast u (by simpa using hu))
  unfold splitBlocks
  exact ⟨by simpa using h.1, h.2⟩

theorem length_le_flatten_length : ∀ (L : List (List Token)),
    (∀ b ∈ L, b ≠ []) → L.length ≤ L.flatten.length := by
  intro L
  induction L with
  | nil =>
    intro _
    simp
  | cons b bs ih =>
    intro h
    rw [List.flatten_cons, List.length_append, List.length_cons]
    have h1 : 1 ≤ b.length :=
      List.length_pos.mpr (h b (List.mem_cons_self b bs))
    have h2 := ih (fun u hu => h u (List.mem_cons_of_mem b hu))
    omega

theorem blocksFold_decode : ∀ (blocks : List (List Token)) (acc : List Bool),
    (∀ b ∈ blocks, b ≠ [] ∧ (∀ t ∈ b, wfToken t) ∧ ∀ t ∈ b.dropLast, t.lit ≠ none) →
    ∃ bits, List.foldlM (fun a blk => (serializeBlock blk).map (a ++ ·)) acc blocks
        = some (acc ++ bits) ∧
      bits.length ≤ 34 * blocks.length + 64 * blocks.flatten.length ∧
      blocks.length ≤ bits.length ∧
      ∀ (f : Nat) (tacc : List Token), blocks.length ≤ f →
        decompressLoop f bits tacc = some (tacc ++ blocks.flatten) := by
  intro blocks
  induction blocks with
  | nil =>
    intro acc _
    refine ⟨[], ?_, by simp, by simp, ?_⟩
    · show some acc = some (acc ++ [])
      rw [List.append_nil]
    · intro f tacc _
      rw [decompressLoop_nil, List.flatten_nil, List.append_nil]
  | cons b bs ih =>
    intro acc hprops
    obtain ⟨hbne, hbwf, hblast⟩ := hprops b (List.mem_cons_self b bs)
    obtain ⟨sb, hsb, h2, hle, hstep⟩ := serializeBlock_decode b hbwf hblast
    obtain ⟨bits2, hfold2, hlen2, hcnt2, hdec2⟩ :=
      ih (acc ++ sb) (fun u hu => hprops u (List.mem_cons_of_mem b hu))
    refine ⟨sb ++ bits2, ?_, ?_, ?_, ?_⟩
    · rw [List.foldlM_cons, hsb]
      show List.foldlM (fun a blk => (serializeBlock blk).map (a ++ ·)) (acc ++ sb) bs =
        some (acc ++ (sb ++ bits2))
      rw [hfold2, List.append_assoc]
    · have hbp := blockPairs_length_le b hbwf
      rw [List.length_append, List.length_cons, List.flatten_cons, List.length_append]
      omega
    · rw [List.length_append, List.length_cons]
      omega
    · intro f tacc hf
      cases f with
      | zero =>
        rw [List.length_cons] at hf
        exact absurd hf (by omega)
      | succ f2 =>
        rw [hstep f2 bits2 tacc,
          hdec2 f2 (tacc ++ b) (by rw [List.length_cons] at hf; omega),
          List.flatten_cons, List.append_assoc]

theorem compressBits_decode (data : List Nat) (hb : ∀ b ∈ data, b < 256) :
    ∃ bits, compressBits data = some bits ∧ bits.length ≤ 98 * data.length ∧
      decompressBits bits = some data := by
  have hwf := lz77Encode_wfToken data hb
  have hlast : ∀ t ∈ (lz77Encode data).dropLast, t.lit ≠ none := by
    intro t ht
    exact lz77EncodeLoop_lastOnly data.length data 0 t ht
  obtain ⟨hflat, hprops⟩ := splitBlocks_props (lz77Encode data) hwf hlast
  obtain ⟨bits, hfold, hlen, hcnt, hdec⟩ :=
    blocksFold_decode (splitBlocks (lz77Encode data)) [] hprops
  have htok : (lz77Encode data).length ≤ data.length :=
    lz77EncodeLoop_count_le data.length data 0
  have hnb : (splitBlocks (lz77Encode data)).length ≤ (lz77Encode data).length := by
    have h := length_le_flatten_length (splitBlocks (lz77Encode data))
      (fun b hb2 => (hprops b hb2).1)
    rw [hflat] at h
    exact h
  refine ⟨bits, ?_, ?_, ?_⟩
  · unfold compressBits
    rw [hfold, List.nil_append]
  · rw [hflat] at hlen
    omega
  · unfold decompressBits
    rw [hdec bits.length [] hcnt]
    show lz77Decode ([] ++ (splitBlocks (lz77Encode data)).flatten) = some data
    rw [List.nil_append, hflat]
    unfold lz77Decode lz77Encode
    have h := lz77EncodeLoop_decode data.length data 0 (by omega)
    simpa using h

/-! ## Byte packing and unpacking -/

theorem bitsToNat_inj : ∀ (l1 l2 : List Bool), l1.length = l2.length →
    bitsToNat l1 = bitsToNat l2 → l1 = l2 := by
  intro l1
  induction l1 with
  | nil =>
    intro l2 hlen _
    cases l2 with
    | nil => rfl
    | cons b t => simp at hlen
  | cons b1 t1 ih =>
    intro l2 hlen hval
    cases l2 with
    | nil => simp at hlen
    | cons b2 t2 =>
      have h1 : bitsToNat (b1 :: t1) = bitsToNat [b1] * 2 ^ t1.length + bitsToNat t1 := by
        have h : (b1 :: t1) = [b1] ++ t1 := rfl
        rw [h, bitsToNat_append]
      have h2 : bitsToNat (b2 :: t2) = bitsToNat [b2] * 2 ^ t2.length + bitsToNat t2 := by
        have h : (b2 :: t2) = [b2] ++ t2 := rfl
        rw [h, bitsToNat_append]
      have hlt1 := bitsToNat_lt t1
      have hlt2 := bitsToNat_lt t2
      have hlen2 : t1.length = t2.length := by simpa using hlen
      rw [h1, h2, hlen2] at hval
      rw [hlen2] at hlt1
      have hf : bitsToNat [false] = 0 := rfl
      have ht : bitsToNat [true] = 1 := rfl
      cases b1 <;> cases b2
      · rw [hf] at hval
        rw [ih t2 hlen2 (by omega)]
      · rw [hf, ht] at hval
        exact absurd hval (by omega)
      · rw [ht, hf] at hval
        exact absurd hval (by omega)
      · rw [ht] at hval
        rw [ih t2 hlen2 (by omega)]

theorem toBinPadded_bitsToNat (c : List Bool) (hc : c ≠ []) :
    toBinPadded (bitsToNat c) c.length = c := by
  have hlen : (toBinPadded (bitsToNat c) c.length).length = c.length :=
    toBinPadded_length (bitsToNat c) c.length (List.length_pos.mpr hc) (bitsToNat_lt c)
  exact bitsToNat_inj _ c hlen (by rw [bitsToNat_toBinPadded])

theorem packBytesF_roundtrip : ∀ (fuel : Nat) (l : List Bool), l.length ≤ fuel →
    l.length % 8 = 0 →
    ((packBytesF fuel l).map (fun b => toBinPadded b 8)).flatten = l := by
  intro fuel
  induction fuel with
  | zero =>
    intro l hfuel _
    have h : l = [] := List.eq_nil_of_length_eq_zero (by omega)
    subst h
    rfl
  | succ f ih =>
    intro l hfuel hmod
    cases l with
    | nil => rfl
    | cons b t =>
      show ((bitsToNat ((b :: t).take 8) :: packBytesF f ((b :: t).drop 8)).map
        (fun v => toBinPadded v 8)).flatten = b :: t
      rw [List.map_cons, List.flatten_cons]
      have hlen8 : 8 ≤ (b :: t).length := by
        rw [List.length_cons] at hmod ⊢
        omega
      have htake : ((b :: t).take 8).length = 8 := by
        rw [List.length_take]
        omega
      have hdlen : ((b :: t).drop 8).length = (b :: t).length - 8 := List.length_drop 8 _
      rw [ih ((b :: t).drop 8)
        (by rw [hdlen]; rw [List.length_cons] at hfuel ⊢; omega)
        (by rw [hdlen]; omega)]
      have heq : toBinPadded (bitsToNat ((b :: t).take 8)) 8 = (b :: t).take 8 := by
        have h := toBinPadded_bitsToNat ((b :: t).take 8) (by
          intro hnil
          rw [hnil] at htake
          simp at htake)
        rw [htake] at h
        exact h
      rw [heq]
      exact List.take_append_drop 8 (b :: t)

theorem packBytes_roundtrip (l : List Bool) (hmod : l.length % 8 = 0) :
    ((packBytes l).map (fun b => toBinPadded b 8)).flatten = l :=
  packBytesF_roundtrip l.length l (Nat.le_refl _) hmod

theorem toBytesBE_length : ∀ (k n : Nat), (toBytesBE n k).length = k := by
  intro k
  induction k with
  | zero =>
    intro n
    rfl
  | succ m ih =>
    intro n
    show (toBytesBE (n / 256) m ++ [n % 256]).length = m + 1
    rw [List.length_append, ih]
    rfl

theorem fromBytesBE_toBytesBE : ∀ (k n : Nat), n < 256 ^ k →
    fromBytesBE (toBytesBE n k) = n := by
  intro k
  induction k with
  | zero =>
    intro n hn
    rw [pow_zero] at hn
    have h : n = 0 := by omega
    subst h
    rfl
  | succ m ih =>
    intro n hn
    show fromBytesBE (toBytesBE (n / 256) m ++ [n % 256]) = n
    unfold fromBytesBE
    rw [List.foldl_append]
    have h1 := ih (n / 256) (by
      rw [pow_succ] at hn
      omega)
    unfold fromBytesBE at h1
    rw [h1]
    show n / 256 * 256 + n % 256 = n
    omega

theorem bytesToBinaryString_roundtrip (bits : List Bool) (h : bits.length < 2 ^ 32) :
    ∃ bs, binaryStringToBytes bits = some bs ∧ bytesToBinaryString bs = bits := by
  refine ⟨toBytesBE bits.length 4 ++
    packBytes (bits ++ List.replicate ((8 - bits.length % 8) % 8) false), ?_, ?_⟩
  · unfold binaryStringToBytes
    rw [if_pos h]
  · unfold bytesToBinaryString
    have hlen4 : (toBytesBE bits.length 4).length = 4 := toBytesBE_length 4 bits.length
    rw [List.take_left' hlen4, List.drop_left' hlen4,
      fromBytesBE_toBytesBE 4 bits.length (by
        have h1 : (2:Nat) ^ 32 = 4294967296 := by norm_num
        have h2 : (256:Nat) ^ 4 = 4294967296 := by norm_num
        omega),
      packBytes_roundtrip _ (by
        rw [List.length_append, List.length_replicate]
        omega)]
    exact List.take_left' rfl

/-! ## Claim theorems -/

/-- C2.  The decoder does not reject the reserved block headers: the 9-bit
stream `"11" ++ "0000000"` (header `11`, then the 7-bit fixed code of the
end-of-block symbol 256), packed as bytes `00 00 00 09 C0 00`, is silently
decoded as a fixed-Huffman block yielding the empty buffer, and likewise
with header `00`; the spec instead demands an "invalid block header"
failure on any header other than `01` and `10`. -/
theorem c2_reserved_headers_not_rejected :
    decompress [0, 0, 0, 9, 192, 0] = some [] ∧
    decompress [0, 0, 0, 9, 0, 0] = some [] ∧
    bytesToBinaryString [0, 0, 0, 9, 192, 0] =
      [true, true, false, false, false, false, false, false, false] := by
  decide

/-- C3.  The matcher does not always find the largest window match: with
search window `"abc"` and lookahead `"abcd"` the window position `j = 0`
matches the lookahead prefix of length `3 ≥ 3`, yet `_partial_kmp_search`
returns no match (`(-1, 0)`) because a partial match that reaches the end
of the search string is never recorded; consequently `encode` on
`b"abcabcd"` emits only literals at cursor 3 instead of the length-3
match. -/
theorem c3_kmp_misses_longest_match :
    [97, 98, 99].take 3 = [97, 98, 99, 100].take 3 ∧
    kmpPartialSearch [97, 98, 99] [97, 98, 99, 100] (2 ^ 20) 3 = (-1, 0) ∧
    lz77Encode [97, 98, 99, 97, 98, 99, 100] =
      [Token.mk 0 0 (some 97), Token.mk 0 0 (some 98), Token.mk 0 0 (some 99),
       Token.mk 0 0 (some 97), Token.mk 0 0 (some 98), Token.mk 0 0 (some 99),
       Token.mk 0 0 (some 100)] := by
  decide

/-- C4 (counterexample).  On `b"abcabcabcabc"` the matcher emits 7 tokens,
not at most 5 as claimed. -/
theorem c4_counterexample :
    (lz77Encode c4Input).length = 7 ∧ ¬ (lz77Encode c4Input).length ≤ 5 := by
  decide

/-- C4 (amended).  On `b"abcabcabcabc"` the matcher emits exactly 7 tokens:
the literals `a b c a b c` followed by a match of length 6 with distance 6,
and the token stream decodes back to the exact input. -/
theorem c4_amended :
    lz77Encode c4Input =
      [Token.mk 0 0 (some 97), Token.mk 0 0 (some 98), Token.mk 0 0 (some 99),
       Token.mk 0 0 (some 97), Token.mk 0 0 (some 98), Token.mk 0 0 (some 99),
       Token.mk 6 6 none] ∧
    lz77Decode (lz77Encode c4Input) = some c4Input := by
  decide

/-- C5 (counterexample).  For the block `c5Block` the fixed and dynamic
frames have exactly equal bit length, yet the encoder emits the block
header `"10"` followed by the dynamic frame — not `"01"` with the fixed
frame as the claim requires on a tie. -/
theorem c5_counterexample :
    ((pairsOfBlock c5Block).bind dynFrame).map List.length =
      ((pairsOfBlock c5Block).bind fixedFrame).map List.length ∧
    (serializeBlock c5Block).map (List.take 2) = some [true, false] ∧
    [true, false] ≠ [false, true] := by
  decide

/-- C5 (amended).  For every block, the encoder emits header `"01"` plus
the fixed frame exactly when the fixed frame is strictly shorter than the
dynamic frame; otherwise — ties included — it emits header `"10"` plus the
dynamic frame. -/
theorem c5_amended (blk : List Token) (pairs : List Pair)
    (h : pairsOfBlock blk = some pairs) :
    serializeBlock blk =
      (dynFrame pairs).bind (fun dyn => (fixedFrame pairs).map (fun fix =>
        if fix.length < dyn.length then [false, true] ++ fix
        else [true, false] ++ dyn)) := by
  have hs : serializeBlock blk =
      match dynFrame pairs, fixedFrame pairs with
      | some dyn, some fix => some (chooseFrame dyn fix)
      | _, _ => none := by
    unfold serializeBlock
    rw [h]
  rw [hs]
  cases dynFrame pairs with
  | none => rfl
  | some dyn =>
    cases fixedFrame pairs with
    | none => rfl
    | some fix => rfl

/-- Witness for C5 on the single-literal block `[b'a']`. -/
theorem c5_amended_witness :
    serializeBlock [Token.mk 0 0 (some 97)] =
      (dynFrame [Pair.mk 97 none none none, Pair.mk 256 none none none]).bind
        (fun dyn =>
          (fixedFrame [Pair.mk 97 none none none, Pair.mk 256 none none none]).map
            (fun fix =>
              if fix.length < dyn.length then [false, true] ++ fix
              else [true, false] ++ dyn)) :=
  c5_amended [Token.mk 0 0 (some 97)]
    [Pair.mk 97 none none none, Pair.mk 256 none none none] (by decide)

/-- C7 (counterexample).  On the empty vector the decoder raises
(`decode(b"", 0)` hits the "insufficient data" check before the
zero-count exit), so `decode(encode([]), 0)` is an error, not `([], b"")`. -/
theorem c7_counterexample :
    intDecode (intEncode []) 0 = none ∧ intEncode [] = [] := by
  decide

/-- C7 (amended).  For every non-empty vector of naturals below `2 ^ 32`,
decoding its encoding with its length returns the vector with an empty
remainder. -/
theorem c7_amended (v : List Nat) (hv : v ≠ []) (hbound : ∀ x ∈ v, x < 2 ^ 32) :
    intDecode (intEncode v) v.length = some (v, []) := by
  have := intDecode_intEncode v [] hv
  simpa using this

/-- Witness for C7 at `v = [0, 5, 4294967295]`. -/
theorem c7_amended_witness :
    intDecode (intEncode [0, 5, 4294967295]) 3 = some ([0, 5, 4294967295], []) :=
  c7_amended [0, 5, 4294967295] (by decide) (by decide)

/-- C8 (counterexample).  `bin(0)[2:]` is `"0"`, not the empty string, so
the encoder represents 0 as one one-bit, the zero separator and the payload
`"0"` — the three bits `"100"` — not as the single bit `"0"`. -/
theorem c8_counterexample :
    intEncode [0] = [true, false, false] ∧ intEncode [0] ≠ [false] := by
  decide

/-- C8 (amended).  The encoding of an integer `n` is `len(bin(n)) ` one-bits,
a zero separator, then `bin(n)`, where `bin(0) = "0"` (so 0 encodes as
`"100"`) and `bin(n)` has no leading zero for positive `n`. -/
theorem c8_amended :
    natBits 0 = [false] ∧
    intEncode [0] = [true, false, false] ∧
    (∀ n : Nat, intEncodeOne n =
      List.replicate (natBits n).length true ++ [false] ++ natBits n) ∧
    (∀ (n : Nat) (v : List Nat), intEncode (n :: v) = intEncodeOne n ++ intEncode v) ∧
    (∀ n : Nat, 0 < n → (natBits n).head? = some true) :=
  ⟨rfl, by decide, fun _ => rfl, intEncode_cons, natBits_head_true⟩

/-- Witness for C8 at `n = 5`. -/
theorem c8_amended_witness : (natBits 5).head? = some true :=
  c8_amended.2.2.2.2 5 (by decide)

/-- C6.  For every byte buffer `x`, decoding the token stream produced by
`LZ77Compressor.encode` reconstructs `x` exactly. -/
theorem c6_lz77_roundtrip (x : List Nat) (hbytes : ∀ b ∈ x, b < 256) :
    lz77Decode (lz77Encode x) = some x := by
  have h := lz77EncodeLoop_decode x.length x 0 (by omega)
  simpa [lz77Decode, lz77Encode] using h

/-- Witness for C6 at `x = [1, 2, 3]`. -/
theorem c6_lz77_roundtrip_witness : lz77Decode (lz77Encode [1, 2, 3]) = some [1, 2, 3] :=
  c6_lz77_roundtrip [1, 2, 3] (by decide)

/-- C10.  Every match token (distance > 0) emitted by `LZ77Compressor.encode`
has `3 ≤ length ≤ 257`, `length ≤ distance` (no overlapping copy) and
`distance ≤ 512` (never farther back than the 512-byte window); in
particular a match of length 258 is never emitted. -/
theorem c10_match_token_bounds (data : List Nat) (t : Token)
    (ht : t ∈ lz77Encode data) (hd : 0 < t.dist) :
    3 ≤ t.len ∧ t.len ≤ 257 ∧ t.len ≤ t.dist ∧ t.dist ≤ 512 :=
  lz77EncodeLoop_token_inv data.length data 0 t ht hd

/-- Witness for C10: the match token `(3, 3, ∅)` emitted on
`b"\x07" * 6`. -/
theorem c10_match_token_bounds_witness :
    3 ≤ (Token.mk 3 3 none).len ∧ (Token.mk 3 3 none).len ≤ 257 ∧
      (Token.mk 3 3 none).len ≤ (Token.mk 3 3 none).dist ∧
      (Token.mk 3 3 none).dist ≤ 512 :=
  c10_match_token_bounds [7, 7, 7, 7, 7, 7] (Token.mk 3 3 none) (by decide) (by decide)

/-- C9.  Every frequency map the program builds is `Counter(data)` for some
data stream, and its counts are positive; for any such map over symbols below
the alphabet size, the code table produced by `HuffmanCompressor.create_codes`
is prefix-free (no code word is a prefix of another, in particular no proper
prefix) and assigns a code word to every symbol occurring in the data. -/
theorem c9_codes_prefix_free_and_total (data : List Nat) (A : Nat)
    (hA : ∀ s ∈ data, s < A) :
    List.Pairwise (fun p q => ¬ p.2 <+: q.2 ∧ ¬ q.2 <+: p.2) (createCodes data A).2 ∧
      ∀ s ∈ data, ∃ c, (s, c) ∈ (createCodes data A).2 := by
  have h := createCodes_props data A hA
  exact ⟨h.1, h.2.1⟩

/-- Witness for C9 on the data stream `[0, 1]` with alphabet size 2. -/
theorem c9_codes_prefix_free_and_total_witness :
    (∀ s ∈ [0, 1], s < 2) ∧
      (List.Pairwise (fun p q => ¬ p.2 <+: q.2 ∧ ¬ q.2 <+: p.2)
          (createCodes [0, 1] 2).2 ∧
        ∀ s ∈ [0, 1], ∃ c, (s, c) ∈ (createCodes [0, 1] 2).2) :=
  ⟨by decide, c9_codes_prefix_free_and_total [0, 1] 2 (by decide)⟩

/-- C1.  For every byte buffer `x` (each entry below 256) with
`|x| ≤ 2 ^ 20`, `compress x` succeeds and `decompress` maps its output back
to `x`: the compressor followed by the decompressor is the identity on byte
buffers. -/
theorem c1_compress_decompress_roundtrip (x : List Nat)
    (hb : ∀ b ∈ x, b < 256) (hlen : x.length ≤ 2 ^ 20) :
    ∃ out, compress x = some out ∧ decompress out = some x := by
  obtain ⟨bits, hcomp, hblen, hdec⟩ := compressBits_decode x hb
  have hlt : bits.length < 2 ^ 32 := by
    have h1 : (2:Nat) ^ 20 = 1048576 := by norm_num
    have h2 : (2:Nat) ^ 32 = 4294967296 := by norm_num
    omega
  obtain ⟨bs, hser, hun⟩ := bytesToBinaryString_roundtrip bits hlt
  refine ⟨bs, ?_, ?_⟩
  · unfold compress
    rw [hcomp]
    exact hser
  · unfold decompress
    rw [hun]
    exact hdec

/-- Witness for C1: the roundtrip on the two-byte buffer `b"ab"`. -/
theorem c1_compress_decompress_roundtrip_witness :
    ∃ out, compress [97, 98] = some out ∧ decompress out = some [97, 98] :=
  c1_compress_decompress_roundtrip [97, 98] (by decide) (by decide)

end Pydeflate
